import Mathlib

/-!
# Pending-transaction indexer

A shallow embedding of `application/pendingtx/pendingindex/pendingtxindexer.go`.

The composite `PendingTxIndexer` owns three sub-indices that share one
key-value transaction: the insertion-order index, the UTXO ref-linker and the
epoch-constrained list.  The composite is embedded over an arbitrary
transaction state `σ` and an arbitrary implementation of the sub-index
operations (`SubIndices σ`), each of which takes the transaction state and
returns the new transaction state together with every value of its Go result
tuple.  A Go `error` is `Option Err` (`none` is `nil`), a Go `[][]byte` is
`Slice` (`none` is the nil slice).
-/

namespace PendingIndex

/-- A byte string (`[]byte`), by value. -/
abbrev Hash := List Nat

/-- The error kinds a sub-index can return; `notFound` is `badger.ErrKeyNotFound`. -/
inductive Err where
  | notFound
  | duplicateKey
  | invalidInput
  | invariantViolation
  | storage (code : Nat)
  deriving DecidableEq, Repr

/-- A Go slice of byte strings: `none` is the nil slice. -/
abbrev Slice := Option (List Hash)

/-- The elements of a slice; `len` and `range` see a nil slice as empty. -/
def Slice.elems (s : Slice) : List Hash := s.getD []

/-- Go `len`. -/
def Slice.len (s : Slice) : Nat := s.elems.length

/-- Go `append(s, x)`: always a non-nil slice. -/
def Slice.append (s : Slice) (x : Hash) : Slice := some (s.elems ++ [x])

/-- `utils.CopySlice`: a fresh slice with the same bytes. -/
def CopySlice (b : Hash) : Hash := b

/-- The sub-index operations the composite calls, over a transaction state `σ`.
Every operation returns the transaction state after the call and all the
values of the Go result tuple (the error last). -/
structure SubIndices (σ : Type) where
  orderAdd : σ → Hash → σ × Option Err
  orderDelete : σ → Hash → σ × Option Err
  orderNewIter : σ → List Hash
  reflinkAdd : σ → Hash → List Hash → σ × Bool × Slice × Option Err
  reflinkDelete : σ → Hash → σ × Option Err
  reflinkDeleteMined : σ → Hash → σ × Slice × Slice × Option Err
  expirationAppend : σ → Nat → Hash → σ × Option Err
  expirationDrop : σ → Hash → σ × Option Err
  expirationDropBefore : σ → Nat → σ × Slice × Option Err
  expirationGetEpoch : σ → Hash → Nat × Option Err

namespace PendingTxIndexer

variable {σ : Type}

/-- `PendingTxIndexer.DeleteOne`. -/
def DeleteOne (pti : SubIndices σ) (txn : σ) (txHash : Hash) : σ × Option Err :=
  match pti.reflinkDelete txn txHash with
  | (t1, err1) =>
    if err1 ≠ none ∧ err1 ≠ some Err.notFound then (t1, err1) else
    match pti.orderDelete t1 txHash with
    | (t2, err2) =>
      if err2 ≠ none ∧ err2 ≠ some Err.notFound then (t2, err2) else
      match pti.expirationDrop t2 txHash with
      | (t3, err3) =>
        if err3 ≠ none ∧ err3 ≠ some Err.notFound then (t3, err3) else
        (t3, none)

/-- The eviction loop of `Add`: `DeleteOne` on each element, stopping at the
first error. -/
def evictLoop (pti : SubIndices σ) : σ → List Hash → σ × Option Err
  | txn, [] => (txn, none)
  | txn, e :: rest =>
    let txHash := CopySlice e
    match DeleteOne pti txn (CopySlice txHash) with
    | (t1, some err) => (t1, some err)
    | (t1, none) => evictLoop pti t1 rest

/-- `PendingTxIndexer.Add`. -/
def Add (pti : SubIndices σ) (txn : σ) (epoch : Nat) (txHash : Hash) (utxoIDs : List Hash) :
    σ × Slice × Option Err :=
  match pti.orderAdd txn txHash with
  | (t1, some err) => (t1, none, some err)
  | (t1, none) =>
    match pti.reflinkAdd t1 txHash utxoIDs with
    | (t2, _, _, some err) => (t2, none, some err)
    | (t2, eviction, evicted, none) =>
      match (if eviction then evictLoop pti t2 evicted.elems else (t2, none)) with
      | (t3, some err) => (t3, none, some err)
      | (t3, none) =>
        match pti.expirationAppend t3 epoch txHash with
        | (t4, some err) => (t4, none, some err)
        | (t4, none) => (t4, evicted, none)

/-- The body of the loop of `DeleteMined`: the three sub-deletes on one hash. -/
def minedStep (pti : SubIndices σ) (txn : σ) (txHash : Hash) : σ × Option Err :=
  match pti.reflinkDelete txn (CopySlice txHash) with
  | (t1, err1) =>
    if err1 ≠ none ∧ err1 ≠ some Err.notFound then (t1, err1) else
    match pti.orderDelete t1 (CopySlice txHash) with
    | (t2, err2) =>
      if err2 ≠ none ∧ err2 ≠ some Err.notFound then (t2, err2) else
      match pti.expirationDrop t2 (CopySlice txHash) with
      | (t3, err3) =>
        if err3 ≠ none ∧ err3 ≠ some Err.notFound then (t3, err3) else
        (t3, none)

/-- The loop of `DeleteMined` over `txHashes`. -/
def minedLoop (pti : SubIndices σ) : σ → List Hash → σ × Option Err
  | txn, [] => (txn, none)
  | txn, e :: rest =>
    match minedStep pti txn (CopySlice e) with
    | (t1, some err) => (t1, some err)
    | (t1, none) => minedLoop pti t1 rest

/-- `PendingTxIndexer.DeleteMined`. -/
def DeleteMined (pti : SubIndices σ) (txn : σ) (txHash : Hash) : σ × Slice × Slice × Option Err :=
  match pti.reflinkDeleteMined txn txHash with
  | (t1, txHashes, utxoIDs, err) =>
    if err ≠ none ∧ err ≠ some Err.notFound then (t1, none, none, err) else
    let txHashes1 := txHashes.append txHash
    match minedLoop pti t1 txHashes1.elems with
    | (t2, some e) => (t2, none, none, some e)
    | (t2, none) => (t2, txHashes1, utxoIDs, none)

/-- The loop of `DropBefore`: `DeleteOne` on each element; an error other than
`notFound` stops the loop. -/
def dropLoop (pti : SubIndices σ) : σ → List Hash → σ × Option Err
  | txn, [] => (txn, none)
  | txn, e :: rest =>
    let txHash := CopySlice e
    match DeleteOne pti txn (CopySlice txHash) with
    | (t1, err) =>
      if err ≠ none ∧ err ≠ some Err.notFound then (t1, err) else dropLoop pti t1 rest

/-- `PendingTxIndexer.DropBefore`. -/
def DropBefore (pti : SubIndices σ) (txn : σ) (epoch : Nat) : σ × Slice × Option Err :=
  match pti.expirationDropBefore txn epoch with
  | (t1, txHashes, err) =>
    if err ≠ none ∧ err ≠ some Err.notFound then (t1, none, err) else
    match dropLoop pti t1 txHashes.elems with
    | (t2, some e) => (t2, none, some e)
    | (t2, none) => (t2, txHashes, none)

/-- `PendingTxIndexer.GetEpoch`. -/
def GetEpoch (pti : SubIndices σ) (txn : σ) (txHash : Hash) : Nat × Option Err :=
  pti.expirationGetEpoch txn txHash

/-- `PendingTxIndexer.GetOrderedIter`. -/
def GetOrderedIter (pti : SubIndices σ) (txn : σ) : List Hash :=
  pti.orderNewIter txn

end PendingTxIndexer

/-! ## Call traces

To speak about which sub-index calls an operation makes, and in which order,
any implementation is wrapped so that every call is recorded, with its
arguments and the error it returned, at the end of a log carried next to the
transaction state. -/

/-- A sub-index call with its arguments. -/
inductive Call where
  | orderAdd (txHash : Hash)
  | orderDelete (txHash : Hash)
  | reflinkAdd (txHash : Hash) (utxoIDs : List Hash)
  | reflinkDelete (txHash : Hash)
  | reflinkDeleteMined (txHash : Hash)
  | expirationAppend (epoch : Nat) (txHash : Hash)
  | expirationDrop (txHash : Hash)
  | expirationDropBefore (epoch : Nat)
  deriving DecidableEq, Repr

/-- One recorded call: what was called and the error it returned. -/
structure Event where
  call : Call
  err : Option Err
  deriving DecidableEq, Repr

/-- The recording wrapper around a sub-index implementation. -/
def traced {σ : Type} (ix : SubIndices σ) : SubIndices (σ × List Event) where
  orderAdd := fun t h =>
    (((ix.orderAdd t.1 h).1, t.2 ++ [⟨Call.orderAdd h, (ix.orderAdd t.1 h).2⟩]),
      (ix.orderAdd t.1 h).2)
  orderDelete := fun t h =>
    (((ix.orderDelete t.1 h).1, t.2 ++ [⟨Call.orderDelete h, (ix.orderDelete t.1 h).2⟩]),
      (ix.orderDelete t.1 h).2)
  orderNewIter := fun t => ix.orderNewIter t.1
  reflinkAdd := fun t h us =>
    (((ix.reflinkAdd t.1 h us).1,
      t.2 ++ [⟨Call.reflinkAdd h us, (ix.reflinkAdd t.1 h us).2.2.2⟩]),
      (ix.reflinkAdd t.1 h us).2)
  reflinkDelete := fun t h =>
    (((ix.reflinkDelete t.1 h).1, t.2 ++ [⟨Call.reflinkDelete h, (ix.reflinkDelete t.1 h).2⟩]),
      (ix.reflinkDelete t.1 h).2)
  reflinkDeleteMined := fun t h =>
    (((ix.reflinkDeleteMined t.1 h).1,
      t.2 ++ [⟨Call.reflinkDeleteMined h, (ix.reflinkDeleteMined t.1 h).2.2.2⟩]),
      (ix.reflinkDeleteMined t.1 h).2)
  expirationAppend := fun t ep h =>
    (((ix.expirationAppend t.1 ep h).1,
      t.2 ++ [⟨Call.expirationAppend ep h, (ix.expirationAppend t.1 ep h).2⟩]),
      (ix.expirationAppend t.1 ep h).2)
  expirationDrop := fun t h =>
    (((ix.expirationDrop t.1 h).1, t.2 ++ [⟨Call.expirationDrop h, (ix.expirationDrop t.1 h).2⟩]),
      (ix.expirationDrop t.1 h).2)
  expirationDropBefore := fun t ep =>
    (((ix.expirationDropBefore t.1 ep).1,
      t.2 ++ [⟨Call.expirationDropBefore ep, (ix.expirationDropBefore t.1 ep).2.2⟩]),
      (ix.expirationDropBefore t.1 ep).2)
  expirationGetEpoch := fun t h => ix.expirationGetEpoch t.1 h

/-! ## The three sub-indices

The package `application/indexer` is modelled from the specification (§3,
§4.1 to §4.4).  The persisted state is the data model of §3: a key family and
its reverse family, which every operation writes and deletes together, are one
list of records; the lists are unordered bags and a scan sorts what it visits
by key, as an iterator over the key-value store does. -/

/-- Modelled from the spec: a record of the insertion-order index (absent from
the sources, spec §4.1 and §4.2), standing for the forward entry
`seq → txHash` and the reverse entry `txHash → seq`. -/
structure OrderEntry where
  seq : Nat
  txHash : Hash
  deriving DecidableEq, Repr

/-- Modelled from the spec: a reference (absent from the sources, spec §3 and
§4.1), standing for the forward edge `(utxoId, seq) → txHash` and the reverse
edge `(txHash, utxoId) → seq`. -/
structure Reference where
  utxoId : Hash
  txHash : Hash
  seq : Nat
  deriving DecidableEq, Repr

/-- Modelled from the spec: a record of the epoch-constrained list (absent from
the sources, spec §4.1 and §4.4), standing for the forward entry
`(epoch, seq) → txHash` and the reverse entry `txHash → (epoch, seq)`. -/
structure EpochEntry where
  epoch : Nat
  seq : Nat
  txHash : Hash
  deriving DecidableEq, Repr

/-- Modelled from the spec: the persisted state of the three sub-indices inside
one transaction (absent from the sources, spec §3, §4.1 and §6): the seq
counter and records of the insertion-order index, the references and the
per-UTXO reference counts of the ref-linker, the seq counter and records of
the epoch-constrained list. -/
structure Store where
  orderCounter : Nat
  order : List OrderEntry
  refs : List Reference
  refCount : List (Hash × Nat)
  epochCounter : Nat
  epochs : List EpochEntry
  deriving DecidableEq, Repr

/-- The empty store. -/
def Store.empty : Store := ⟨0, [], [], [], 0, []⟩

/-- Modelled from the spec: the key order of the forward entries of the
insertion-order index (absent from the sources, spec §4.1): by seq. -/
def OrderEntry.before (a b : OrderEntry) : Prop := a.seq ≤ b.seq

instance : DecidableRel OrderEntry.before :=
  fun a b => inferInstanceAs (Decidable (a.seq ≤ b.seq))

instance : IsTotal OrderEntry OrderEntry.before := ⟨fun a b => Nat.le_total a.seq b.seq⟩

instance : IsTrans OrderEntry OrderEntry.before := ⟨fun _ _ _ h1 h2 => Nat.le_trans h1 h2⟩

/-- Modelled from the spec: the key order of the forward edges of one UTXO
(absent from the sources, spec §4.1): by seq. -/
def Reference.older (a b : Reference) : Prop := a.seq ≤ b.seq

instance : DecidableRel Reference.older :=
  fun a b => inferInstanceAs (Decidable (a.seq ≤ b.seq))

instance : IsTotal Reference Reference.older := ⟨fun a b => Nat.le_total a.seq b.seq⟩

instance : IsTrans Reference Reference.older := ⟨fun _ _ _ h1 h2 => Nat.le_trans h1 h2⟩

/-- Modelled from the spec: the key order of the forward entries of the epoch
list (absent from the sources, spec §4.1 and §4.4): by epoch, then by seq. -/
def EpochEntry.before (a b : EpochEntry) : Prop :=
  a.epoch < b.epoch ∨ (a.epoch = b.epoch ∧ a.seq ≤ b.seq)

instance : DecidableRel EpochEntry.before :=
  fun a b => inferInstanceAs (Decidable (a.epoch < b.epoch ∨ (a.epoch = b.epoch ∧ a.seq ≤ b.seq)))

instance : IsTotal EpochEntry EpochEntry.before :=
  ⟨fun a b => by unfold EpochEntry.before; omega⟩

instance : IsTrans EpochEntry EpochEntry.before :=
  ⟨fun a b c h1 h2 => by unfold EpochEntry.before at *; omega⟩

/-- Modelled from the spec: reading `RefCount(utxoId)` (absent from the
sources, spec §4.3 step 1); an absent count key reads as 0. -/
def getCount : List (Hash × Nat) → Hash → Nat
  | [], _ => 0
  | (k, n) :: rest, u => if k = u then n else getCount rest u

/-- Modelled from the spec: whether the count key of `u` exists (absent from
the sources, spec §4.1). -/
def hasCount (cs : List (Hash × Nat)) (u : Hash) : Bool := cs.any (fun p => decide (p.1 = u))

/-- Modelled from the spec: deleting the count key of `u` (absent from the
sources, spec §4.3). -/
def delCount (cs : List (Hash × Nat)) (u : Hash) : List (Hash × Nat) :=
  cs.filter (fun p => decide (p.1 ≠ u))

/-- Modelled from the spec: storing `n` under the count key of `u` (absent from
the sources, spec §4.3 step 3). -/
def setCount (cs : List (Hash × Nat)) (u : Hash) (n : Nat) : List (Hash × Nat) :=
  (u, n) :: delCount cs u

/-- Modelled from the spec: decrementing the count of `u` (absent from the
sources, spec §4.3 delete), removing the count key at 0. -/
def decCount (cs : List (Hash × Nat)) (u : Hash) : List (Hash × Nat) :=
  if getCount cs u ≤ 1 then delCount cs u else setCount cs u (getCount cs u - 1)

/-- Modelled from the spec: the forward scan of the prefix
`P_UTXO_FWD ‖ utxoId` (absent from the sources, spec §4.3): the references on
`u`, lowest seq first. -/
def scanRefs (refs : List Reference) (u : Hash) : List Reference :=
  (refs.filter (fun r => decide (r.utxoId = u))).insertionSort Reference.older

/-- Modelled from the spec: the oldest reference on `u` (absent from the
sources, spec §4.3 step 4): the first entry of the forward scan. -/
def oldestRef (refs : List Reference) (u : Hash) : Option Reference :=
  (scanRefs refs u).head?

/-- Modelled from the spec: the InsertionOrderIndex seq of `txHash` (absent
from the sources, spec §4.1 and §4.2), read from its reverse entry. -/
def orderSeq (order : List OrderEntry) (txHash : Hash) : Option Nat :=
  (order.find? (fun x => decide (x.txHash = txHash))).map OrderEntry.seq

namespace Spec

/-- Modelled from the spec: `InsertionOrderIndex.add` (absent from the sources,
spec §4.2): `DuplicateKey` if the reverse entry exists, otherwise the next seq
is reserved and the entry written. -/
def orderAdd (s : Store) (txHash : Hash) : Store × Option Err :=
  if s.order.any (fun x => decide (x.txHash = txHash)) then (s, some Err.duplicateKey)
  else
    ({ s with orderCounter := s.orderCounter + 1,
              order := s.order ++ [⟨s.orderCounter + 1, txHash⟩] }, none)

/-- Modelled from the spec: `InsertionOrderIndex.delete` (absent from the
sources, spec §4.2): `NotFound` if the reverse entry is absent, otherwise the
forward and reverse entries are deleted. -/
def orderDelete (s : Store) (txHash : Hash) : Store × Option Err :=
  if s.order.any (fun x => decide (x.txHash = txHash)) then
    ({ s with order := s.order.filter (fun x => decide (x.txHash ≠ txHash)) }, none)
  else (s, some Err.notFound)

/-- Modelled from the spec: `InsertionOrderIndex.newIter` (absent from the
sources, spec §4.2): the txHashes in insertion order. -/
def orderNewIter (s : Store) : List Hash :=
  (s.order.insertionSort OrderEntry.before).map OrderEntry.txHash

/-- Modelled from the spec: one round of the `RefLinker.add` algorithm (absent
from the sources, spec §4.3 steps 1 to 4) for one utxoId: read the count, write
the edge, store the incremented count and, when the count exceeds the cap,
collect the oldest txHash of the forward scan into the evicted list. -/
def refAddStep (maxRefs : Nat) (txHash : Hash) (seq : Nat) (acc : Store × List Hash)
    (u : Hash) : Store × List Hash :=
  let c := getCount acc.1.refCount u
  let s1 : Store :=
    { acc.1 with refs := acc.1.refs ++ [⟨u, txHash, seq⟩],
                 refCount := setCount acc.1.refCount u (c + 1) }
  if c + 1 > maxRefs then
    match oldestRef s1.refs u with
    | some r => (s1, acc.2 ++ [r.txHash])
    | none => (s1, acc.2)
  else (s1, acc.2)

/-- Modelled from the spec: `RefLinker.add` (absent from the sources, spec
§4.3): a utxoIds list with a repeated utxoId is rejected with `InvalidInput`;
the seq of the edges is the InsertionOrderIndex seq of txHash (§4.1); then the
add algorithm runs for each utxoId.  The evicted transactions are reported and
left for the composite to delete (§4.3 step 4, §4.5 step 3). -/
def reflinkAdd (maxRefs : Nat) (s : Store) (txHash : Hash) (utxoIDs : List Hash) :
    Store × Bool × Slice × Option Err :=
  if ¬ utxoIDs.Nodup then (s, false, none, some Err.invalidInput) else
  match orderSeq s.order txHash with
  | none => (s, false, none, some Err.notFound)
  | some seq =>
    let r := utxoIDs.foldl (refAddStep maxRefs txHash seq) (s, [])
    (r.1, !r.2.isEmpty, some r.2, none)

/-- Modelled from the spec: `RefLinker.delete` (absent from the sources, spec
§4.3): removes all ref entries owned by txHash, decrements the counts and
removes count keys at 0; `NotFound` if txHash owns no ref entry. -/
def reflinkDelete (s : Store) (txHash : Hash) : Store × Option Err :=
  let owned := s.refs.filter (fun r => decide (r.txHash = txHash))
  if owned.isEmpty then (s, some Err.notFound) else
  ({ s with refs := s.refs.filter (fun r => decide (r.txHash ≠ txHash)),
            refCount := owned.foldl (fun cs r => decCount cs r.utxoId) s.refCount }, none)

/-- Modelled from the spec: `RefLinker.deleteMined` (absent from the sources,
spec §4.3): the utxoIds consumed by txHash and, deduplicated, every other
txHash met on the forward scans of those utxoIds; nothing is deleted here. -/
def reflinkDeleteMined (s : Store) (txHash : Hash) : Store × Slice × Slice × Option Err :=
  let utxoIDs := (s.refs.filter (fun r => decide (r.txHash = txHash))).map Reference.utxoId
  let met := utxoIDs.flatMap (fun u =>
    ((scanRefs s.refs u).filter (fun r => decide (r.txHash ≠ txHash))).map Reference.txHash)
  (s, some met.dedup, some utxoIDs, none)

/-- Modelled from the spec: `EpochConstrainedList.append` (absent from the
sources, spec §4.4): `DuplicateKey` for a txHash already in the list, otherwise
the entry is stored under the next seq of the list. -/
def expirationAppend (s : Store) (epoch : Nat) (txHash : Hash) : Store × Option Err :=
  if s.epochs.any (fun x => decide (x.txHash = txHash)) then (s, some Err.duplicateKey)
  else
    ({ s with epochCounter := s.epochCounter + 1,
              epochs := s.epochs ++ [⟨epoch, s.epochCounter + 1, txHash⟩] }, none)

/-- Modelled from the spec: `EpochConstrainedList.drop` (absent from the
sources, spec §4.4): deletes the forward and reverse entries of txHash;
`NotFound` if the reverse entry is absent. -/
def expirationDrop (s : Store) (txHash : Hash) : Store × Option Err :=
  if s.epochs.any (fun x => decide (x.txHash = txHash)) then
    ({ s with epochs := s.epochs.filter (fun x => decide (x.txHash ≠ txHash)) }, none)
  else (s, some Err.notFound)

/-- Modelled from the spec: `EpochConstrainedList.getEpoch` (absent from the
sources, spec §4.4): point lookup, `NotFound` if absent. -/
def expirationGetEpoch (s : Store) (txHash : Hash) : Nat × Option Err :=
  match s.epochs.find? (fun x => decide (x.txHash = txHash)) with
  | some x => (x.epoch, none)
  | none => (0, some Err.notFound)

/-- Modelled from the spec: `EpochConstrainedList.dropBefore` (absent from the
sources, spec §4.4): forward scan from the lowest key while the epoch is below
the threshold; the scanned entries are deleted and their txHashes returned. -/
def expirationDropBefore (s : Store) (epoch : Nat) : Store × Slice × Option Err :=
  let victims := (s.epochs.insertionSort EpochEntry.before).takeWhile
    (fun x => decide (x.epoch < epoch))
  ({ s with epochs := s.epochs.filter (fun x => decide (x ∉ victims)) },
    some (victims.map EpochEntry.txHash), none)

/-- Modelled from the spec: the three sub-indices of §4.2 to §4.4 over one
store, with the cap `MAX_REFS` (defined in a constants package that is not
among the sources) as parameter. -/
def indices (maxRefs : Nat) : SubIndices Store where
  orderAdd := orderAdd
  orderDelete := orderDelete
  orderNewIter := orderNewIter
  reflinkAdd := reflinkAdd maxRefs
  reflinkDelete := reflinkDelete
  reflinkDeleteMined := reflinkDeleteMined
  expirationAppend := expirationAppend
  expirationDrop := expirationDrop
  expirationDropBefore := expirationDropBefore
  expirationGetEpoch := expirationGetEpoch

end Spec

/-- Whether `txHash` has an entry in the insertion-order index. -/
def inOrder (s : Store) (txHash : Hash) : Prop := ∃ x ∈ s.order, x.txHash = txHash

/-- Whether `txHash` has an edge in the ref-linker. -/
def inReflink (s : Store) (txHash : Hash) : Prop := ∃ r ∈ s.refs, r.txHash = txHash

/-- Whether `txHash` has an entry in the epoch-constrained list. -/
def inExpiration (s : Store) (txHash : Hash) : Prop := ∃ x ∈ s.epochs, x.txHash = txHash

/-- Absent from all three indices. -/
def absent (s : Store) (txHash : Hash) : Prop :=
  ¬ inOrder s txHash ∧ ¬ inReflink s txHash ∧ ¬ inExpiration s txHash

/-- The number of references on `u`. -/
def refsOn (s : Store) (u : Hash) : Nat :=
  (s.refs.filter (fun r => decide (r.utxoId = u))).length

/-- The store with `txHash` removed from the three indices: its references are
deleted and their counts decremented, its order entry and its epoch entry are
deleted. -/
def Store.purge (s : Store) (txHash : Hash) : Store :=
  { s with
    refs := s.refs.filter (fun r => decide (r.txHash ≠ txHash)),
    refCount := (s.refs.filter (fun r => decide (r.txHash = txHash))).foldl
      (fun cs r => decCount cs r.utxoId) s.refCount,
    order := s.order.filter (fun x => decide (x.txHash ≠ txHash)),
    epochs := s.epochs.filter (fun x => decide (x.txHash ≠ txHash)) }

/-- Counter consistency (I2 without the cap): the count of each UTXO is its
number of references, and no count key holds 0. -/
structure CountsOk (s : Store) : Prop where
  count_eq : ∀ u, getCount s.refCount u = refsOn s u
  count_pos : ∀ p ∈ s.refCount, p.2 ≠ 0

/-- The invariant of the store under which the eviction claims are stated: the
seq counter bounds the seqs in use, every reference carries the seq of the
order entry of its transaction, the counters are consistent and within the
cap. -/
structure Inv (maxRefs : Nat) (s : Store) : Prop where
  seq_le : ∀ x ∈ s.order, x.seq ≤ s.orderCounter
  ref_order : ∀ r ∈ s.refs, (⟨r.seq, r.txHash⟩ : OrderEntry) ∈ s.order
  counts : CountsOk s
  cap : ∀ u, refsOn s u ≤ maxRefs

/-- A reference of `l` with the least seq. -/
def IsOldest (l : List Reference) (r : Reference) : Prop :=
  r ∈ l ∧ ∀ x ∈ l, r.seq ≤ x.seq

/-- What one round of the add algorithm collects for `u` from the store `s`
(§4.3 step 4): the oldest txHash on `u` when the incremented count exceeds the
cap, nothing otherwise. -/
def collected (maxRefs : Nat) (txHash : Hash) (seq : Nat) (s : Store) (u : Hash) : List Hash :=
  if getCount s.refCount u + 1 > maxRefs then
    match oldestRef (s.refs ++ [⟨u, txHash, seq⟩]) u with
    | some r => [r.txHash]
    | none => []
  else []

/-- The store and the evicted list after the ref-linker loop of an `Add` of
`txHash` whose `order.Add` succeeded. -/
def addLoop (maxRefs : Nat) (s : Store) (txHash : Hash) (utxoIDs : List Hash) :
    Store × List Hash :=
  utxoIDs.foldl (Spec.refAddStep maxRefs txHash (s.orderCounter + 1))
    ((Spec.orderAdd s txHash).1, [])

/-- A store in which the transactions `[1]` and `[2]`, added in that order at
epoch 5, both consume the UTXO `[9]`. -/
def exampleStore : Store :=
  { orderCounter := 2,
    order := [⟨1, [1]⟩, ⟨2, [2]⟩],
    refs := [⟨[9], [1], 1⟩, ⟨[9], [2], 2⟩],
    refCount := [([9], 2)],
    epochCounter := 2,
    epochs := [⟨5, 1, [1]⟩, ⟨5, 2, [2]⟩] }

/-- The store after a sequence of `Add (epoch, txHash, utxoIDs)` calls on the
modelled sub-indices. -/
def runAdds (maxRefs : Nat) (s : Store) (adds : List (Nat × Hash × List Hash)) : Store :=
  adds.foldl (fun t a => (PendingTxIndexer.Add (Spec.indices maxRefs) t a.1 a.2.1 a.2.2).1) s

/-- The store of scenario S1 of the specification (§8), with `MAX_REFS = 3`:
`0x01` on `U1`, `0x02` on `U2`, `0x03` on `U1` and `U3`, all at epoch 5. -/
def scenarioS1 : Store :=
  runAdds 3 Store.empty [(5, [1], [[101]]), (5, [2], [[102]]), (5, [3], [[101], [103]])]

/-- The store of scenario S4 of the specification (§8) before `DropBefore`. -/
def scenarioS4 : Store :=
  runAdds 3 Store.empty [(1, [0xA1], [[201]]), (2, [0xA2], [[202]]), (5, [0xA5], [[203]])]

/-- An executable check of `CountsOk`: it is enough to look at the UTXOs that
have a count key or a reference. -/
def countsOkB (s : Store) : Bool :=
  (s.refCount.map Prod.fst ++ s.refs.map Reference.utxoId).all
      (fun u => decide (getCount s.refCount u = refsOn s u)) &&
    s.refCount.all (fun p => decide (p.2 ≠ 0))

/-- An executable check of `Inv`. -/
def invB (maxRefs : Nat) (s : Store) : Bool :=
  s.order.all (fun x => decide (x.seq ≤ s.orderCounter)) &&
    s.refs.all (fun r => decide ((⟨r.seq, r.txHash⟩ : OrderEntry) ∈ s.order)) &&
    countsOkB s &&
    s.refs.all (fun r => decide (refsOn s r.utxoId ≤ maxRefs))

/-! ## Sequences of calls on the modelled sub-indices -/

/-- No txHash has two entries in the expiration list (`append` rejects a txHash
that is already there). -/
def UniqueEpochs (s : Store) : Prop := (s.epochs.map EpochEntry.txHash).Nodup

instance (s : Store) : Decidable (UniqueEpochs s) :=
  inferInstanceAs (Decidable (s.epochs.map EpochEntry.txHash).Nodup)

/-- One call of the composite that changes the indexer. -/
inductive Op where
  | add (epoch : Nat) (txHash : Hash) (utxoIDs : List Hash)
  | deleteOne (txHash : Hash)
  | deleteMined (txHash : Hash)
  | dropBefore (epoch : Nat)
  deriving DecidableEq, Repr

/-- The store and the error after one call on the modelled sub-indices. -/
def Op.run (maxRefs : Nat) (s : Store) : Op → Store × Option Err
  | Op.add epoch txHash utxoIDs =>
    ((PendingTxIndexer.Add (Spec.indices maxRefs) s epoch txHash utxoIDs).1,
      (PendingTxIndexer.Add (Spec.indices maxRefs) s epoch txHash utxoIDs).2.2)
  | Op.deleteOne txHash => PendingTxIndexer.DeleteOne (Spec.indices maxRefs) s txHash
  | Op.deleteMined txHash =>
    ((PendingTxIndexer.DeleteMined (Spec.indices maxRefs) s txHash).1,
      (PendingTxIndexer.DeleteMined (Spec.indices maxRefs) s txHash).2.2.2)
  | Op.dropBefore epoch =>
    ((PendingTxIndexer.DropBefore (Spec.indices maxRefs) s epoch).1,
      (PendingTxIndexer.DropBefore (Spec.indices maxRefs) s epoch).2.2)

/-- The txHashes one call takes out of the indexer: those `Add` evicts, the one
`DeleteOne` deletes, those `DeleteMined` and `DropBefore` return. -/
def Op.removed (maxRefs : Nat) (s : Store) : Op → List Hash
  | Op.add epoch txHash utxoIDs =>
    (PendingTxIndexer.Add (Spec.indices maxRefs) s epoch txHash utxoIDs).2.1.elems
  | Op.deleteOne txHash => [txHash]
  | Op.deleteMined txHash =>
    (PendingTxIndexer.DeleteMined (Spec.indices maxRefs) s txHash).2.1.elems
  | Op.dropBefore epoch =>
    (PendingTxIndexer.DropBefore (Spec.indices maxRefs) s epoch).2.1.elems

/-- The store after a sequence of calls that all succeed; `none` as soon as one
fails (the caller discards the transaction). -/
def runOps (maxRefs : Nat) : Store → List Op → Option Store
  | s, [] => some s
  | s, op :: rest =>
    match (op.run maxRefs s).2 with
    | none => runOps maxRefs (op.run maxRefs s).1 rest
    | some _ => none

/-- `txHash` is not deleted, evicted or dropped by any call of the sequence. -/
def survives (maxRefs : Nat) : Store → List Op → Hash → Prop
  | _, [], _ => True
  | s, op :: rest, txHash =>
    txHash ∉ op.removed maxRefs s ∧ survives maxRefs (op.run maxRefs s).1 rest txHash

/-- Whether an `Add` call carries at least one utxoID (other calls always do). -/
def Op.consumes : Op → Prop
  | Op.add _ _ utxoIDs => utxoIDs ≠ []
  | _ => True

/-- The insertion-order index and the expiration list hold the same txHashes. -/
def OrderExp (s : Store) : Prop := ∀ t, inOrder s t ↔ inExpiration s t

/-- Every txHash of the insertion-order index has an edge in the ref-linker. -/
def OrderRef (s : Store) : Prop := ∀ t, inOrder s t → inReflink s t

/-- The calls of scenario S1 of the specification followed by the
`DeleteMined(0x01)` of scenario S3. -/
def scenarioS3Ops : List Op :=
  [Op.add 5 [1] [[101]], Op.add 5 [2] [[102]], Op.add 5 [3] [[101], [103]],
    Op.deleteMined [1]]

/-- The modelled sub-indices with a cap of 2, except that `reflink.DeleteMined`
and `expiration.DropBefore` change nothing and return nil lists with
`NotFound`: the case the guards of `DeleteMined` and `DropBefore` handle. -/
def notFoundIndices : SubIndices Store :=
  { Spec.indices 2 with
    reflinkDeleteMined := fun s _ => (s, none, none, some Err.notFound),
    expirationDropBefore := fun s _ => (s, none, some Err.notFound) }

end PendingIndex

/-! # Dynamic values

A shallow embedding of `dynamics/dynamics.go`: the linked list of dynamic
values kept in the database.  Only `dynamics.go` is among the sources; the
other declarations of the package that it uses (the node and linked-list
helpers, the database accessors, the codec) are taken as parameters, `Deps`.
A function that only reads returns `Except`, a function that writes returns
the transaction after the call with its error.  The mutex, the start channel
and the logger of `Storage` are not modelled. -/

namespace Dynamics

/-- The errors of the package that `dynamics.go` names, and any other. -/
inductive Err where
  | zeroEpoch
  | invalid
  | invalidPrevNode
  | invalidNode (thisEpoch prevEpoch nextEpoch : Nat)
  | keyNotPresent
  | expectedEpochOne (epoch : Nat)
  | other (code : Nat)
  deriving DecidableEq, Repr

/-- A node of the linked list, with the fields `dynamics.go` reads. -/
structure Node (DV : Type) where
  thisEpoch : Nat
  prevEpoch : Nat
  nextEpoch : Nat
  dynamicValues : DV
  deriving DecidableEq, Repr

/-- The declarations of package `dynamics` used by `dynamics.go` and declared in
files that are not among the sources, over the types `DV` of dynamic values,
`LL` of the linked-list record and `Txn` of the database transaction.
`SetEpochs n prev` is `n.SetEpochs(prev, nil)` and returns both nodes as the
call leaves them. -/
structure Deps (DV LL Txn : Type) where
  DecodeDynamicValues : List Nat → Except Err DV
  Copy : DV → Except Err DV
  CreateNode : Nat → DV → Except Err (Node DV)
  CreateLinkedList : Nat → DV → Except Err (Node DV × LL)
  IsHead : Node DV → Bool
  IsTail : Node DV → Bool
  SetEpochs : Node DV → Node DV → Node DV × Node DV × Option Err
  Validate : Node DV → Option Err
  GetEpochLastUpdated : LL → Nat
  GetMostFutureUpdate : LL → Nat
  SetEpochLastUpdated : LL → Nat → LL × Option Err
  SetMostFutureUpdate : LL → Nat → LL × Option Err
  GetLinkedList : Txn → Except Err LL
  SetLinkedList : Txn → LL → Txn × Option Err
  GetNode : Txn → Nat → Except Err (Node DV)
  SetNode : Txn → Node DV → Txn × Option Err

variable {DV LL Txn : Type}

/-- The error `&ErrInvalidNode{node}`. -/
def errInvalidNode (n : Node DV) : Err := Err.invalidNode n.thisEpoch n.prevEpoch n.nextEpoch

/-- `Storage.createLinkedList`; the second component is `s.DynamicValues`. -/
def createLinkedList (d : Deps DV LL Txn) (mem : Option DV) (txn : Txn) (epoch : Nat)
    (newDynamicValue : DV) : Txn × Option DV × Option Err :=
  if epoch ≠ 1 then (txn, mem, some (Err.expectedEpochOne epoch)) else
  match d.CreateLinkedList epoch newDynamicValue with
  | Except.error err => (txn, mem, some err)
  | Except.ok (node, linkedList) =>
    match d.SetLinkedList txn linkedList with
    | (t1, some err) => (t1, mem, some err)
    | (t1, none) =>
      match d.SetNode t1 node with
      | (t2, some err) => (t2, mem, some err)
      | (t2, none) =>
        match d.Copy newDynamicValue with
        | Except.error err => (t2, none, some err)
        | Except.ok dv => (t2, some dv, none)

/-- `Storage.addNode`. -/
def addNode (d : Deps DV LL Txn) (txn : Txn) (linkedList : LL) (epoch : Nat)
    (newDynamicValue : DV) : Txn × Option Err :=
  match d.CreateNode epoch newDynamicValue with
  | Except.error err => (txn, some err)
  | Except.ok newTailNode =>
    match d.GetNode txn (d.GetMostFutureUpdate linkedList) with
    | Except.error err => (txn, some err)
    | Except.ok prevTailNode =>
      if d.IsTail prevTailNode = false then (txn, some Err.invalidPrevNode) else
      if newTailNode.thisEpoch ≤ prevTailNode.thisEpoch then
        (txn, some (errInvalidNode newTailNode)) else
      match d.SetEpochs newTailNode prevTailNode with
      | (_, _, some err) => (txn, some err)
      | (newTailNode1, prevTailNode1, none) =>
        match d.Validate prevTailNode1 with
        | some err => (txn, some err)
        | none =>
          match d.Validate newTailNode1 with
          | some err => (txn, some err)
          | none =>
            match d.SetNode txn prevTailNode1 with
            | (t1, some err) => (t1, some err)
            | (t1, none) =>
              match d.SetNode t1 newTailNode1 with
              | (t2, some err) => (t2, some err)
              | (t2, none) =>
                match d.SetMostFutureUpdate linkedList newTailNode1.thisEpoch with
                | (_, some err) => (t2, some err)
                | (linkedList1, none) =>
                  match d.SetLinkedList t2 linkedList1 with
                  | (t3, some err) => (t3, some err)
                  | (t3, none) => (t3, none)

/-- `Storage.ChangeDynamicValues`; the second component is `s.DynamicValues`. -/
def ChangeDynamicValues (d : Deps DV LL Txn) (mem : Option DV) (txn : Txn) (epoch : Nat)
    (rawDynamics : List Nat) : Txn × Option DV × Option Err :=
  match d.DecodeDynamicValues rawDynamics with
  | Except.error err => (txn, mem, some err)
  | Except.ok newDynamicValue =>
    match d.GetLinkedList txn with
    | Except.error err =>
      if err ≠ Err.keyNotPresent then (txn, mem, some err)
      else createLinkedList d mem txn epoch newDynamicValue
    | Except.ok linkedList =>
      ((addNode d txn linkedList epoch newDynamicValue).1, mem,
        (addNode d txn linkedList epoch newDynamicValue).2)

/-- `Storage.iterateBackwardFromNode`; the loop runs for at most `fuel` rounds
and `none` is the loop still running when the fuel is spent. -/
def iterateBackwardFromNode (d : Deps DV LL Txn) (txn : Txn) (epoch : Nat) :
    Nat → Node DV → Option (Except Err (Nat × DV))
  | 0, _ => none
  | fuel + 1, currentNode =>
    if epoch > currentNode.thisEpoch then
      match d.Copy currentNode.dynamicValues with
      | Except.error err => some (Except.error err)
      | Except.ok dv => some (Except.ok (currentNode.thisEpoch, dv))
    else if d.IsHead currentNode = true then some (Except.error Err.invalid)
    else
      match d.GetNode txn currentNode.prevEpoch with
      | Except.error err => some (Except.error err)
      | Except.ok prevNode => iterateBackwardFromNode d txn epoch fuel prevNode

/-- `Storage.getDynamicValueInThePast`, with the fuel of the backward loop. -/
def getDynamicValueInThePast (d : Deps DV LL Txn) (txn : Txn) (fuel : Nat) (epoch : Nat) :
    Option (Except Err (Nat × DV)) :=
  if epoch = 0 then some (Except.error Err.zeroEpoch) else
  if epoch = 1 then
    match d.GetNode txn epoch with
    | Except.error err => some (Except.error err)
    | Except.ok headNode =>
      match d.Copy headNode.dynamicValues with
      | Except.error err => some (Except.error err)
      | Except.ok dv => some (Except.ok (epoch, dv))
  else
    match d.GetLinkedList txn with
    | Except.error err => some (Except.error err)
    | Except.ok linkedList =>
      match d.GetNode txn (d.GetEpochLastUpdated linkedList) with
      | Except.error err => some (Except.error err)
      | Except.ok currentNode => iterateBackwardFromNode d txn epoch fuel currentNode

/-- `Storage.GetDynamicValueInThePast`: the wait on the start channel and the
lock apart, `getDynamicValueInThePast`. -/
def GetDynamicValueInThePast (d : Deps DV LL Txn) (txn : Txn) (fuel : Nat) (epoch : Nat) :
    Option (Except Err (Nat × DV)) :=
  getDynamicValueInThePast d txn fuel epoch

/-- The nodes the backward loop can visit from `n`: `n`, then the node stored
at its `prevEpoch`, and so on, up to the head node, a failed read, or `fuel`
further nodes. -/
def walk (d : Deps DV LL Txn) (txn : Txn) : Nat → Node DV → List (Node DV)
  | 0, n => [n]
  | fuel + 1, n =>
    if d.IsHead n = true then [n] else
    match d.GetNode txn n.prevEpoch with
    | Except.error _ => [n]
    | Except.ok p => n :: walk d txn fuel p

/-- A well-formed list below `n`: every non-head node's `prevEpoch` is a stored
node with a smaller epoch, down to a head node. -/
inductive Chain (d : Deps DV LL Txn) (txn : Txn) : Node DV → Prop where
  | head (n : Node DV) : d.IsHead n = true → Chain d txn n
  | link (n p : Node DV) : d.IsHead n = false → d.GetNode txn n.prevEpoch = Except.ok p →
      p.thisEpoch < n.thisEpoch → Chain d txn p → Chain d txn n

/-- A write to the database. -/
inductive Write (DV LL : Type) where
  | node (n : Node DV)
  | linkedList (l : LL)

/-- The helpers with a log of the writes next to the transaction. -/
def logged (d : Deps DV LL Txn) : Deps DV LL (Txn × List (Write DV LL)) :=
  { DecodeDynamicValues := d.DecodeDynamicValues
    Copy := d.Copy
    CreateNode := d.CreateNode
    CreateLinkedList := d.CreateLinkedList
    IsHead := d.IsHead
    IsTail := d.IsTail
    SetEpochs := d.SetEpochs
    Validate := d.Validate
    GetEpochLastUpdated := d.GetEpochLastUpdated
    GetMostFutureUpdate := d.GetMostFutureUpdate
    SetEpochLastUpdated := d.SetEpochLastUpdated
    SetMostFutureUpdate := d.SetMostFutureUpdate
    GetLinkedList := fun t => d.GetLinkedList t.1
    SetLinkedList := fun t l => (((d.SetLinkedList t.1 l).1, t.2 ++ [Write.linkedList l]),
      (d.SetLinkedList t.1 l).2)
    GetNode := fun t e => d.GetNode t.1 e
    SetNode := fun t n => (((d.SetNode t.1 n).1, t.2 ++ [Write.node n]), (d.SetNode t.1 n).2) }

/-- The laws of the helpers under which the order of the list is stated: a
created node carries the requested epoch; `SetEpochs n prev` links `n` behind
`prev` and leaves the epoch, the predecessor and the headness of `prev`; a head
node is its own predecessor; a node is stored under its epoch, and the
database and the linked-list record return what was last set. -/
structure Lawful {DV LL Txn : Type} (d : Deps DV LL Txn) : Prop where
  createNode_epoch : ∀ e dv n, d.CreateNode e dv = Except.ok n → n.thisEpoch = e
  setEpochs_new : ∀ n p, (d.SetEpochs n p).2.2 = none →
    (d.SetEpochs n p).1.thisEpoch = n.thisEpoch ∧ (d.SetEpochs n p).1.prevEpoch = p.thisEpoch
  setEpochs_prev : ∀ n p, (d.SetEpochs n p).2.2 = none →
    (d.SetEpochs n p).2.1.thisEpoch = p.thisEpoch ∧
    (d.SetEpochs n p).2.1.prevEpoch = p.prevEpoch ∧
    d.IsHead (d.SetEpochs n p).2.1 = d.IsHead p
  isHead_self : ∀ n, d.IsHead n = true → n.prevEpoch = n.thisEpoch
  getNode_key : ∀ txn e x, d.GetNode txn e = Except.ok x → x.thisEpoch = e
  getNode_setNode : ∀ txn x e, (d.SetNode txn x).2 = none →
    d.GetNode (d.SetNode txn x).1 e =
      if e = x.thisEpoch then Except.ok x else d.GetNode txn e
  getNode_setLinkedList : ∀ txn l e, (d.SetLinkedList txn l).2 = none →
    d.GetNode (d.SetLinkedList txn l).1 e = d.GetNode txn e
  getLinkedList_setLinkedList : ∀ txn l, (d.SetLinkedList txn l).2 = none →
    d.GetLinkedList (d.SetLinkedList txn l).1 = Except.ok l
  mostFutureUpdate_set : ∀ l e, (d.SetMostFutureUpdate l e).2 = none →
    d.GetMostFutureUpdate (d.SetMostFutureUpdate l e).1 = e ∧
    d.GetEpochLastUpdated (d.SetMostFutureUpdate l e).1 = d.GetEpochLastUpdated l

/-- A linked-list record for the examples: the two epochs its getters return. -/
structure ListRecord where
  epochLastUpdated : Nat
  mostFutureUpdate : Nat
  deriving DecidableEq, Repr

/-- A database for the examples: the stored nodes and the stored record. -/
structure MemDB where
  nodes : List (Node Nat)
  list : Option ListRecord
  deriving DecidableEq, Repr

/-- An in-memory implementation of the helpers for the examples, with numbers
as dynamic values: a node is the head when it is its own predecessor and the
tail when it is its own successor. -/
def memDeps : Deps Nat ListRecord MemDB :=
  { DecodeDynamicValues := fun raw => Except.ok raw.length
    Copy := fun v => Except.ok v
    CreateNode := fun e v => if e = 0 then Except.error Err.zeroEpoch else Except.ok ⟨e, 0, 0, v⟩
    CreateLinkedList := fun e v => Except.ok (⟨e, e, e, v⟩, ⟨e, e⟩)
    IsHead := fun n => decide (n.prevEpoch = n.thisEpoch)
    IsTail := fun n => decide (n.nextEpoch = n.thisEpoch)
    SetEpochs := fun n p =>
      ({ n with prevEpoch := p.thisEpoch, nextEpoch := n.thisEpoch },
        { p with nextEpoch := n.thisEpoch }, none)
    Validate := fun n =>
      if n.prevEpoch ≤ n.thisEpoch ∧ n.thisEpoch ≤ n.nextEpoch then none
      else some (errInvalidNode n)
    GetEpochLastUpdated := fun l => l.epochLastUpdated
    GetMostFutureUpdate := fun l => l.mostFutureUpdate
    SetEpochLastUpdated := fun l e => ({ l with epochLastUpdated := e }, none)
    SetMostFutureUpdate := fun l e => ({ l with mostFutureUpdate := e }, none)
    GetLinkedList := fun t =>
      match t.list with
      | some l => Except.ok l
      | none => Except.error Err.keyNotPresent
    SetLinkedList := fun t l => ({ t with list := some l }, none)
    GetNode := fun t e =>
      match t.nodes.find? (fun n => decide (n.thisEpoch = e)) with
      | some n => Except.ok n
      | none => Except.error Err.keyNotPresent
    SetNode := fun t n =>
      ({ t with nodes := n :: t.nodes.filter (fun x => decide (x.thisEpoch ≠ n.thisEpoch)) },
        none) }

/-- An example database: nodes at epochs 1, 5 and 9, the last update at 5. -/
def memDB : MemDB :=
  { nodes := [⟨9, 5, 9, 30⟩, ⟨5, 1, 9, 20⟩, ⟨1, 1, 5, 10⟩],
    list := some ⟨5, 9⟩ }

end Dynamics

/-! # Gas caps on retry: `blockchain/dkg/dkgtasks/register_task.go`

`ShouldRetry` reads the chain through `interfaces.Ethereum` and
`CheckRegistration`, which are not part of the translated sources: their
results are fields of `Ethereum`. `*big.Int` is `Option Int` (`none` is the
nil pointer), and a nil-pointer panic is the result `none`. -/

namespace DkgTasks

/-- The fields of `bind.TransactOpts` the task touches. -/
structure TransactOpts where
  Nonce : Option Int
  GasFeeCap : Option Int
  GasTipCap : Option Int
  deriving DecidableEq, Repr

/-- The phase of `objects.DkgState`: registration open, or any other phase. -/
inductive EthDKGPhase where
  | RegistrationOpen
  | later (n : Nat)
  deriving DecidableEq, Repr

/-- The status `CheckRegistration` reports: the two the task compares with,
or any other. -/
inductive RegistrationStatus where
  | Registered
  | BadRegistration
  | other (n : Nat)
  deriving DecidableEq, Repr

/-- The part of `objects.DkgState` that `ShouldRetry` reads. -/
structure DkgState where
  Phase : EthDKGPhase
  deriving DecidableEq, Repr

/-- The struct `RegisterTask`. -/
structure RegisterTask where
  Start : Nat
  End : Nat
  State : DkgState
  Success : Bool
  TxOpts : Option TransactOpts
  deriving DecidableEq, Repr

/-- What the chain answers to the four reads of `ShouldRetry`; `ε` is the
type of Go errors. -/
structure Ethereum (ε : Type) where
  GetCurrentHeight : Except ε Nat
  CheckRegistration : Except ε RegistrationStatus
  GetTransactionOpts : Except ε TransactOpts
  PendingNonceAt : Except ε Nat

/-- The Go conversion `int64(nonce)` of a `uint64`. -/
def int64 (nonce : Nat) : Int :=
  if nonce % 2 ^ 64 < 2 ^ 63 then (nonce % 2 ^ 64 : Nat) else ((nonce % 2 ^ 64 : Nat) : Int) - 2 ^ 64

/-- `RegisterTask.ShouldRetry`: the task after the call and the returned
boolean; `none` when a cap is a nil `*big.Int`. `big.Int.Div` is Euclidean
division, which is `/` on `Int`. -/
def RegisterTask.ShouldRetry {ε : Type} (t : RegisterTask) (eth : Ethereum ε) :
    Option (RegisterTask × Bool) :=
  let shouldRetry : Bool :=
    match eth.GetCurrentHeight with
    | Except.error _ => true
    | Except.ok currentBlock =>
      let needsRegistration : Bool :=
        match eth.CheckRegistration with
        | Except.error _ => true
        | Except.ok status =>
          decide (status ≠ RegistrationStatus.Registered ∧
            status ≠ RegistrationStatus.BadRegistration)
      decide (t.State.Phase = EthDKGPhase.RegistrationOpen) &&
        decide (t.Start ≤ currentBlock) && decide (currentBlock < t.End) && needsRegistration
  if shouldRetry then
    -- `Except.error t1`: the early `return true` with the task left as `t1`
    let prepared : Except RegisterTask TransactOpts :=
      match t.TxOpts with
      | some txOpts => Except.ok txOpts
      | none =>
        match eth.GetTransactionOpts with
        | Except.error _ => Except.error t
        | Except.ok txnOpts =>
          match eth.PendingNonceAt with
          | Except.error _ => Except.error { t with TxOpts := some txnOpts }
          | Except.ok nonce => Except.ok { txnOpts with Nonce := some (int64 nonce) }
    match prepared with
    | Except.error t1 => some (t1, true)
    | Except.ok txOpts =>
      match txOpts.GasFeeCap, txOpts.GasTipCap with
      | some gasFeeCap, some gasTipCap =>
        let gasFeeCap10pc := (gasFeeCap * 10) / 100
        let gasTipCap10pc := (gasTipCap * 10) / 100
        some ({ t with TxOpts := some { txOpts with
                  GasFeeCap := some (gasFeeCap + gasFeeCap10pc + 1),
                  GasTipCap := some (gasTipCap + gasTipCap10pc + 1) } }, shouldRetry)
      | _, _ => none
  else
    some (t, shouldRetry)

/-- A task whose transaction options are set, with caps 1005 and 19. -/
def exampleTask : RegisterTask :=
  { Start := 10, End := 50, State := { Phase := EthDKGPhase.RegistrationOpen },
    Success := false,
    TxOpts := some { Nonce := some 3, GasFeeCap := some 1005, GasTipCap := some 19 } }

/-- A chain at height 20 on which the account is not registered. -/
def exampleEth : Ethereum Nat :=
  { GetCurrentHeight := Except.ok 20,
    CheckRegistration := Except.ok (RegistrationStatus.other 0),
    GetTransactionOpts := Except.error 1,
    PendingNonceAt := Except.error 2 }

/-- A chain past the end of the registration window. -/
def lateEth : Ethereum Nat :=
  { exampleEth with GetCurrentHeight := Except.ok 50 }

end DkgTasks

/-! # Running a task: `blockchain/tasks/task_manager.go`

The methods of a task and the library calls of the goroutine started by
`TaskHandlerDetails.Start` act on a state `ω` that is passed along. The
goroutine is run to its end, or until the fuel, which bounds the number of
retries, is used up. The logger is not modelled, and a task method that
panics is not modelled either. -/

namespace Tasks

/-- The interface `Task`. -/
structure Task (ω : Type) where
  DoDone : ω → ω
  DoRetry : ω → ω × Bool
  DoWork : ω → ω × Bool
  ShouldRetry : ω → ω × Bool

/-- What the goroutine calls outside the task: `blockchain.SleepWithContext`,
which is not among the sources and returns an error when the context is
cancelled during the delay, and the cancel function of the context. -/
structure Env (ω ε : Type) where
  SleepWithContext : ω → ω × Option ε
  taskCancel : ω → ω

/-- The struct `TaskHandlerDetails`: `wg` is the counter of the wait group it
points to, `none` for a nil pointer. -/
structure TaskHandlerDetails (ω : Type) where
  complete : Bool
  count : Int
  successful : Bool
  task : Task ω
  wg : Option Nat

/-- Go `int` arithmetic on a 64-bit platform wraps around. -/
def wrapInt (x : Int) : Int := (x + 2 ^ 63) % 2 ^ 64 - 2 ^ 63

/-- How a run of the goroutine stands: it has ended, it is about to retry
again when the fuel is used up, or `Start` has panicked. -/
inductive Outcome (α : Type) where
  | ended (a : α)
  | running (a : α)
  | panicked
  deriving DecidableEq, Repr

/-- What follows a loop that has ended; a run that has not ended stays as it
is. -/
def Outcome.andThen {α : Type} (o : Outcome α) (f : α → Outcome α) : Outcome α :=
  match o with
  | Outcome.ended a => f a
  | Outcome.running a => Outcome.running a
  | Outcome.panicked => Outcome.panicked

/-- `ManagerDetails.NewTaskHandler`, with the counter of the manager's wait
group. -/
def NewTaskHandler {ω : Type} (wg : Nat) (task : Task ω) : TaskHandlerDetails ω :=
  { complete := false, count := 0, successful := false, task := task, wg := some wg }

namespace TaskHandlerDetails

variable {ω ε : Type}

/-- `TaskHandlerDetails.Successful`. -/
def Successful (td : TaskHandlerDetails ω) : Bool := td.successful

/-- `TaskHandlerDetails.Complete`. -/
def Complete (td : TaskHandlerDetails ω) : Bool := td.complete

/-- `TaskHandlerDetails.wrappedDoWork`. -/
def wrappedDoWork (td : TaskHandlerDetails ω) (w : ω) : TaskHandlerDetails ω × ω × Bool :=
  ({ td with count := wrapInt (td.count + 1) }, (td.task.DoWork w).1, (td.task.DoWork w).2)

/-- `TaskHandlerDetails.wrappedDoRetry`. -/
def wrappedDoRetry (td : TaskHandlerDetails ω) (w : ω) : TaskHandlerDetails ω × ω × Bool :=
  ({ td with count := wrapInt (td.count + 1) }, (td.task.DoRetry w).1, (td.task.DoRetry w).2)

/-- `TaskHandlerDetails.wrappedShouldRetry`. -/
def wrappedShouldRetry (td : TaskHandlerDetails ω) (w : ω) : TaskHandlerDetails ω × ω × Bool :=
  (td, (td.task.ShouldRetry w).1, (td.task.ShouldRetry w).2)

/-- `TaskHandlerDetails.wrappedDoDone`. -/
def wrappedDoDone (td : TaskHandlerDetails ω) (w : ω) : TaskHandlerDetails ω × ω :=
  ({ td with complete := true }, td.task.DoDone w)

/-- One round of the `for` loop of the goroutine up to the retry: the loop
condition `!td.successful && td.wrappedShouldRetry(ctx)` and the sleep.
`Sum.inl` when the goroutine goes on to its deferred calls, by leaving the
loop or by the `return` after an interrupted sleep; `Sum.inr` when
`wrappedDoRetry` is next. -/
def untilRetry (env : Env ω ε) (td : TaskHandlerDetails ω) (w : ω) :
    (TaskHandlerDetails ω × ω) ⊕ (TaskHandlerDetails ω × ω) :=
  if td.successful = true then Sum.inl (td, w)
  else if (td.wrappedShouldRetry w).2.2 = false then
    Sum.inl ((td.wrappedShouldRetry w).1, (td.wrappedShouldRetry w).2.1)
  else if (env.SleepWithContext (td.wrappedShouldRetry w).2.1).2.isSome = true then
    Sum.inl ((td.wrappedShouldRetry w).1,
      (env.SleepWithContext (td.wrappedShouldRetry w).2.1).1)
  else
    Sum.inr ((td.wrappedShouldRetry w).1,
      (env.SleepWithContext (td.wrappedShouldRetry w).2.1).1)

/-- The `for` loop of the goroutine. With no fuel left the next retry is not
made and the state is `running`. -/
def retryLoop (env : Env ω ε) :
    Nat → TaskHandlerDetails ω → ω → Outcome (TaskHandlerDetails ω × ω)
  | 0, td, w =>
    match untilRetry env td w with
    | Sum.inl s => Outcome.ended s
    | Sum.inr s => Outcome.running s
  | fuel + 1, td, w =>
    match untilRetry env td w with
    | Sum.inl s => Outcome.ended s
    | Sum.inr s =>
      retryLoop env fuel { (s.1.wrappedDoRetry s.2).1 with
        successful := (s.1.wrappedDoRetry s.2).2.2 } (s.1.wrappedDoRetry s.2).2.1

/-- The deferred calls of the goroutine, in the order they run:
`td.taskCancel()`, `td.wrappedDoDone()` and, `td.wg` not being nil,
`td.wg.Done()`, which panics on a counter at zero. -/
def deferred (env : Env ω ε) (td : TaskHandlerDetails ω) (w : ω) :
    Outcome (TaskHandlerDetails ω × ω) :=
  match (td.wrappedDoDone (env.taskCancel w)).1.wg with
  | none => Outcome.ended (td.wrappedDoDone (env.taskCancel w))
  | some 0 => Outcome.panicked
  | some (n + 1) =>
    Outcome.ended ({ (td.wrappedDoDone (env.taskCancel w)).1 with wg := some n },
      (td.wrappedDoDone (env.taskCancel w)).2)

/-- `TaskHandlerDetails.Start` with its goroutine: `td.wg.Add(1)`, which
panics on a nil pointer, then `wrappedDoWork`, the loop and the deferred
calls. -/
def Start (env : Env ω ε) (fuel : Nat) (td : TaskHandlerDetails ω) (w : ω) :
    Outcome (TaskHandlerDetails ω × ω) :=
  match td.wg with
  | none => Outcome.panicked
  | some n =>
    (retryLoop env fuel
        { (({ td with wg := some (n + 1) } : TaskHandlerDetails ω).wrappedDoWork w).1 with
          successful := (({ td with wg := some (n + 1) } :
            TaskHandlerDetails ω).wrappedDoWork w).2.2 }
        (({ td with wg := some (n + 1) } : TaskHandlerDetails ω).wrappedDoWork w).2.1).andThen
      (fun s => deferred env s.1 s.2)

end TaskHandlerDetails

/-- What the goroutine did, as recorded by `Task.logged` and `Env.logged`. -/
inductive Event where
  | DoWork (resp : Bool)
  | ShouldRetry (resp : Bool)
  | SleepWithContext (interrupted : Bool)
  | DoRetry (resp : Bool)
  | taskCancel
  | DoDone
  deriving DecidableEq, Repr

/-- The result of an attempt, for the two events that are attempts. -/
def Event.attempt : Event → Option Bool
  | Event.DoWork resp => some resp
  | Event.DoRetry resp => some resp
  | _ => none

/-- The results of the attempts of a log, in order. -/
def attempts (log : List Event) : List Bool := log.filterMap Event.attempt

/-- The task that also records each call with its response. -/
def Task.logged {ω : Type} (t : Task ω) : Task (ω × List Event) where
  DoDone := fun x => (t.DoDone x.1, x.2 ++ [Event.DoDone])
  DoRetry := fun x => (((t.DoRetry x.1).1, x.2 ++ [Event.DoRetry (t.DoRetry x.1).2]),
    (t.DoRetry x.1).2)
  DoWork := fun x => (((t.DoWork x.1).1, x.2 ++ [Event.DoWork (t.DoWork x.1).2]),
    (t.DoWork x.1).2)
  ShouldRetry := fun x =>
    (((t.ShouldRetry x.1).1, x.2 ++ [Event.ShouldRetry (t.ShouldRetry x.1).2]),
      (t.ShouldRetry x.1).2)

/-- The library calls that also record each call. -/
def Env.logged {ω ε : Type} (env : Env ω ε) : Env (ω × List Event) ε where
  SleepWithContext := fun x =>
    (((env.SleepWithContext x.1).1,
      x.2 ++ [Event.SleepWithContext (env.SleepWithContext x.1).2.isSome]),
      (env.SleepWithContext x.1).2)
  taskCancel := fun x => (env.taskCancel x.1, x.2 ++ [Event.taskCancel])

/-- The handler with the recording task. -/
def TaskHandlerDetails.logged {ω : Type} (td : TaskHandlerDetails ω) :
    TaskHandlerDetails (ω × List Event) :=
  { complete := td.complete, count := td.count, successful := td.successful,
    task := td.task.logged, wg := td.wg }

/-- The outcome with a function applied to its state. -/
def Outcome.map {α β : Type} (f : α → β) : Outcome α → Outcome β
  | Outcome.ended a => Outcome.ended (f a)
  | Outcome.running a => Outcome.running (f a)
  | Outcome.panicked => Outcome.panicked

/-- The state of a recorded run without its log, `task` being the task that
was wrapped. -/
def erase {ω : Type} (task : Task ω)
    (s : TaskHandlerDetails (ω × List Event) × (ω × List Event)) : TaskHandlerDetails ω × ω :=
  ({ complete := s.1.complete, count := s.1.count, successful := s.1.successful,
     task := task, wg := s.1.wg }, s.2.1)

/-- The events of the loop after an attempt that returned `prev`, followed by
`suffix`, when the loop is left after an attempt that returned `last`. -/
inductive Retries (suffix : List Event) : Bool → List Event → Bool → Prop
  | success : Retries suffix true suffix true
  | giveUp : Retries suffix false (Event.ShouldRetry false :: suffix) false
  | interrupted :
    Retries suffix false
      (Event.ShouldRetry true :: Event.SleepWithContext true :: suffix) false
  | retry (resp last : Bool) (rest : List Event) :
    Retries suffix resp rest last →
    Retries suffix false
      (Event.ShouldRetry true :: Event.SleepWithContext false :: Event.DoRetry resp :: rest)
      last

/-- An example task on a counter: the work fails, a retry succeeds once the
counter has reached 2, and retrying is always allowed. -/
def exampleTask : Task Nat where
  DoDone := fun w => w
  DoRetry := fun w => (w + 1, decide (2 ≤ w + 1))
  DoWork := fun w => (w, false)
  ShouldRetry := fun w => (w, true)

/-- A task that gives up after its failed work. -/
def givingUpTask : Task Nat :=
  { exampleTask with ShouldRetry := fun w => (w, false) }

/-- A task whose retries never succeed. -/
def failingTask : Task Nat :=
  { exampleTask with DoRetry := fun w => (w + 1, false) }

/-- Library calls in which the sleep is never interrupted. -/
def exampleEnv : Env Nat Unit where
  SleepWithContext := fun w => (w, none)
  taskCancel := fun w => w

end Tasks

namespace PendingIndex

/-! ## The composite: control flow and results -/

namespace PendingTxIndexer

variable {σ : Type}

theorem traced_orderAdd (ix : SubIndices σ) (t : σ × List Event) (h : Hash) :
    (traced ix).orderAdd t h
      = (((ix.orderAdd t.1 h).1, t.2 ++ [⟨Call.orderAdd h, (ix.orderAdd t.1 h).2⟩]),
          (ix.orderAdd t.1 h).2) := rfl

theorem traced_orderDelete (ix : SubIndices σ) (t : σ × List Event) (h : Hash) :
    (traced ix).orderDelete t h
      = (((ix.orderDelete t.1 h).1, t.2 ++ [⟨Call.orderDelete h, (ix.orderDelete t.1 h).2⟩]),
          (ix.orderDelete t.1 h).2) := rfl

theorem traced_reflinkAdd (ix : SubIndices σ) (t : σ × List Event) (h : Hash) (us : List Hash) :
    (traced ix).reflinkAdd t h us
      = (((ix.reflinkAdd t.1 h us).1,
          t.2 ++ [⟨Call.reflinkAdd h us, (ix.reflinkAdd t.1 h us).2.2.2⟩]),
          (ix.reflinkAdd t.1 h us).2) := rfl

theorem traced_reflinkDelete (ix : SubIndices σ) (t : σ × List Event) (h : Hash) :
    (traced ix).reflinkDelete t h
      = (((ix.reflinkDelete t.1 h).1,
          t.2 ++ [⟨Call.reflinkDelete h, (ix.reflinkDelete t.1 h).2⟩]),
          (ix.reflinkDelete t.1 h).2) := rfl

theorem traced_reflinkDeleteMined (ix : SubIndices σ) (t : σ × List Event) (h : Hash) :
    (traced ix).reflinkDeleteMined t h
      = (((ix.reflinkDeleteMined t.1 h).1,
          t.2 ++ [⟨Call.reflinkDeleteMined h, (ix.reflinkDeleteMined t.1 h).2.2.2⟩]),
          (ix.reflinkDeleteMined t.1 h).2) := rfl

theorem traced_expirationAppend (ix : SubIndices σ) (t : σ × List Event) (ep : Nat) (h : Hash) :
    (traced ix).expirationAppend t ep h
      = (((ix.expirationAppend t.1 ep h).1,
          t.2 ++ [⟨Call.expirationAppend ep h, (ix.expirationAppend t.1 ep h).2⟩]),
          (ix.expirationAppend t.1 ep h).2) := rfl

theorem traced_expirationDrop (ix : SubIndices σ) (t : σ × List Event) (h : Hash) :
    (traced ix).expirationDrop t h
      = (((ix.expirationDrop t.1 h).1,
          t.2 ++ [⟨Call.expirationDrop h, (ix.expirationDrop t.1 h).2⟩]),
          (ix.expirationDrop t.1 h).2) := rfl

theorem traced_expirationDropBefore (ix : SubIndices σ) (t : σ × List Event) (ep : Nat) :
    (traced ix).expirationDropBefore t ep
      = (((ix.expirationDropBefore t.1 ep).1,
          t.2 ++ [⟨Call.expirationDropBefore ep, (ix.expirationDropBefore t.1 ep).2.2⟩]),
          (ix.expirationDropBefore t.1 ep).2) := rfl

/-- An error value that the fan-out treats as success: nil or `NotFound`. -/
theorem soft_of_not_hard {e : Option Err} (h : ¬(e ≠ none ∧ e ≠ some Err.notFound)) :
    e = none ∨ e = some Err.notFound := by
  by_cases h1 : e = none
  · exact Or.inl h1
  · by_cases h2 : e = some Err.notFound
    · exact Or.inr h2
    · exact absurd ⟨h1, h2⟩ h

/-- An error value that stops the fan-out is an error other than `NotFound`. -/
theorem hard_error {e : Option Err} (h : e ≠ none ∧ e ≠ some Err.notFound) :
    ∃ x, e = some x ∧ x ≠ Err.notFound := by
  cases e with
  | none => exact absurd rfl h.1
  | some x => exact ⟨x, rfl, fun hx => h.2 (by rw [hx])⟩

/-- `DeleteOne` written with projections. -/
theorem DeleteOne_eq (ix : SubIndices σ) (txn : σ) (txHash : Hash) :
    DeleteOne ix txn txHash =
      if (ix.reflinkDelete txn txHash).2 ≠ none ∧
          (ix.reflinkDelete txn txHash).2 ≠ some Err.notFound then
        ix.reflinkDelete txn txHash
      else if (ix.orderDelete (ix.reflinkDelete txn txHash).1 txHash).2 ≠ none ∧
          (ix.orderDelete (ix.reflinkDelete txn txHash).1 txHash).2 ≠ some Err.notFound then
        ix.orderDelete (ix.reflinkDelete txn txHash).1 txHash
      else if (ix.expirationDrop
            (ix.orderDelete (ix.reflinkDelete txn txHash).1 txHash).1 txHash).2 ≠ none ∧
          (ix.expirationDrop
            (ix.orderDelete (ix.reflinkDelete txn txHash).1 txHash).1 txHash).2
              ≠ some Err.notFound then
        ix.expirationDrop (ix.orderDelete (ix.reflinkDelete txn txHash).1 txHash).1 txHash
      else
        ((ix.expirationDrop
            (ix.orderDelete (ix.reflinkDelete txn txHash).1 txHash).1 txHash).1, none) := rfl

/-- `DeleteMined` written with projections. -/
theorem DeleteMined_eq (ix : SubIndices σ) (txn : σ) (txHash : Hash) :
    DeleteMined ix txn txHash =
      if (ix.reflinkDeleteMined txn txHash).2.2.2 ≠ none ∧
          (ix.reflinkDeleteMined txn txHash).2.2.2 ≠ some Err.notFound then
        ((ix.reflinkDeleteMined txn txHash).1, none, none,
          (ix.reflinkDeleteMined txn txHash).2.2.2)
      else
        match minedLoop ix (ix.reflinkDeleteMined txn txHash).1
            ((ix.reflinkDeleteMined txn txHash).2.1.append txHash).elems with
        | (t2, some e) => (t2, none, none, some e)
        | (t2, none) =>
          (t2, (ix.reflinkDeleteMined txn txHash).2.1.append txHash,
            (ix.reflinkDeleteMined txn txHash).2.2.1, none) := rfl

/-- `DropBefore` written with projections. -/
theorem DropBefore_eq (ix : SubIndices σ) (txn : σ) (epoch : Nat) :
    DropBefore ix txn epoch =
      if (ix.expirationDropBefore txn epoch).2.2 ≠ none ∧
          (ix.expirationDropBefore txn epoch).2.2 ≠ some Err.notFound then
        ((ix.expirationDropBefore txn epoch).1, none, (ix.expirationDropBefore txn epoch).2.2)
      else
        match dropLoop ix (ix.expirationDropBefore txn epoch).1
            (ix.expirationDropBefore txn epoch).2.1.elems with
        | (t2, some e) => (t2, none, some e)
        | (t2, none) => (t2, (ix.expirationDropBefore txn epoch).2.1, none) := rfl

/-- The recording wrapper does not change what `DeleteOne` computes. -/
theorem DeleteOne_traced (ix : SubIndices σ) (txn : σ) (tr : List Event) (txHash : Hash) :
    ((DeleteOne (traced ix) (txn, tr) txHash).1.1, (DeleteOne (traced ix) (txn, tr) txHash).2)
      = DeleteOne ix txn txHash := by
  unfold DeleteOne
  simp only [traced_reflinkDelete, traced_orderDelete, traced_expirationDrop]
  split_ifs <;> rfl

/-- C1: when `order.Add` returns an error, `Add` returns the nil list and that
same error, the transaction state is the one `order.Add` left, and the only
sub-index call made is `order.Add` (no `reflink.Add`, no sub-call of
`DeleteOne`, no `expiration.Append`). -/
theorem Add_order_error (ix : SubIndices σ) (txn : σ) (tr : List Event) (epoch : Nat)
    (txHash : Hash) (utxoIDs : List Hash) (e : Err)
    (h : (ix.orderAdd txn txHash).2 = some e) :
    Add ix txn epoch txHash utxoIDs = ((ix.orderAdd txn txHash).1, none, some e) ∧
    Add (traced ix) (txn, tr) epoch txHash utxoIDs
      = (((ix.orderAdd txn txHash).1, tr ++ [⟨Call.orderAdd txHash, some e⟩]), none, some e) := by
  unfold Add
  simp only [traced_orderAdd]
  rcases hr : ix.orderAdd txn txHash with ⟨t1, e1⟩
  rw [hr] at h
  dsimp only at h
  subst h
  exact ⟨rfl, rfl⟩

/-- C6: `DeleteOne` calls `reflink.Delete`, `order.Delete`, `expiration.Drop` in
that order and stops at the first error other than `NotFound`: the calls made
are an initial part of that sequence; it returns nil exactly when all three
calls were made and each returned nil or `NotFound`; when it returns an error,
that error is not `NotFound`, it is the error of the last call made, and every
earlier call returned nil or `NotFound`; so it returns an error if and only if
one of the calls made returned an error other than `NotFound`. -/
theorem DeleteOne_calls (ix : SubIndices σ) (txn : σ) (txHash : Hash) :
    ((DeleteOne (traced ix) (txn, []) txHash).1.2.map Event.call
      <+: [Call.reflinkDelete txHash, Call.orderDelete txHash, Call.expirationDrop txHash]) ∧
    ((DeleteOne (traced ix) (txn, []) txHash).1.1 = (DeleteOne ix txn txHash).1) ∧
    ((DeleteOne (traced ix) (txn, []) txHash).2 = (DeleteOne ix txn txHash).2) ∧
    ((DeleteOne ix txn txHash).2 = none →
      (DeleteOne (traced ix) (txn, []) txHash).1.2.map Event.call
        = [Call.reflinkDelete txHash, Call.orderDelete txHash, Call.expirationDrop txHash] ∧
      ∀ ev ∈ (DeleteOne (traced ix) (txn, []) txHash).1.2,
        ev.err = none ∨ ev.err = some Err.notFound) ∧
    (∀ e, (DeleteOne ix txn txHash).2 = some e →
      e ≠ Err.notFound ∧
      (∃ c, (DeleteOne (traced ix) (txn, []) txHash).1.2.getLast? = some ⟨c, some e⟩) ∧
      ∀ ev ∈ (DeleteOne (traced ix) (txn, []) txHash).1.2.dropLast,
        ev.err = none ∨ ev.err = some Err.notFound) ∧
    ((DeleteOne ix txn txHash).2 ≠ none ↔
      ∃ ev ∈ (DeleteOne (traced ix) (txn, []) txHash).1.2,
        ev.err ≠ none ∧ ev.err ≠ some Err.notFound) := by
  simp only [DeleteOne_eq, traced_reflinkDelete, traced_orderDelete, traced_expirationDrop]
  rcases ix.reflinkDelete txn txHash with ⟨t1, e1⟩
  simp only []
  rcases ix.orderDelete t1 txHash with ⟨t2, e2⟩
  simp only []
  rcases ix.expirationDrop t2 txHash with ⟨t3, e3⟩
  simp only []
  by_cases c1 : e1 ≠ none ∧ e1 ≠ some Err.notFound
  · simp only [if_pos c1]
    obtain ⟨x, rfl, hx⟩ := hard_error c1
    refine ⟨⟨[_, _], rfl⟩, trivial, trivial, ?_, ?_, ?_⟩
    · intro h; cases h
    · intro e he
      cases he
      exact ⟨hx, ⟨_, rfl⟩, by simp⟩
    · simp [hx]
  · simp only [if_neg c1]
    have s1 := soft_of_not_hard c1
    by_cases c2 : e2 ≠ none ∧ e2 ≠ some Err.notFound
    · simp only [if_pos c2]
      obtain ⟨x, rfl, hx⟩ := hard_error c2
      refine ⟨⟨[_], rfl⟩, trivial, trivial, ?_, ?_, ?_⟩
      · intro h; cases h
      · intro e he
        cases he
        refine ⟨hx, ⟨_, rfl⟩, ?_⟩
        intro ev hev
        simp at hev
        subst hev
        exact s1
      · simp [hx]
    · simp only [if_neg c2]
      have s2 := soft_of_not_hard c2
      by_cases c3 : e3 ≠ none ∧ e3 ≠ some Err.notFound
      · simp only [if_pos c3]
        obtain ⟨x, rfl, hx⟩ := hard_error c3
        refine ⟨⟨[], rfl⟩, trivial, trivial, ?_, ?_, ?_⟩
        · intro h; cases h
        · intro e he
          cases he
          refine ⟨hx, ⟨_, rfl⟩, ?_⟩
          intro ev hev
          simp at hev
          rcases hev with rfl | rfl
          · exact s1
          · exact s2
        · simp [hx]
      · simp only [if_neg c3]
        have s3 := soft_of_not_hard c3
        refine ⟨⟨[], rfl⟩, trivial, trivial, ?_, ?_, ?_⟩
        · intro _
          refine ⟨rfl, ?_⟩
          intro ev hev
          simp at hev
          rcases hev with rfl | rfl | rfl
          · exact s1
          · exact s2
          · exact s3
        · intro e he; cases he
        · constructor
          · intro h; exact absurd rfl h
          · rintro ⟨ev, hev, h1, h2⟩
            simp at hev
            rcases hev with rfl | rfl | rfl
            · rcases s1 with h | h
              · exact absurd h h1
              · exact absurd h h2
            · rcases s2 with h | h
              · exact absurd h h1
              · exact absurd h h2
            · rcases s3 with h | h
              · exact absurd h h1
              · exact absurd h h2

/-- C8: on success `DeleteMined` returns the victims reported by
`reflink.DeleteMined` with `txHash` appended as the last element, so the list
is not nil, not empty and one longer than the reflink victims, together with
the utxoIDs exactly as `reflink.DeleteMined` returned them. -/
theorem DeleteMined_result (ix : SubIndices σ) (txn : σ) (txHash : Hash)
    (h : (DeleteMined ix txn txHash).2.2.2 = none) :
    (DeleteMined ix txn txHash).2.1
      = some ((ix.reflinkDeleteMined txn txHash).2.1.elems ++ [txHash]) ∧
    (DeleteMined ix txn txHash).2.1.elems.getLast? = some txHash ∧
    (DeleteMined ix txn txHash).2.1.elems ≠ [] ∧
    (DeleteMined ix txn txHash).2.1.len = (ix.reflinkDeleteMined txn txHash).2.1.len + 1 ∧
    (DeleteMined ix txn txHash).2.2.1 = (ix.reflinkDeleteMined txn txHash).2.2.1 := by
  rw [DeleteMined_eq] at h ⊢
  revert h
  rcases ix.reflinkDeleteMined txn txHash with ⟨t1, vs, us, e⟩
  intro h
  simp only [] at h ⊢
  by_cases c : e ≠ none ∧ e ≠ some Err.notFound
  · rw [if_pos c] at h
    exact absurd h c.1
  · rw [if_neg c] at h ⊢
    revert h
    rcases minedLoop ix t1 (vs.append txHash).elems with ⟨t2, e2⟩
    intro h
    cases e2 with
    | some x => simp at h
    | none => simp [Slice.append, Slice.elems, Slice.len]

end PendingTxIndexer

/-! ## The sub-indices: counters -/

theorem getCount_delCount (cs : List (Hash × Nat)) (u v : Hash) :
    getCount (delCount cs u) v = if v = u then 0 else getCount cs v := by
  induction cs with
  | nil => simp [delCount, getCount]
  | cons p rest ih =>
    obtain ⟨k, n⟩ := p
    unfold delCount at ih ⊢
    by_cases hk : k = u
    · subst hk
      rw [List.filter_cons_of_neg (by simp), ih]
      by_cases hv : v = k
      · simp [hv]
      · have : ¬ k = v := fun h => hv h.symm
        simp [hv, getCount, this]
    · rw [List.filter_cons_of_pos (by simpa using hk)]
      by_cases hkv : k = v
      · subst hkv
        simp [getCount, hk]
      · simp only [getCount, if_neg hkv]
        exact ih

theorem getCount_setCount (cs : List (Hash × Nat)) (u v : Hash) (n : Nat) :
    getCount (setCount cs u n) v = if v = u then n else getCount cs v := by
  unfold setCount
  by_cases h : v = u
  · subst h
    simp [getCount]
  · have h2 : ¬ u = v := fun e => h e.symm
    simp only [getCount, if_neg h2, if_neg h]
    rw [getCount_delCount, if_neg h]

theorem getCount_decCount (cs : List (Hash × Nat)) (u v : Hash) :
    getCount (decCount cs u) v = if v = u then getCount cs u - 1 else getCount cs v := by
  unfold decCount
  by_cases hc : getCount cs u ≤ 1
  · rw [if_pos hc, getCount_delCount]
    by_cases h : v = u
    · simp only [if_pos h]; omega
    · simp only [if_neg h]
  · rw [if_neg hc, getCount_setCount]

theorem mem_delCount {cs : List (Hash × Nat)} {u : Hash} {p : Hash × Nat}
    (h : p ∈ delCount cs u) : p ∈ cs ∧ p.1 ≠ u := by
  unfold delCount at h
  simpa using h

theorem pos_decCount {cs : List (Hash × Nat)} (u : Hash)
    (h : ∀ p ∈ cs, p.2 ≠ 0) : ∀ p ∈ decCount cs u, p.2 ≠ 0 := by
  intro p hp
  unfold decCount at hp
  by_cases hc : getCount cs u ≤ 1
  · rw [if_pos hc] at hp
    exact h p (mem_delCount hp).1
  · rw [if_neg hc] at hp
    unfold setCount at hp
    rcases List.mem_cons.1 hp with rfl | hp
    · simp only; omega
    · exact h p (mem_delCount hp).1

theorem pos_setCount {cs : List (Hash × Nat)} (u : Hash) (n : Nat) (hn : n ≠ 0)
    (h : ∀ p ∈ cs, p.2 ≠ 0) : ∀ p ∈ setCount cs u n, p.2 ≠ 0 := by
  intro p hp
  unfold setCount at hp
  rcases List.mem_cons.1 hp with rfl | hp
  · exact hn
  · exact h p (mem_delCount hp).1

/-- With no zero-valued key, a count that reads 0 means the key is absent. -/
theorem hasCount_false_of_zero {cs : List (Hash × Nat)} {u : Hash}
    (hpos : ∀ p ∈ cs, p.2 ≠ 0) (h0 : getCount cs u = 0) : hasCount cs u = false := by
  induction cs with
  | nil => rfl
  | cons p rest ih =>
    obtain ⟨k, n⟩ := p
    by_cases hk : k = u
    · subst hk
      simp only [getCount, if_true] at h0
      exact absurd h0 (hpos (k, n) (List.mem_cons_self _ _))
    · simp only [getCount, if_neg hk] at h0
      have := ih (fun p hp => hpos p (List.mem_cons_of_mem _ hp)) h0
      unfold hasCount at this ⊢
      simp [hk, this]

/-- The counts after the decrements of a delete. -/
theorem getCount_foldl_dec (owned : List Reference) (cs : List (Hash × Nat)) (u : Hash) :
    getCount (owned.foldl (fun cs r => decCount cs r.utxoId) cs) u
      = getCount cs u - (owned.filter (fun r => decide (r.utxoId = u))).length := by
  induction owned generalizing cs with
  | nil => simp
  | cons r rest ih =>
    rw [List.foldl_cons, ih, getCount_decCount]
    by_cases h : r.utxoId = u
    · rw [List.filter_cons_of_pos (by simpa using h), if_pos h.symm, h]
      simp only [List.length_cons]
      omega
    · rw [List.filter_cons_of_neg (by simpa using h), if_neg (fun e => h e.symm)]

theorem pos_foldl_dec (owned : List Reference) (cs : List (Hash × Nat))
    (h : ∀ p ∈ cs, p.2 ≠ 0) :
    ∀ p ∈ owned.foldl (fun cs r => decCount cs r.utxoId) cs, p.2 ≠ 0 := by
  induction owned generalizing cs with
  | nil => simpa using h
  | cons r rest ih =>
    rw [List.foldl_cons]
    exact ih _ (pos_decCount r.utxoId h)

/-! ## The sub-indices: deletes -/

theorem filter_ne_of_any_false {α : Type} (l : List α) (p : α → Prop) [DecidablePred p]
    (h : l.any (fun x => decide (p x)) = false) :
    l.filter (fun x => decide (¬ p x)) = l := by
  rw [List.filter_eq_self]
  intro a ha
  rw [List.any_eq_false] at h
  simpa using h a ha

theorem filter_eq_nil_of_any_false {α : Type} (l : List α) (p : α → Prop) [DecidablePred p]
    (h : l.any (fun x => decide (p x)) = false) :
    l.filter (fun x => decide (p x)) = [] := by
  rw [List.filter_eq_nil_iff]
  intro a ha
  rw [List.any_eq_false] at h
  simpa using h a ha

theorem indices_orderAdd (m : Nat) : (Spec.indices m).orderAdd = Spec.orderAdd := rfl

theorem indices_orderDelete (m : Nat) : (Spec.indices m).orderDelete = Spec.orderDelete := rfl

theorem indices_reflinkAdd (m : Nat) : (Spec.indices m).reflinkAdd = Spec.reflinkAdd m := rfl

theorem indices_reflinkDelete (m : Nat) :
    (Spec.indices m).reflinkDelete = Spec.reflinkDelete := rfl

theorem indices_reflinkDeleteMined (m : Nat) :
    (Spec.indices m).reflinkDeleteMined = Spec.reflinkDeleteMined := rfl

theorem indices_expirationAppend (m : Nat) :
    (Spec.indices m).expirationAppend = Spec.expirationAppend := rfl

theorem indices_expirationDrop (m : Nat) :
    (Spec.indices m).expirationDrop = Spec.expirationDrop := rfl

theorem indices_expirationDropBefore (m : Nat) :
    (Spec.indices m).expirationDropBefore = Spec.expirationDropBefore := rfl

theorem indices_expirationGetEpoch (m : Nat) :
    (Spec.indices m).expirationGetEpoch = Spec.expirationGetEpoch := rfl

theorem reflinkDelete_soft (s : Store) (h : Hash) :
    ¬((Spec.reflinkDelete s h).2 ≠ none ∧ (Spec.reflinkDelete s h).2 ≠ some Err.notFound) := by
  unfold Spec.reflinkDelete
  simp only []
  split_ifs <;> simp

theorem reflinkDelete_state (s : Store) (h : Hash) :
    (Spec.reflinkDelete s h).1 =
      { s with refs := s.refs.filter (fun r => decide (r.txHash ≠ h)),
               refCount := (s.refs.filter (fun r => decide (r.txHash = h))).foldl
                 (fun cs r => decCount cs r.utxoId) s.refCount } := by
  unfold Spec.reflinkDelete
  simp only []
  split_ifs with hc
  · have hnil : s.refs.filter (fun r => decide (r.txHash = h)) = [] := by
      simpa [List.isEmpty_iff] using hc
    have hself : s.refs.filter (fun r => decide (r.txHash ≠ h)) = s.refs := by
      rw [List.filter_eq_self]
      intro a ha
      rw [List.filter_eq_nil_iff] at hnil
      simpa using hnil a ha
    rw [hnil, hself]
    rfl
  · rfl

theorem orderDelete_soft (s : Store) (h : Hash) :
    ¬((Spec.orderDelete s h).2 ≠ none ∧ (Spec.orderDelete s h).2 ≠ some Err.notFound) := by
  unfold Spec.orderDelete
  split_ifs <;> simp

theorem orderDelete_state (s : Store) (h : Hash) :
    (Spec.orderDelete s h).1 =
      { s with order := s.order.filter (fun x => decide (x.txHash ≠ h)) } := by
  unfold Spec.orderDelete
  split_ifs with hc
  · rfl
  · have := filter_ne_of_any_false s.order (fun x => x.txHash = h) (by simpa using hc)
    simp only []
    rw [this]

theorem expirationDrop_soft (s : Store) (h : Hash) :
    ¬((Spec.expirationDrop s h).2 ≠ none ∧ (Spec.expirationDrop s h).2 ≠ some Err.notFound) := by
  unfold Spec.expirationDrop
  split_ifs <;> simp

theorem expirationDrop_state (s : Store) (h : Hash) :
    (Spec.expirationDrop s h).1 =
      { s with epochs := s.epochs.filter (fun x => decide (x.txHash ≠ h)) } := by
  unfold Spec.expirationDrop
  split_ifs with hc
  · rfl
  · have := filter_ne_of_any_false s.epochs (fun x => x.txHash = h) (by simpa using hc)
    simp only []
    rw [this]

/-- On the modelled sub-indices `DeleteOne` never fails and leaves the store
with `txHash` removed from the three indices. -/
theorem DeleteOne_spec (m : Nat) (s : Store) (h : Hash) :
    PendingTxIndexer.DeleteOne (Spec.indices m) s h = (s.purge h, none) := by
  rw [PendingTxIndexer.DeleteOne_eq]
  simp only [indices_reflinkDelete, indices_orderDelete, indices_expirationDrop]
  rw [if_neg (reflinkDelete_soft s h), if_neg (orderDelete_soft _ h),
    if_neg (expirationDrop_soft _ h)]
  rw [expirationDrop_state, orderDelete_state, reflinkDelete_state]
  rfl

theorem minedStep_spec (m : Nat) (s : Store) (h : Hash) :
    PendingTxIndexer.minedStep (Spec.indices m) s h = (s.purge h, none) :=
  DeleteOne_spec m s h

theorem evictLoop_spec (m : Nat) (s : Store) (l : List Hash) :
    PendingTxIndexer.evictLoop (Spec.indices m) s l = (l.foldl Store.purge s, none) := by
  induction l generalizing s with
  | nil => rfl
  | cons e rest ih =>
    simp only [PendingTxIndexer.evictLoop, CopySlice, DeleteOne_spec, List.foldl_cons]
    exact ih _

theorem minedLoop_spec (m : Nat) (s : Store) (l : List Hash) :
    PendingTxIndexer.minedLoop (Spec.indices m) s l = (l.foldl Store.purge s, none) := by
  induction l generalizing s with
  | nil => rfl
  | cons e rest ih =>
    simp only [PendingTxIndexer.minedLoop, CopySlice, minedStep_spec, List.foldl_cons]
    exact ih _

theorem dropLoop_spec (m : Nat) (s : Store) (l : List Hash) :
    PendingTxIndexer.dropLoop (Spec.indices m) s l = (l.foldl Store.purge s, none) := by
  induction l generalizing s with
  | nil => rfl
  | cons e rest ih =>
    simp only [PendingTxIndexer.dropLoop, CopySlice, DeleteOne_spec, List.foldl_cons]
    simpa using ih _

/-! ## Removing transactions from the store -/

theorem purge_purge (s : Store) (h : Hash) : (s.purge h).purge h = s.purge h := by
  have hnil : (s.refs.filter (fun r => decide (r.txHash ≠ h))).filter
      (fun r => decide (r.txHash = h)) = [] := by
    rw [List.filter_eq_nil_iff]
    intro a ha
    have := (List.mem_filter.1 ha).2
    simpa using this
  unfold Store.purge
  simp only [List.filter_filter, Bool.and_self, hnil, List.foldl_nil]

theorem foldl_purge_order (l : List Hash) (s : Store) :
    (l.foldl Store.purge s).order = s.order.filter (fun x => decide (x.txHash ∉ l)) := by
  induction l generalizing s with
  | nil => simp
  | cons e rest ih =>
    rw [List.foldl_cons, ih]
    simp only [Store.purge, List.filter_filter]
    apply List.filter_congr
    intro x _
    simp only [List.mem_cons, not_or, Bool.decide_and, ne_eq]
    rw [Bool.and_comm]

theorem foldl_purge_refs (l : List Hash) (s : Store) :
    (l.foldl Store.purge s).refs = s.refs.filter (fun r => decide (r.txHash ∉ l)) := by
  induction l generalizing s with
  | nil => simp
  | cons e rest ih =>
    rw [List.foldl_cons, ih]
    simp only [Store.purge, List.filter_filter]
    apply List.filter_congr
    intro x _
    simp only [List.mem_cons, not_or, Bool.decide_and, ne_eq]
    rw [Bool.and_comm]

theorem foldl_purge_epochs (l : List Hash) (s : Store) :
    (l.foldl Store.purge s).epochs = s.epochs.filter (fun x => decide (x.txHash ∉ l)) := by
  induction l generalizing s with
  | nil => simp
  | cons e rest ih =>
    rw [List.foldl_cons, ih]
    simp only [Store.purge, List.filter_filter]
    apply List.filter_congr
    intro x _
    simp only [List.mem_cons, not_or, Bool.decide_and, ne_eq]
    rw [Bool.and_comm]

theorem foldl_purge_orderCounter (l : List Hash) (s : Store) :
    (l.foldl Store.purge s).orderCounter = s.orderCounter := by
  induction l generalizing s with
  | nil => rfl
  | cons e rest ih => rw [List.foldl_cons, ih]; rfl

theorem foldl_purge_epochCounter (l : List Hash) (s : Store) :
    (l.foldl Store.purge s).epochCounter = s.epochCounter := by
  induction l generalizing s with
  | nil => rfl
  | cons e rest ih => rw [List.foldl_cons, ih]; rfl

/-- A transaction of the list is absent from the three indices after the
removals. -/
theorem absent_foldl_purge (l : List Hash) (s : Store) (t : Hash) (ht : t ∈ l) :
    absent (l.foldl Store.purge s) t := by
  refine ⟨?_, ?_, ?_⟩
  · rintro ⟨x, hx, rfl⟩
    rw [foldl_purge_order] at hx
    have := (List.mem_filter.1 hx).2
    simp at this
    exact this ht
  · rintro ⟨x, hx, rfl⟩
    rw [foldl_purge_refs] at hx
    have := (List.mem_filter.1 hx).2
    simp at this
    exact this ht
  · rintro ⟨x, hx, rfl⟩
    rw [foldl_purge_epochs] at hx
    have := (List.mem_filter.1 hx).2
    simp at this
    exact this ht

/-- Removing a transaction keeps the counters consistent. -/
theorem countsOk_purge {s : Store} (hs : CountsOk s) (h : Hash) : CountsOk (s.purge h) := by
  constructor
  · intro u
    show getCount ((s.refs.filter (fun r => decide (r.txHash = h))).foldl
      (fun cs r => decCount cs r.utxoId) s.refCount) u
        = ((s.refs.filter (fun r => decide (r.txHash ≠ h))).filter
            (fun r => decide (r.utxoId = u))).length
    rw [getCount_foldl_dec, hs.count_eq u]
    unfold refsOn
    have key : ∀ l : List Reference,
        (l.filter (fun r => decide (r.utxoId = u))).length
          = ((l.filter (fun r => decide (r.txHash = h))).filter
              (fun r => decide (r.utxoId = u))).length
            + ((l.filter (fun r => decide (r.txHash ≠ h))).filter
              (fun r => decide (r.utxoId = u))).length := by
      intro l
      induction l with
      | nil => rfl
      | cons a rest ih =>
        by_cases h1 : a.txHash = h <;> by_cases h2 : a.utxoId = u <;>
          simp [List.filter_cons, h1, h2, ih] <;> omega
    have := key s.refs
    omega
  · exact pos_foldl_dec _ _ hs.count_pos

theorem countsOk_foldl_purge {s : Store} (hs : CountsOk s) (l : List Hash) :
    CountsOk (l.foldl Store.purge s) := by
  induction l generalizing s with
  | nil => exact hs
  | cons e rest ih => exact ih (countsOk_purge hs e)

/-- Removing a transaction keeps the invariant. -/
theorem inv_purge {m : Nat} {s : Store} (hs : Inv m s) (h : Hash) : Inv m (s.purge h) := by
  constructor
  · intro x hx
    exact hs.seq_le x (List.mem_filter.1 hx).1
  · intro r hr
    have hr2 := List.mem_filter.1 hr
    show _ ∈ s.order.filter _
    refine List.mem_filter.2 ⟨hs.ref_order r hr2.1, ?_⟩
    simpa using hr2.2
  · exact countsOk_purge hs.counts h
  · intro u
    refine le_trans ?_ (hs.cap u)
    unfold refsOn
    show ((s.refs.filter _).filter _).length ≤ _
    rw [List.filter_comm]
    exact List.length_filter_le _ _

theorem inv_foldl_purge {m : Nat} {s : Store} (hs : Inv m s) (l : List Hash) :
    Inv m (l.foldl Store.purge s) := by
  induction l generalizing s with
  | nil => exact hs
  | cons e rest ih => exact ih (inv_purge hs e)

namespace PendingTxIndexer

/-- C7: on the modelled sub-indices, for every store and every `txHash`,
`DeleteOne` does not fail, a second `DeleteOne` of the same `txHash` does not
fail either, and the store after the second run is the store after the first. -/
theorem DeleteOne_idempotent (m : Nat) (s : Store) (txHash : Hash) :
    (DeleteOne (Spec.indices m) s txHash).2 = none ∧
    (DeleteOne (Spec.indices m) (DeleteOne (Spec.indices m) s txHash).1 txHash).2 = none ∧
    (DeleteOne (Spec.indices m) (DeleteOne (Spec.indices m) s txHash).1 txHash).1
      = (DeleteOne (Spec.indices m) s txHash).1 := by
  simp only [DeleteOne_spec, purge_purge, and_self]

end PendingTxIndexer

/-! ## Scans -/

/-- A scan of a key-ordered list that stops at the first entry failing `p`
visits every entry satisfying `p`, when `p` is closed towards lower keys. -/
theorem mem_takeWhile_of_sorted {α : Type} (r : α → α → Prop) (p : α → Bool)
    (hclosed : ∀ a b, r a b → p b = true → p a = true) :
    ∀ (l : List α), l.Sorted r → ∀ x, x ∈ l → p x = true → x ∈ l.takeWhile p := by
  intro l
  induction l with
  | nil => intro _ x hx; cases hx
  | cons a rest ih =>
    intro hsorted x hx hp
    have hrel := List.rel_of_sorted_cons hsorted
    have hrest := List.Sorted.of_cons hsorted
    have hpa : p a = true := by
      rcases List.mem_cons.1 hx with rfl | hx
      · exact hp
      · exact hclosed a x (hrel x hx) hp
    rw [List.takeWhile_cons_of_pos hpa]
    rcases List.mem_cons.1 hx with rfl | hx
    · exact List.mem_cons_self _ _
    · exact List.mem_cons_of_mem _ (ih hrest x hx hp)

theorem mem_takeWhile_imp {α : Type} (p : α → Bool) :
    ∀ (l : List α) (x : α), x ∈ l.takeWhile p → x ∈ l ∧ p x = true := by
  intro l
  induction l with
  | nil => intro x hx; cases hx
  | cons a rest ih =>
    intro x hx
    by_cases hpa : p a = true
    · rw [List.takeWhile_cons_of_pos hpa] at hx
      rcases List.mem_cons.1 hx with rfl | hx
      · exact ⟨List.mem_cons_self _ _, hpa⟩
      · exact ⟨List.mem_cons_of_mem _ (ih x hx).1, (ih x hx).2⟩
    · rw [List.takeWhile_cons_of_neg hpa] at hx
      cases hx

/-- The entries `dropBefore` scans are exactly the entries below the threshold. -/
theorem mem_dropBefore_victims (l : List EpochEntry) (e : Nat) (x : EpochEntry) :
    x ∈ (l.insertionSort EpochEntry.before).takeWhile (fun x => decide (x.epoch < e))
      ↔ x ∈ l ∧ x.epoch < e := by
  constructor
  · intro hx
    have := mem_takeWhile_imp _ _ x hx
    exact ⟨(List.perm_insertionSort EpochEntry.before l).mem_iff.1 this.1, by simpa using this.2⟩
  · rintro ⟨hx, he⟩
    refine mem_takeWhile_of_sorted EpochEntry.before _ ?_ _
      (List.sorted_insertionSort EpochEntry.before l) x
      ((List.perm_insertionSort EpochEntry.before l).mem_iff.2 hx) (by simpa using he)
    intro a b hab hb
    have hb2 : b.epoch < e := by simpa using hb
    have : a.epoch < e := by
      unfold EpochEntry.before at hab
      omega
    simpa using this

theorem DropBefore_spec (m : Nat) (s : Store) (e : Nat) :
    PendingTxIndexer.DropBefore (Spec.indices m) s e =
      ((((Spec.expirationDropBefore s e).2.1).elems.foldl Store.purge
          (Spec.expirationDropBefore s e).1),
        (Spec.expirationDropBefore s e).2.1, none) := by
  rw [PendingTxIndexer.DropBefore_eq]
  simp only [indices_expirationDropBefore]
  have h2 : (Spec.expirationDropBefore s e).2.2 = none := rfl
  rw [if_neg (by rw [h2]; simp), dropLoop_spec]

namespace PendingTxIndexer

/-- C10: on the modelled sub-indices `DropBefore(e)` succeeds, every transaction
whose stored epoch was below `e` is afterwards absent from the insertion-order
index, the ref-linker and the expiration list, and no entry left in the
expiration list has an epoch below `e`. -/
theorem DropBefore_removes_expired (m : Nat) (s : Store) (e : Nat) :
    (DropBefore (Spec.indices m) s e).2.2 = none ∧
    (∀ x ∈ s.epochs, x.epoch < e → absent (DropBefore (Spec.indices m) s e).1 x.txHash) ∧
    (∀ x ∈ (DropBefore (Spec.indices m) s e).1.epochs, e ≤ x.epoch) := by
  rw [DropBefore_spec]
  refine ⟨rfl, ?_, ?_⟩
  · intro x hx he
    apply absent_foldl_purge
    show x.txHash ∈ List.map EpochEntry.txHash _
    exact List.mem_map_of_mem _ ((mem_dropBefore_victims s.epochs e x).2 ⟨hx, he⟩)
  · intro x hx
    simp only [] at hx
    rw [foldl_purge_epochs] at hx
    have h1 := (List.mem_filter.1 hx).1
    have h2 : x ∈ s.epochs.filter _ := h1
    have h3 := List.mem_filter.1 h2
    have h4 : x ∉ (s.epochs.insertionSort EpochEntry.before).takeWhile
        (fun x => decide (x.epoch < e)) := by simpa using h3.2
    by_contra hlt
    exact h4 ((mem_dropBefore_victims s.epochs e x).2 ⟨h3.1, by omega⟩)

end PendingTxIndexer

/-! ## Checking the invariant on a given store -/

theorem getCount_eq_zero_of_not_key (cs : List (Hash × Nat)) (u : Hash)
    (h : u ∉ cs.map Prod.fst) : getCount cs u = 0 := by
  induction cs with
  | nil => rfl
  | cons p rest ih =>
    obtain ⟨k, n⟩ := p
    simp only [List.map_cons, List.mem_cons, not_or] at h
    have hk : ¬ k = u := fun e => h.1 e.symm
    simp only [getCount, if_neg hk]
    exact ih h.2

theorem refsOn_eq_zero_of_not_mem (s : Store) (u : Hash)
    (h : u ∉ s.refs.map Reference.utxoId) : refsOn s u = 0 := by
  unfold refsOn
  rw [List.length_eq_zero, List.filter_eq_nil_iff]
  intro r hr
  have : r.utxoId ≠ u := fun e => h (e ▸ List.mem_map_of_mem _ hr)
  simpa using this

theorem countsOk_of_check {s : Store} (h : countsOkB s = true) : CountsOk s := by
  unfold countsOkB at h
  rw [Bool.and_eq_true, List.all_eq_true, List.all_eq_true] at h
  constructor
  · intro u
    by_cases hu : u ∈ s.refCount.map Prod.fst ++ s.refs.map Reference.utxoId
    · simpa using h.1 u hu
    · rw [List.mem_append, not_or] at hu
      rw [getCount_eq_zero_of_not_key _ _ hu.1, refsOn_eq_zero_of_not_mem _ _ hu.2]
  · intro p hp
    simpa using h.2 p hp

theorem inv_of_check {m : Nat} {s : Store} (h : invB m s = true) : Inv m s := by
  unfold invB at h
  simp only [Bool.and_eq_true, List.all_eq_true, decide_eq_true_eq] at h
  obtain ⟨⟨⟨h1, h2⟩, h3⟩, h4⟩ := h
  refine ⟨h1, h2, countsOk_of_check h3, ?_⟩
  intro u
  by_cases hu : u ∈ s.refs.map Reference.utxoId
  · obtain ⟨r, hr, rfl⟩ := List.mem_map.1 hu
    exact h4 r hr
  · rw [refsOn_eq_zero_of_not_mem _ _ hu]
    exact Nat.zero_le _

/-! ## DeleteMined on the modelled sub-indices -/

theorem DeleteMined_spec (m : Nat) (s : Store) (h : Hash) :
    PendingTxIndexer.DeleteMined (Spec.indices m) s h =
      ((((Spec.reflinkDeleteMined s h).2.1.append h).elems.foldl Store.purge s),
        (Spec.reflinkDeleteMined s h).2.1.append h,
        (Spec.reflinkDeleteMined s h).2.2.1, none) := by
  rw [PendingTxIndexer.DeleteMined_eq]
  simp only [indices_reflinkDeleteMined]
  have h2 : (Spec.reflinkDeleteMined s h).2.2.2 = none := rfl
  have h1 : (Spec.reflinkDeleteMined s h).1 = s := rfl
  rw [if_neg (by rw [h2]; simp), minedLoop_spec, h1]

/-- Every transaction with a reference on a UTXO consumed by `h` is among the
transactions `DeleteMined` removes. -/
theorem mem_mined_victims (s : Store) (h : Hash) (r1 r2 : Reference)
    (h1 : r1 ∈ s.refs) (h1h : r1.txHash = h) (h2 : r2 ∈ s.refs)
    (hu : r2.utxoId = r1.utxoId) :
    r2.txHash ∈ ((Spec.reflinkDeleteMined s h).2.1.append h).elems := by
  show r2.txHash ∈ (Slice.elems (some _) ++ [h])
  rw [List.mem_append]
  by_cases ht : r2.txHash = h
  · exact Or.inr (by simp [ht])
  · left
    show r2.txHash ∈ List.dedup _
    rw [List.mem_dedup, List.mem_flatMap]
    refine ⟨r1.utxoId, ?_, ?_⟩
    · exact List.mem_map_of_mem _ (List.mem_filter.2 ⟨h1, by simpa using h1h⟩)
    · refine List.mem_map_of_mem _ (List.mem_filter.2 ⟨?_, by simpa using ht⟩)
      unfold scanRefs
      rw [(List.perm_insertionSort _ _).mem_iff]
      exact List.mem_filter.2 ⟨h2, by simpa using hu⟩

namespace PendingTxIndexer

/-- C9: on the modelled sub-indices, from a store with consistent counters,
`DeleteMined(txHash)` succeeds; afterwards `txHash` is absent from the three
indices, so is every transaction that had a reference on a UTXO consumed by
`txHash`, and each of those UTXOs has no reference and no count key left. -/
theorem DeleteMined_removes (m : Nat) (s : Store) (txHash : Hash) (hs : CountsOk s) :
    (DeleteMined (Spec.indices m) s txHash).2.2.2 = none ∧
    absent (DeleteMined (Spec.indices m) s txHash).1 txHash ∧
    (∀ r1 ∈ s.refs, r1.txHash = txHash → ∀ r2 ∈ s.refs, r2.utxoId = r1.utxoId →
      absent (DeleteMined (Spec.indices m) s txHash).1 r2.txHash) ∧
    (∀ r1 ∈ s.refs, r1.txHash = txHash →
      refsOn (DeleteMined (Spec.indices m) s txHash).1 r1.utxoId = 0 ∧
      hasCount (DeleteMined (Spec.indices m) s txHash).1.refCount r1.utxoId = false ∧
      getCount (DeleteMined (Spec.indices m) s txHash).1.refCount r1.utxoId = 0) := by
  rw [DeleteMined_spec]
  refine ⟨rfl, ?_, ?_, ?_⟩
  · apply absent_foldl_purge
    show txHash ∈ (Slice.elems (some _) ++ [txHash])
    simp
  · intro r1 h1 h1h r2 h2 hu
    exact absent_foldl_purge _ _ _ (mem_mined_victims s txHash r1 r2 h1 h1h h2 hu)
  · intro r1 h1 h1h
    have hok := countsOk_foldl_purge hs ((Spec.reflinkDeleteMined s txHash).2.1.append txHash).elems
    have hzero : refsOn (((Spec.reflinkDeleteMined s txHash).2.1.append txHash).elems.foldl
        Store.purge s) r1.utxoId = 0 := by
      unfold refsOn
      rw [List.length_eq_zero, List.filter_eq_nil_iff, foldl_purge_refs]
      intro r hr hru
      have hr2 := List.mem_filter.1 hr
      have hnot : r.txHash ∉ ((Spec.reflinkDeleteMined s txHash).2.1.append txHash).elems := by
        simpa using hr2.2
      exact hnot (mem_mined_victims s txHash r1 r h1 h1h hr2.1 (by simpa using hru))
    have hget := hok.count_eq r1.utxoId
    rw [hzero] at hget
    exact ⟨hzero, hasCount_false_of_zero hok.count_pos hget, hget⟩

end PendingTxIndexer

/-! ## The add algorithm of the ref-linker -/

/-- The first entry of the forward scan is a reference on `u` with the least seq. -/
theorem oldestRef_isOldest {refs : List Reference} {u : Hash} {r : Reference}
    (h : oldestRef refs u = some r) :
    IsOldest (refs.filter (fun r => decide (r.utxoId = u))) r := by
  unfold oldestRef scanRefs at h
  have hsorted := List.sorted_insertionSort Reference.older
    (refs.filter (fun r => decide (r.utxoId = u)))
  have hperm := List.perm_insertionSort Reference.older
    (refs.filter (fun r => decide (r.utxoId = u)))
  revert h hsorted hperm
  generalize (refs.filter (fun r => decide (r.utxoId = u))).insertionSort Reference.older = l
  intro h hsorted hperm
  cases l with
  | nil => cases h
  | cons a t =>
    simp only [List.head?_cons, Option.some.injEq] at h
    subst h
    refine ⟨hperm.mem_iff.1 (List.mem_cons_self _ _), ?_⟩
    intro x hx
    rcases List.mem_cons.1 (hperm.mem_iff.2 hx) with rfl | hx
    · exact Nat.le_refl _
    · exact List.rel_of_sorted_cons hsorted x hx

theorem oldestRef_isSome {refs : List Reference} {u : Hash}
    (h : refs.filter (fun r => decide (r.utxoId = u)) ≠ []) :
    ∃ r, oldestRef refs u = some r := by
  unfold oldestRef scanRefs
  have hperm := List.perm_insertionSort Reference.older
    (refs.filter (fun r => decide (r.utxoId = u)))
  revert hperm
  generalize (refs.filter (fun r => decide (r.utxoId = u))).insertionSort Reference.older = l
  intro hperm
  cases l with
  | nil => exact absurd (List.Perm.nil_eq hperm).symm h
  | cons a t => exact ⟨a, rfl⟩

theorem oldestRef_congr {l1 l2 : List Reference} {u : Hash}
    (h : l1.filter (fun r => decide (r.utxoId = u)) = l2.filter (fun r => decide (r.utxoId = u))) :
    oldestRef l1 u = oldestRef l2 u := by
  unfold oldestRef scanRefs
  rw [h]

theorem refAddStep_fst (m : Nat) (h : Hash) (q : Nat) (acc : Store × List Hash) (u : Hash) :
    (Spec.refAddStep m h q acc u).1 =
      { acc.1 with refs := acc.1.refs ++ [⟨u, h, q⟩],
                   refCount := setCount acc.1.refCount u (getCount acc.1.refCount u + 1) } := by
  unfold Spec.refAddStep
  simp only []
  split_ifs
  · split <;> rfl
  · rfl

theorem refAddStep_snd (m : Nat) (h : Hash) (q : Nat) (acc : Store × List Hash) (u : Hash) :
    (Spec.refAddStep m h q acc u).2 = acc.2 ++ collected m h q acc.1 u := by
  unfold Spec.refAddStep collected
  simp only []
  split_ifs
  · split <;> simp
  · simp

theorem addFold_refs (m : Nat) (h : Hash) (q : Nat) (us : List Hash) (acc : Store × List Hash) :
    (us.foldl (Spec.refAddStep m h q) acc).1.refs
      = acc.1.refs ++ us.map (fun u => (⟨u, h, q⟩ : Reference)) := by
  induction us generalizing acc with
  | nil => simp
  | cons u rest ih =>
    rw [List.foldl_cons, ih, refAddStep_fst]
    simp

theorem addFold_frame (m : Nat) (h : Hash) (q : Nat) (us : List Hash) (acc : Store × List Hash) :
    (us.foldl (Spec.refAddStep m h q) acc).1.order = acc.1.order ∧
    (us.foldl (Spec.refAddStep m h q) acc).1.orderCounter = acc.1.orderCounter ∧
    (us.foldl (Spec.refAddStep m h q) acc).1.epochs = acc.1.epochs ∧
    (us.foldl (Spec.refAddStep m h q) acc).1.epochCounter = acc.1.epochCounter := by
  induction us generalizing acc with
  | nil => simp
  | cons u rest ih =>
    rw [List.foldl_cons]
    have := ih (Spec.refAddStep m h q acc u)
    rw [refAddStep_fst] at this
    exact this

theorem addFold_getCount (m : Nat) (h : Hash) (q : Nat) (us : List Hash) (hnd : us.Nodup)
    (acc : Store × List Hash) (v : Hash) :
    getCount (us.foldl (Spec.refAddStep m h q) acc).1.refCount v
      = getCount acc.1.refCount v + (if v ∈ us then 1 else 0) := by
  induction us generalizing acc with
  | nil => simp
  | cons u rest ih =>
    have hnd2 := List.nodup_cons.1 hnd
    rw [List.foldl_cons, ih hnd2.2, refAddStep_fst]
    simp only [getCount_setCount]
    by_cases hv : v = u
    · subst hv
      simp [hnd2.1]
    · simp [hv]

theorem addFold_pos (m : Nat) (h : Hash) (q : Nat) (us : List Hash) (acc : Store × List Hash)
    (hpos : ∀ p ∈ acc.1.refCount, p.2 ≠ 0) :
    ∀ p ∈ (us.foldl (Spec.refAddStep m h q) acc).1.refCount, p.2 ≠ 0 := by
  induction us generalizing acc with
  | nil => simpa using hpos
  | cons u rest ih =>
    rw [List.foldl_cons]
    apply ih
    rw [refAddStep_fst]
    exact pos_setCount u _ (Nat.succ_ne_zero _) hpos

theorem collected_congr (m : Nat) (h : Hash) (q : Nat) (s1 s2 : Store) (u : Hash)
    (hc : getCount s1.refCount u = getCount s2.refCount u)
    (hr : s1.refs.filter (fun r => decide (r.utxoId = u))
      = s2.refs.filter (fun r => decide (r.utxoId = u))) :
    collected m h q s1 u = collected m h q s2 u := by
  unfold collected
  rw [hc]
  have : oldestRef (s1.refs ++ [⟨u, h, q⟩]) u = oldestRef (s2.refs ++ [⟨u, h, q⟩]) u := by
    apply oldestRef_congr
    rw [List.filter_append, List.filter_append, hr]
  rw [this]

theorem addFold_evicted (m : Nat) (h : Hash) (q : Nat) (us : List Hash) (hnd : us.Nodup)
    (acc : Store × List Hash) :
    (us.foldl (Spec.refAddStep m h q) acc).2
      = acc.2 ++ us.flatMap (collected m h q acc.1) := by
  induction us generalizing acc with
  | nil => simp
  | cons u rest ih =>
    have hnd2 := List.nodup_cons.1 hnd
    rw [List.foldl_cons, ih hnd2.2, refAddStep_snd, List.flatMap_cons, List.append_assoc]
    congr 2
    apply List.flatMap_congr
    intro v hv
    have hvu : v ≠ u := fun e => hnd2.1 (e ▸ hv)
    apply collected_congr
    · rw [refAddStep_fst]
      simp only [getCount_setCount, if_neg hvu]
    · rw [refAddStep_fst]
      simp only [List.filter_append]
      have : ¬ u = v := fun e => hvu e.symm
      simp [this]

/-! ## Add on the modelled sub-indices -/

/-- What a successful `Add` did, over any sub-indices: every sub-call
succeeded and the result is the state after `expiration.Append` with the
slice of `reflink.Add`. -/
theorem Add_success {σ : Type} (ix : SubIndices σ) (txn : σ) (epoch : Nat) (txHash : Hash)
    (utxoIDs : List Hash) (hok : (PendingTxIndexer.Add ix txn epoch txHash utxoIDs).2.2 = none) :
    (ix.orderAdd txn txHash).2 = none ∧
    (ix.reflinkAdd (ix.orderAdd txn txHash).1 txHash utxoIDs).2.2.2 = none ∧
    (if (ix.reflinkAdd (ix.orderAdd txn txHash).1 txHash utxoIDs).2.1 = true then
        PendingTxIndexer.evictLoop ix (ix.reflinkAdd (ix.orderAdd txn txHash).1 txHash utxoIDs).1
          (ix.reflinkAdd (ix.orderAdd txn txHash).1 txHash utxoIDs).2.2.1.elems
      else ((ix.reflinkAdd (ix.orderAdd txn txHash).1 txHash utxoIDs).1, none)).2 = none ∧
    (ix.expirationAppend
      (if (ix.reflinkAdd (ix.orderAdd txn txHash).1 txHash utxoIDs).2.1 = true then
        PendingTxIndexer.evictLoop ix (ix.reflinkAdd (ix.orderAdd txn txHash).1 txHash utxoIDs).1
          (ix.reflinkAdd (ix.orderAdd txn txHash).1 txHash utxoIDs).2.2.1.elems
      else ((ix.reflinkAdd (ix.orderAdd txn txHash).1 txHash utxoIDs).1, none)).1
      epoch txHash).2 = none ∧
    PendingTxIndexer.Add ix txn epoch txHash utxoIDs =
      ((ix.expirationAppend
        (if (ix.reflinkAdd (ix.orderAdd txn txHash).1 txHash utxoIDs).2.1 = true then
          PendingTxIndexer.evictLoop ix (ix.reflinkAdd (ix.orderAdd txn txHash).1 txHash utxoIDs).1
            (ix.reflinkAdd (ix.orderAdd txn txHash).1 txHash utxoIDs).2.2.1.elems
        else ((ix.reflinkAdd (ix.orderAdd txn txHash).1 txHash utxoIDs).1, none)).1
        epoch txHash).1,
      (ix.reflinkAdd (ix.orderAdd txn txHash).1 txHash utxoIDs).2.2.1, none) := by
  revert hok
  unfold PendingTxIndexer.Add
  rcases ix.orderAdd txn txHash with ⟨t1, e1⟩
  cases e1 with
  | some e => simp
  | none =>
    simp only []
    rcases ix.reflinkAdd t1 txHash utxoIDs with ⟨t2, ev, evd, e2⟩
    cases e2 with
    | some e => simp
    | none =>
      simp only []
      rcases (if ev = true then PendingTxIndexer.evictLoop ix t2 evd.elems else (t2, none))
        with ⟨t3, e3⟩
      cases e3 with
      | some e => simp
      | none =>
        simp only []
        rcases ix.expirationAppend t3 epoch txHash with ⟨t4, e4⟩
        cases e4 <;> simp

theorem orderAdd_ok {s : Store} {h : Hash} (hok : (Spec.orderAdd s h).2 = none) :
    s.order.any (fun x => decide (x.txHash = h)) = false ∧
    (Spec.orderAdd s h).1 =
      { s with orderCounter := s.orderCounter + 1,
               order := s.order ++ [⟨s.orderCounter + 1, h⟩] } := by
  by_cases hc : s.order.any (fun x => decide (x.txHash = h)) = true
  · simp [Spec.orderAdd, hc] at hok
  · simp only [Spec.orderAdd, if_neg hc]
    exact ⟨by simpa using hc, trivial⟩

theorem expirationAppend_ok {s : Store} {ep : Nat} {h : Hash}
    (hok : (Spec.expirationAppend s ep h).2 = none) :
    s.epochs.any (fun x => decide (x.txHash = h)) = false ∧
    (Spec.expirationAppend s ep h).1 =
      { s with epochCounter := s.epochCounter + 1,
               epochs := s.epochs ++ [⟨ep, s.epochCounter + 1, h⟩] } := by
  by_cases hc : s.epochs.any (fun x => decide (x.txHash = h)) = true
  · simp [Spec.expirationAppend, hc] at hok
  · simp only [Spec.expirationAppend, if_neg hc]
    exact ⟨by simpa using hc, trivial⟩

theorem orderSeq_append_new (l : List OrderEntry) (q : Nat) (h : Hash)
    (hl : l.any (fun x => decide (x.txHash = h)) = false) :
    orderSeq (l ++ [⟨q, h⟩]) h = some q := by
  unfold orderSeq
  rw [List.find?_append]
  have : l.find? (fun x => decide (x.txHash = h)) = none := by
    rw [List.find?_eq_none]
    intro x hx
    rw [List.any_eq_false] at hl
    exact hl x hx
  rw [this]
  simp

theorem reflinkAdd_ok {m : Nat} {s : Store} {h : Hash} {us : List Hash} {q : Nat}
    (hq : orderSeq s.order h = some q) (hok : (Spec.reflinkAdd m s h us).2.2.2 = none) :
    us.Nodup ∧
    Spec.reflinkAdd m s h us =
      ((us.foldl (Spec.refAddStep m h q) (s, [])).1,
        !(us.foldl (Spec.refAddStep m h q) (s, [])).2.isEmpty,
        some (us.foldl (Spec.refAddStep m h q) (s, [])).2, none) := by
  by_cases hc : us.Nodup
  · simp only [Spec.reflinkAdd, not_not.2 hc, if_false, hq]
    exact ⟨hc, trivial⟩
  · simp [Spec.reflinkAdd, hc] at hok

/-- A successful `Add` on the modelled sub-indices, in closed form. -/
theorem Add_spec {m : Nat} {s : Store} {ep : Nat} {h : Hash} {us : List Hash}
    (hok : (PendingTxIndexer.Add (Spec.indices m) s ep h us).2.2 = none) :
    s.order.any (fun x => decide (x.txHash = h)) = false ∧
    us.Nodup ∧
    ((addLoop m s h us).2.foldl Store.purge (addLoop m s h us).1).epochs.any
      (fun x => decide (x.txHash = h)) = false ∧
    PendingTxIndexer.Add (Spec.indices m) s ep h us =
      ({ ((addLoop m s h us).2.foldl Store.purge (addLoop m s h us).1) with
          epochCounter := ((addLoop m s h us).2.foldl Store.purge
            (addLoop m s h us).1).epochCounter + 1,
          epochs := ((addLoop m s h us).2.foldl Store.purge (addLoop m s h us).1).epochs
            ++ [⟨ep, ((addLoop m s h us).2.foldl Store.purge
              (addLoop m s h us).1).epochCounter + 1, h⟩] },
        some (addLoop m s h us).2, none) := by
  obtain ⟨h1, h2, _, h4, h5⟩ := Add_success (Spec.indices m) s ep h us hok
  rw [h5]
  simp only [indices_orderAdd, indices_reflinkAdd, indices_expirationAppend] at h1 h2 h4 ⊢
  obtain ⟨hfresh, hs1⟩ := orderAdd_ok h1
  have hq : orderSeq (Spec.orderAdd s h).1.order h = some (s.orderCounter + 1) := by
    rw [hs1]
    exact orderSeq_append_new _ _ _ hfresh
  obtain ⟨hnd, hr⟩ := reflinkAdd_ok hq h2
  have hloop : us.foldl (Spec.refAddStep m h (s.orderCounter + 1)) ((Spec.orderAdd s h).1, [])
      = addLoop m s h us := rfl
  rw [hloop] at hr
  have hev : (if (Spec.reflinkAdd m (Spec.orderAdd s h).1 h us).2.1 = true then
        PendingTxIndexer.evictLoop (Spec.indices m) (Spec.reflinkAdd m (Spec.orderAdd s h).1 h us).1
          (Spec.reflinkAdd m (Spec.orderAdd s h).1 h us).2.2.1.elems
      else ((Spec.reflinkAdd m (Spec.orderAdd s h).1 h us).1, none))
      = ((addLoop m s h us).2.foldl Store.purge (addLoop m s h us).1, none) := by
    rw [hr]
    simp only [evictLoop_spec, Slice.elems, Option.getD_some]
    split_ifs with hc
    · rfl
    · have : (addLoop m s h us).2 = [] := by
        simpa [List.isEmpty_iff] using hc
      rw [this]
      rfl
  rw [hev] at h4 ⊢
  obtain ⟨hfresh2, hs4⟩ := expirationAppend_ok h4
  refine ⟨hfresh, hnd, hfresh2, ?_⟩
  rw [hs4, hr]

theorem orderAdd_frame (s : Store) (h : Hash) :
    (Spec.orderAdd s h).1.refs = s.refs ∧ (Spec.orderAdd s h).1.refCount = s.refCount ∧
    (Spec.orderAdd s h).1.epochs = s.epochs ∧
    (Spec.orderAdd s h).1.epochCounter = s.epochCounter := by
  unfold Spec.orderAdd
  split_ifs <;> exact ⟨rfl, rfl, rfl, rfl⟩

theorem addLoop_refs (m : Nat) (s : Store) (h : Hash) (us : List Hash) :
    (addLoop m s h us).1.refs
      = s.refs ++ us.map (fun u => (⟨u, h, s.orderCounter + 1⟩ : Reference)) := by
  unfold addLoop
  rw [addFold_refs, (orderAdd_frame s h).1]

theorem addLoop_order {m : Nat} {s : Store} {h : Hash} (us : List Hash)
    (hok : (Spec.orderAdd s h).2 = none) :
    (addLoop m s h us).1.order = s.order ++ [⟨s.orderCounter + 1, h⟩] ∧
    (addLoop m s h us).1.orderCounter = s.orderCounter + 1 := by
  unfold addLoop
  have hf := addFold_frame m h (s.orderCounter + 1) us ((Spec.orderAdd s h).1, [])
  rw [hf.1, hf.2.1, (orderAdd_ok hok).2]
  exact ⟨rfl, rfl⟩

theorem addLoop_epochs (m : Nat) (s : Store) (h : Hash) (us : List Hash) :
    (addLoop m s h us).1.epochs = s.epochs ∧
    (addLoop m s h us).1.epochCounter = s.epochCounter := by
  unfold addLoop
  have hf := addFold_frame m h (s.orderCounter + 1) us ((Spec.orderAdd s h).1, [])
  rw [hf.2.2.1, hf.2.2.2, (orderAdd_frame s h).2.2.1, (orderAdd_frame s h).2.2.2]
  exact ⟨rfl, rfl⟩

theorem addLoop_getCount (m : Nat) (s : Store) (h : Hash) (us : List Hash) (hnd : us.Nodup)
    (v : Hash) :
    getCount (addLoop m s h us).1.refCount v
      = getCount s.refCount v + (if v ∈ us then 1 else 0) := by
  unfold addLoop
  rw [addFold_getCount m h _ us hnd, (orderAdd_frame s h).2.1]

theorem addLoop_evicted (m : Nat) (s : Store) (h : Hash) (us : List Hash) (hnd : us.Nodup) :
    (addLoop m s h us).2
      = us.flatMap (collected m h (s.orderCounter + 1) (Spec.orderAdd s h).1) := by
  unfold addLoop
  rw [addFold_evicted m h _ us hnd]
  rfl

/-- The new edges of an `Add` on `v`: one if `v` is among the utxoIDs, none
otherwise. -/
theorem new_edges_on (h : Hash) (q : Nat) (us : List Hash) (hnd : us.Nodup) (v : Hash) :
    ((us.map (fun u => (⟨u, h, q⟩ : Reference))).filter
        (fun r => decide (r.utxoId = v))).length
      = if v ∈ us then 1 else 0 := by
  induction us with
  | nil => simp
  | cons u rest ih =>
    have hnd2 := List.nodup_cons.1 hnd
    rw [List.map_cons]
    by_cases hu : u = v
    · subst hu
      rw [List.filter_cons_of_pos (by simp), List.length_cons, ih hnd2.2]
      simp [hnd2.1]
    · rw [List.filter_cons_of_neg (by simpa using hu), ih hnd2.2]
      have : ¬ v = u := fun e => hu e.symm
      simp [this]

theorem refsOn_addLoop (m : Nat) (s : Store) (h : Hash) (us : List Hash) (hnd : us.Nodup)
    (v : Hash) :
    refsOn (addLoop m s h us).1 v = refsOn s v + (if v ∈ us then 1 else 0) := by
  unfold refsOn
  rw [addLoop_refs, List.filter_append, List.length_append, new_edges_on h _ us hnd v]

/-- Under the invariant, what the add algorithm collects for `u` is the
txHash of a reference of the store on `u` with the least seq, and only when
`u` already has `maxRefs` references. -/
theorem collected_mem {m : Nat} {s : Store} {h : Hash} {u e : Hash} (hm : 1 ≤ m)
    (hs : Inv m s) (he : e ∈ collected m h (s.orderCounter + 1) (Spec.orderAdd s h).1 u) :
    m ≤ refsOn s u ∧
    ∃ r ∈ s.refs, r.utxoId = u ∧ r.txHash = e ∧ ∀ x ∈ s.refs, x.utxoId = u → r.seq ≤ x.seq := by
  unfold collected at he
  rw [(orderAdd_frame s h).1, (orderAdd_frame s h).2.1, hs.counts.count_eq u] at he
  by_cases hc : refsOn s u + 1 > m
  · rw [if_pos hc] at he
    have hge : m ≤ refsOn s u := by omega
    refine ⟨hge, ?_⟩
    cases hold : oldestRef (s.refs ++ [⟨u, h, s.orderCounter + 1⟩]) u with
    | none => rw [hold] at he; cases he
    | some r =>
      rw [hold] at he
      have hre : e = r.txHash := by simpa using he
      have hiso := oldestRef_isOldest hold
      rw [List.filter_append] at hiso
      have hne : s.refs.filter (fun r => decide (r.utxoId = u)) ≠ [] := by
        intro hnil
        have : refsOn s u = 0 := by unfold refsOn; rw [hnil]; rfl
        omega
      obtain ⟨x, hx⟩ := List.exists_mem_of_ne_nil _ hne
      have hxs := List.mem_filter.1 hx
      have hxseq : x.seq ≤ s.orderCounter := hs.seq_le _ (hs.ref_order x hxs.1)
      have hrx : r.seq ≤ x.seq := hiso.2 x (List.mem_append_left _ hx)
      have hrold : r ∈ s.refs.filter (fun r => decide (r.utxoId = u)) := by
        rcases List.mem_append.1 hiso.1 with hr | hr
        · exact hr
        · have hr2 := (List.mem_filter.1 hr).1
          have : r = ⟨u, h, s.orderCounter + 1⟩ := by simpa using hr2
          rw [this] at hrx
          simp only at hrx
          omega
      have hr3 := List.mem_filter.1 hrold
      refine ⟨r, hr3.1, by simpa using hr3.2, hre.symm, ?_⟩
      intro y hy hyu
      exact hiso.2 y (List.mem_append_left _ (List.mem_filter.2 ⟨hy, by simpa using hyu⟩))
  · rw [if_neg hc] at he
    cases he

theorem collected_nonempty {m : Nat} {s : Store} {h : Hash} {u : Hash}
    (hs : Inv m s) (hu : m ≤ refsOn s u) :
    ∃ e, e ∈ collected m h (s.orderCounter + 1) (Spec.orderAdd s h).1 u := by
  unfold collected
  rw [(orderAdd_frame s h).1, (orderAdd_frame s h).2.1, hs.counts.count_eq u]
  rw [if_pos (by omega)]
  have hne : (s.refs ++ [(⟨u, h, s.orderCounter + 1⟩ : Reference)]).filter
      (fun r : Reference => decide (r.utxoId = u)) ≠ [] := by
    rw [List.filter_append]
    simp
  obtain ⟨r, hr⟩ := oldestRef_isSome hne
  rw [hr]
  exact ⟨r.txHash, List.mem_singleton_self _⟩

/-- Every evicted transaction is the oldest referrer of a full UTXO of the
utxoIDs. -/
theorem evicted_old {m : Nat} {s : Store} {h : Hash} {us : List Hash} {e : Hash}
    (hm : 1 ≤ m) (hs : Inv m s) (hnd : us.Nodup) (he : e ∈ (addLoop m s h us).2) :
    ∃ u ∈ us, m ≤ refsOn s u ∧
      ∃ r ∈ s.refs, r.utxoId = u ∧ r.txHash = e ∧
        ∀ x ∈ s.refs, x.utxoId = u → r.seq ≤ x.seq := by
  rw [addLoop_evicted m s h us hnd, List.mem_flatMap] at he
  obtain ⟨u, hu, hc⟩ := he
  exact ⟨u, hu, collected_mem hm hs hc⟩

/-- Every full UTXO of the utxoIDs has its oldest referrer evicted. -/
theorem evicted_exists {m : Nat} {s : Store} {h : Hash} {us : List Hash} {u : Hash}
    (hm : 1 ≤ m) (hs : Inv m s) (hnd : us.Nodup) (hu : u ∈ us) (hfull : m ≤ refsOn s u) :
    ∃ r ∈ s.refs, r.utxoId = u ∧ r.txHash ∈ (addLoop m s h us).2 ∧
      ∀ x ∈ s.refs, x.utxoId = u → r.seq ≤ x.seq := by
  obtain ⟨e, he⟩ := collected_nonempty (h := h) hs hfull
  obtain ⟨_, r, hr, hru, hre, hmin⟩ := collected_mem hm hs he
  refine ⟨r, hr, hru, ?_, hmin⟩
  rw [addLoop_evicted m s h us hnd, List.mem_flatMap, hre]
  exact ⟨u, hu, he⟩

/-- An evicted transaction is never the transaction being added. -/
theorem evicted_ne_new {m : Nat} {s : Store} {h : Hash} {us : List Hash}
    (hm : 1 ≤ m) (hs : Inv m s) (hnd : us.Nodup)
    (hfresh : s.order.any (fun x => decide (x.txHash = h)) = false) :
    h ∉ (addLoop m s h us).2 := by
  intro he
  obtain ⟨u, _, _, r, hr, _, hre, _⟩ := evicted_old hm hs hnd he
  have hmem := hs.ref_order r hr
  rw [List.any_eq_false] at hfresh
  have := hfresh _ hmem
  simp [hre] at this

/-- After the ref-linker loop the invariant holds with the cap exceeded by at
most one. -/
theorem inv_addLoop {m : Nat} {s : Store} {h : Hash} {us : List Hash} (hs : Inv m s)
    (hnd : us.Nodup) (hok : (Spec.orderAdd s h).2 = none) :
    Inv (m + 1) (addLoop m s h us).1 := by
  have hord := addLoop_order (m := m) us hok
  constructor
  · intro x hx
    rw [hord.1] at hx
    rw [hord.2]
    rcases List.mem_append.1 hx with hx | hx
    · exact Nat.le_succ_of_le (hs.seq_le x hx)
    · have : x = ⟨s.orderCounter + 1, h⟩ := by simpa using hx
      rw [this]
  · intro r hr
    rw [addLoop_refs] at hr
    rw [hord.1]
    rcases List.mem_append.1 hr with hr | hr
    · exact List.mem_append_left _ (hs.ref_order r hr)
    · obtain ⟨u, _, rfl⟩ := List.mem_map.1 hr
      exact List.mem_append_right _ (List.mem_singleton_self _)
  · constructor
    · intro u
      rw [addLoop_getCount m s h us hnd, refsOn_addLoop m s h us hnd, hs.counts.count_eq u]
    · unfold addLoop
      apply addFold_pos
      rw [(orderAdd_frame s h).2.1]
      exact hs.counts.count_pos
  · intro u
    rw [refsOn_addLoop m s h us hnd]
    have := hs.cap u
    split_ifs <;> omega

/-- After the evicted transactions are removed the cap holds again. -/
theorem cap_after_evictions {m : Nat} {s : Store} {h : Hash} {us : List Hash} (hm : 1 ≤ m)
    (hs : Inv m s) (hnd : us.Nodup) (u : Hash) :
    refsOn ((addLoop m s h us).2.foldl Store.purge (addLoop m s h us).1) u ≤ m := by
  have hle : refsOn ((addLoop m s h us).2.foldl Store.purge (addLoop m s h us).1) u
      ≤ refsOn (addLoop m s h us).1 u := by
    unfold refsOn
    rw [foldl_purge_refs, List.filter_comm]
    exact List.length_filter_le _ _
  have h2 := refsOn_addLoop m s h us hnd u
  have hcap := hs.cap u
  by_cases hu : u ∈ us
  · rw [if_pos hu] at h2
    by_cases hfull : m ≤ refsOn s u
    · obtain ⟨r, hr, hru, hre, _⟩ := evicted_exists (h := h) hm hs hnd hu hfull
      have hlt : refsOn ((addLoop m s h us).2.foldl Store.purge (addLoop m s h us).1) u
          < refsOn (addLoop m s h us).1 u := by
        unfold refsOn
        rw [foldl_purge_refs, List.filter_comm, List.length_filter_lt_length_iff_exists]
        refine ⟨r, List.mem_filter.2 ⟨?_, by simpa using hru⟩, by simpa using hre⟩
        rw [addLoop_refs]
        exact List.mem_append_left _ hr
      omega
    · omega
  · rw [if_neg hu] at h2
    omega

/-- The fields of the store after a successful `Add`. -/
theorem Add_post {m : Nat} {s : Store} {ep : Nat} {h : Hash} {us : List Hash}
    (hok : (PendingTxIndexer.Add (Spec.indices m) s ep h us).2.2 = none) :
    (PendingTxIndexer.Add (Spec.indices m) s ep h us).2.1 = some (addLoop m s h us).2 ∧
    (PendingTxIndexer.Add (Spec.indices m) s ep h us).1.order
      = ((addLoop m s h us).2.foldl Store.purge (addLoop m s h us).1).order ∧
    (PendingTxIndexer.Add (Spec.indices m) s ep h us).1.orderCounter
      = ((addLoop m s h us).2.foldl Store.purge (addLoop m s h us).1).orderCounter ∧
    (PendingTxIndexer.Add (Spec.indices m) s ep h us).1.refs
      = ((addLoop m s h us).2.foldl Store.purge (addLoop m s h us).1).refs ∧
    (PendingTxIndexer.Add (Spec.indices m) s ep h us).1.refCount
      = ((addLoop m s h us).2.foldl Store.purge (addLoop m s h us).1).refCount ∧
    (PendingTxIndexer.Add (Spec.indices m) s ep h us).1.epochs
      = ((addLoop m s h us).2.foldl Store.purge (addLoop m s h us).1).epochs
        ++ [⟨ep, ((addLoop m s h us).2.foldl Store.purge
              (addLoop m s h us).1).epochCounter + 1, h⟩] := by
  rw [(Add_spec hok).2.2.2]
  exact ⟨rfl, rfl, rfl, rfl, rfl, rfl⟩

/-- A successful `Add` keeps the invariant. -/
theorem inv_Add {m : Nat} {s : Store} {ep : Nat} {h : Hash} {us : List Hash} (hm : 1 ≤ m)
    (hs : Inv m s) (hok : (PendingTxIndexer.Add (Spec.indices m) s ep h us).2.2 = none) :
    Inv m (PendingTxIndexer.Add (Spec.indices m) s ep h us).1 := by
  obtain ⟨_, ho, hoc, hr, hrc, _⟩ := Add_post hok
  obtain ⟨_, hnd, _, _⟩ := Add_spec hok
  have hok1 := (Add_success (Spec.indices m) s ep h us hok).1
  rw [indices_orderAdd] at hok1
  have h3 := inv_foldl_purge (@inv_addLoop m s h us hs hnd hok1) (addLoop m s h us).2
  constructor
  · intro x hx
    rw [ho] at hx
    rw [hoc]
    exact h3.seq_le x hx
  · intro r hr2
    rw [hr] at hr2
    rw [ho]
    exact h3.ref_order r hr2
  · constructor
    · intro u
      have := h3.counts.count_eq u
      unfold refsOn at this ⊢
      rw [hrc, hr]
      exact this
    · rw [hrc]
      exact h3.counts.count_pos
  · intro u
    have := cap_after_evictions (h := h) hm hs hnd u
    unfold refsOn at this ⊢
    rw [hr]
    exact this

theorem inv_empty (m : Nat) : Inv m Store.empty := by
  refine ⟨?_, ?_, ⟨?_, ?_⟩, ?_⟩
  · intro x hx; cases hx
  · intro r hr; cases hr
  · intro u; rfl
  · intro p hp; cases hp
  · intro u; exact Nat.zero_le _

theorem inv_DeleteOne {m : Nat} {s : Store} (hs : Inv m s) (h : Hash) :
    Inv m (PendingTxIndexer.DeleteOne (Spec.indices m) s h).1 := by
  rw [DeleteOne_spec]
  exact inv_purge hs h

theorem inv_DeleteMined {m : Nat} {s : Store} (hs : Inv m s) (h : Hash) :
    Inv m (PendingTxIndexer.DeleteMined (Spec.indices m) s h).1 := by
  rw [DeleteMined_spec]
  exact inv_foldl_purge hs _

theorem inv_DropBefore {m : Nat} {s : Store} (hs : Inv m s) (e : Nat) :
    Inv m (PendingTxIndexer.DropBefore (Spec.indices m) s e).1 := by
  rw [DropBefore_spec]
  apply inv_foldl_purge
  exact ⟨hs.seq_le, hs.ref_order, ⟨hs.counts.count_eq, hs.counts.count_pos⟩, hs.cap⟩

/-- After a successful `Add` from a store satisfying the invariant, an evicted
transaction is absent from the three indices. -/
theorem evicted_absent_post {m : Nat} {s : Store} {ep : Nat} {h : Hash} {us : List Hash}
    (hm : 1 ≤ m) (hs : Inv m s)
    (hok : (PendingTxIndexer.Add (Spec.indices m) s ep h us).2.2 = none)
    {e : Hash} (he : e ∈ (addLoop m s h us).2) :
    absent (PendingTxIndexer.Add (Spec.indices m) s ep h us).1 e := by
  obtain ⟨_, ho, _, hr, _, hep⟩ := Add_post hok
  obtain ⟨hfresh, hnd, _, _⟩ := Add_spec hok
  have habs := absent_foldl_purge (addLoop m s h us).2 (addLoop m s h us).1 e he
  have hne : e ≠ h := fun heq => evicted_ne_new hm hs hnd hfresh (heq ▸ he)
  refine ⟨?_, ?_, ?_⟩
  · rintro ⟨x, hx, hxe⟩
    rw [ho] at hx
    exact habs.1 ⟨x, hx, hxe⟩
  · rintro ⟨x, hx, hxe⟩
    rw [hr] at hx
    exact habs.2.1 ⟨x, hx, hxe⟩
  · rintro ⟨x, hx, hxe⟩
    rw [hep] at hx
    rcases List.mem_append.1 hx with hx | hx
    · exact habs.2.2 ⟨x, hx, hxe⟩
    · rw [List.mem_singleton] at hx
      rw [hx] at hxe
      exact hne hxe.symm

namespace PendingTxIndexer

/-- C2: on the modelled sub-indices with a cap of at least 1, after a successful
`Add` from a store satisfying the invariant, every returned evicted txHash is
absent from the insertion-order index, the ref-linker and the expiration list,
and the returned list is empty exactly when no utxoID of the call was already
at the cap (the added reference exceeds the cap of none of them). -/
theorem Add_evicted_absent (m : Nat) (s : Store) (epoch : Nat) (txHash : Hash)
    (utxoIDs : List Hash) (hm : 1 ≤ m) (hs : Inv m s)
    (hok : (Add (Spec.indices m) s epoch txHash utxoIDs).2.2 = none) :
    (∀ e ∈ (Add (Spec.indices m) s epoch txHash utxoIDs).2.1.elems,
      absent (Add (Spec.indices m) s epoch txHash utxoIDs).1 e) ∧
    ((Add (Spec.indices m) s epoch txHash utxoIDs).2.1.elems = [] ↔
      ∀ u ∈ utxoIDs, refsOn s u + 1 ≤ m) := by
  obtain ⟨hE, _⟩ := Add_post hok
  obtain ⟨_, hnd, _, _⟩ := Add_spec hok
  have hElems : (Add (Spec.indices m) s epoch txHash utxoIDs).2.1.elems
      = (addLoop m s txHash utxoIDs).2 := by rw [hE]; rfl
  rw [hElems]
  constructor
  · intro e he
    exact evicted_absent_post hm hs hok he
  · constructor
    · intro hnil u hu
      by_contra hc
      obtain ⟨r, _, _, hre, _⟩ :=
        evicted_exists (h := txHash) hm hs hnd hu (by omega : m ≤ refsOn s u)
      rw [hnil] at hre
      cases hre
    · intro hall
      by_contra hne
      obtain ⟨e, he⟩ := List.exists_mem_of_ne_nil _ hne
      obtain ⟨u, hu, hfull, _⟩ := evicted_old hm hs hnd he
      have := hall u hu
      omega

/-- C5: on the modelled sub-indices with a cap of at least 1, after a successful
`Add` from a store satisfying the invariant, the added txHash is not among the
evicted ones and it is present in the insertion-order index, in the
ref-linker with a reference on each of its utxoIDs, and in the expiration list
under the given epoch, which `GetEpoch` returns. -/
theorem Add_keeps_added (m : Nat) (s : Store) (epoch : Nat) (txHash : Hash)
    (utxoIDs : List Hash) (hm : 1 ≤ m) (hs : Inv m s)
    (hok : (Add (Spec.indices m) s epoch txHash utxoIDs).2.2 = none) :
    txHash ∉ (Add (Spec.indices m) s epoch txHash utxoIDs).2.1.elems ∧
    inOrder (Add (Spec.indices m) s epoch txHash utxoIDs).1 txHash ∧
    (∀ u ∈ utxoIDs, ∃ r ∈ (Add (Spec.indices m) s epoch txHash utxoIDs).1.refs,
      r.utxoId = u ∧ r.txHash = txHash) ∧
    (∃ x ∈ (Add (Spec.indices m) s epoch txHash utxoIDs).1.epochs,
      x.txHash = txHash ∧ x.epoch = epoch) ∧
    GetEpoch (Spec.indices m) (Add (Spec.indices m) s epoch txHash utxoIDs).1 txHash
      = (epoch, none) := by
  obtain ⟨hE, ho, _, hr, _, hep⟩ := Add_post hok
  obtain ⟨hfresh, hnd, hfresh2, _⟩ := Add_spec hok
  have hok1 := (Add_success (Spec.indices m) s epoch txHash utxoIDs hok).1
  rw [indices_orderAdd] at hok1
  have hElems : (Add (Spec.indices m) s epoch txHash utxoIDs).2.1.elems
      = (addLoop m s txHash utxoIDs).2 := by rw [hE]; rfl
  have hnot : txHash ∉ (addLoop m s txHash utxoIDs).2 := evicted_ne_new hm hs hnd hfresh
  refine ⟨by rw [hElems]; exact hnot, ?_, ?_, ?_, ?_⟩
  · refine ⟨⟨s.orderCounter + 1, txHash⟩, ?_, rfl⟩
    rw [ho, foldl_purge_order, (addLoop_order utxoIDs hok1).1]
    exact List.mem_filter.2 ⟨List.mem_append_right _ (List.mem_singleton_self _),
      by simpa using hnot⟩
  · intro u hu
    refine ⟨⟨u, txHash, s.orderCounter + 1⟩, ?_, rfl, rfl⟩
    rw [hr, foldl_purge_refs, addLoop_refs]
    refine List.mem_filter.2 ⟨List.mem_append_right _ ?_, by simpa using hnot⟩
    exact List.mem_map.2 ⟨u, hu, rfl⟩
  · exact ⟨_, by rw [hep]; exact List.mem_append_right _ (List.mem_singleton_self _), rfl, rfl⟩
  · unfold GetEpoch
    rw [indices_expirationGetEpoch]
    unfold Spec.expirationGetEpoch
    rw [hep, List.find?_append]
    have hnone : ((addLoop m s txHash utxoIDs).2.foldl Store.purge
        (addLoop m s txHash utxoIDs).1).epochs.find?
          (fun x => decide (x.txHash = txHash)) = none := by
      rw [List.find?_eq_none]
      intro x hx
      rw [List.any_eq_false] at hfresh2
      exact hfresh2 x hx
    rw [hnone]
    simp

end PendingTxIndexer

/-! ## The scenarios of the specification on the modelled sub-indices -/

/-- Scenario S1: enumeration in insertion order and the reference counts. -/
theorem scenario_S1 :
    PendingTxIndexer.GetOrderedIter (Spec.indices 3) scenarioS1 = [[1], [2], [3]] ∧
    getCount scenarioS1.refCount [101] = 2 ∧ getCount scenarioS1.refCount [102] = 1 ∧
    getCount scenarioS1.refCount [103] = 1 ∧ Inv 3 scenarioS1 :=
  ⟨rfl, rfl, rfl, rfl, inv_of_check rfl⟩

/-- Scenario S3: from S1, `DeleteMined(0x01)` returns the victims `0x03` and
`0x01` and the utxoIds `U1`; afterwards only `0x02` is enumerated and `U1` has
no count. -/
theorem scenario_S3 :
    (PendingTxIndexer.DeleteMined (Spec.indices 3) scenarioS1 [1]).2
      = (some [[3], [1]], some [[101]], none) ∧
    PendingTxIndexer.GetOrderedIter (Spec.indices 3)
      (PendingTxIndexer.DeleteMined (Spec.indices 3) scenarioS1 [1]).1 = [[2]] ∧
    hasCount (PendingTxIndexer.DeleteMined (Spec.indices 3) scenarioS1 [1]).1.refCount [101]
      = false :=
  ⟨rfl, rfl, rfl⟩

/-- Scenario S4: `DropBefore(3)` returns `0xA1` and `0xA2`; afterwards only
`0xA5` is enumerated. -/
theorem scenario_S4 :
    (PendingTxIndexer.DropBefore (Spec.indices 3) scenarioS4 3).2
      = (some [[0xA1], [0xA2]], none) ∧
    PendingTxIndexer.GetOrderedIter (Spec.indices 3)
      (PendingTxIndexer.DropBefore (Spec.indices 3) scenarioS4 3).1 = [[0xA5]] :=
  ⟨rfl, rfl⟩

/-- Scenario S6: a repeated utxoId is rejected with `InvalidInput`. -/
theorem scenario_S6 :
    (PendingTxIndexer.Add (Spec.indices 3) Store.empty 1 [0xC1] [[7], [7]]).2
      = (none, some Err.invalidInput) :=
  rfl

/-! ## The theorems at a concrete store

With a cap of 2, `exampleStore` has the UTXO `[9]` at the cap. -/

namespace PendingTxIndexer

/-- Re-adding the indexed txHash `[1]` to `exampleStore`: `order.Add` returns
`DuplicateKey` and `Add` stops there. -/
theorem Add_order_error_witness :
    ((Spec.indices 2).orderAdd exampleStore [1]).2 = some Err.duplicateKey ∧
    Add (Spec.indices 2) exampleStore 7 [1] [[9]]
      = (exampleStore, none, some Err.duplicateKey) ∧
    Add (traced (Spec.indices 2)) (exampleStore, []) 7 [1] [[9]]
      = ((exampleStore, [⟨Call.orderAdd [1], some Err.duplicateKey⟩]), none,
          some Err.duplicateKey) :=
  ⟨rfl, Add_order_error (Spec.indices 2) exampleStore [] 7 [1] [[9]] Err.duplicateKey rfl⟩

/-- Adding `[3]` on the full UTXO `[9]` of `exampleStore` evicts `[1]`, which is
then absent from the three indices. -/
theorem Add_evicted_absent_witness :
    1 ≤ 2 ∧ Inv 2 exampleStore ∧
    (Add (Spec.indices 2) exampleStore 7 [3] [[9]]).2.2 = none ∧
    (Add (Spec.indices 2) exampleStore 7 [3] [[9]]).2.1 = some [[1]] ∧
    absent (Add (Spec.indices 2) exampleStore 7 [3] [[9]]).1 [1] :=
  ⟨by decide, inv_of_check rfl, rfl, rfl,
    (Add_evicted_absent 2 exampleStore 7 [3] [[9]] (by decide) (inv_of_check rfl) rfl).1 [1]
      (List.mem_singleton_self _)⟩

/-- Adding `[3]` on the full UTXO `[9]` of `exampleStore`: `[3]` is not evicted
and is in the three indices afterwards. -/
theorem Add_keeps_added_witness :
    1 ≤ 2 ∧ Inv 2 exampleStore ∧
    (Add (Spec.indices 2) exampleStore 7 [3] [[9]]).2.2 = none ∧
    [3] ∉ (Add (Spec.indices 2) exampleStore 7 [3] [[9]]).2.1.elems ∧
    inOrder (Add (Spec.indices 2) exampleStore 7 [3] [[9]]).1 [3] ∧
    (∀ u ∈ [[9]], ∃ r ∈ (Add (Spec.indices 2) exampleStore 7 [3] [[9]]).1.refs,
      r.utxoId = u ∧ r.txHash = [3]) ∧
    (∃ x ∈ (Add (Spec.indices 2) exampleStore 7 [3] [[9]]).1.epochs,
      x.txHash = [3] ∧ x.epoch = 7) ∧
    GetEpoch (Spec.indices 2) (Add (Spec.indices 2) exampleStore 7 [3] [[9]]).1 [3]
      = (7, none) :=
  ⟨by decide, inv_of_check rfl, rfl,
    Add_keeps_added 2 exampleStore 7 [3] [[9]] (by decide) (inv_of_check rfl) rfl⟩

/-- Mining `[1]` in `exampleStore`: the victim `[2]` is returned with `[1]`
appended. -/
theorem DeleteMined_result_witness :
    (DeleteMined (Spec.indices 2) exampleStore [1]).2.2.2 = none ∧
    (DeleteMined (Spec.indices 2) exampleStore [1]).2.1 = some ([[2]] ++ [[1]]) ∧
    (DeleteMined (Spec.indices 2) exampleStore [1]).2.1.len = 1 + 1 :=
  ⟨rfl, (DeleteMined_result (Spec.indices 2) exampleStore [1] rfl).1,
    (DeleteMined_result (Spec.indices 2) exampleStore [1] rfl).2.2.2.1⟩

/-- Mining `[1]` in `exampleStore` removes `[1]` and its rival `[2]` and leaves
no count for the UTXO `[9]`. -/
theorem DeleteMined_removes_witness :
    CountsOk exampleStore ∧
    absent (DeleteMined (Spec.indices 2) exampleStore [1]).1 [1] ∧
    absent (DeleteMined (Spec.indices 2) exampleStore [1]).1 [2] ∧
    hasCount (DeleteMined (Spec.indices 2) exampleStore [1]).1.refCount [9] = false :=
  ⟨countsOk_of_check rfl,
    (DeleteMined_removes 2 exampleStore [1] (countsOk_of_check rfl)).2.1,
    (DeleteMined_removes 2 exampleStore [1] (countsOk_of_check rfl)).2.2.1
      ⟨[9], [1], 1⟩ (by decide) rfl ⟨[9], [2], 2⟩ (by decide) rfl,
    ((DeleteMined_removes 2 exampleStore [1] (countsOk_of_check rfl)).2.2.2
      ⟨[9], [1], 1⟩ (by decide) rfl).2.1⟩

end PendingTxIndexer

/-! ## DropBefore: what it returns and which calls it makes -/

namespace PendingTxIndexer

variable {σ : Type}

/-- `DeleteOne` never returns `NotFound`: its error is nil or an error that
stopped the fan-out. -/
theorem DeleteOne_error_hard (ix : SubIndices σ) (txn : σ) (txHash : Hash) :
    (DeleteOne ix txn txHash).2 ≠ some Err.notFound := by
  rw [DeleteOne_eq]
  split_ifs with h1 h2 h3
  · exact h1.2
  · exact h2.2
  · exact h3.2
  · simp

/-- The calls of a `DeleteOne` that returned nil: the three sub-deletes, in
order, appended to the log. -/
theorem DeleteOne_traced_calls (ix : SubIndices σ) (txn : σ) (tr : List Event) (txHash : Hash)
    (hok : (DeleteOne ix txn txHash).2 = none) :
    (DeleteOne (traced ix) (txn, tr) txHash).1.2.map Event.call
      = tr.map Event.call
        ++ [Call.reflinkDelete txHash, Call.orderDelete txHash, Call.expirationDrop txHash] := by
  revert hok
  simp only [DeleteOne_eq, traced_reflinkDelete, traced_orderDelete, traced_expirationDrop]
  split_ifs with h1 h2 h3
  · intro hok; exact absurd hok h1.1
  · intro hok; exact absurd hok h2.1
  · intro hok; exact absurd hok h3.1
  · intro _; simp

/-- `dropLoop` written with projections. -/
theorem dropLoop_cons (ix : SubIndices σ) (txn : σ) (e : Hash) (rest : List Hash) :
    dropLoop ix txn (e :: rest) =
      if (DeleteOne ix txn e).2 ≠ none ∧ (DeleteOne ix txn e).2 ≠ some Err.notFound then
        DeleteOne ix txn e
      else dropLoop ix (DeleteOne ix txn e).1 rest := rfl

/-- The recording wrapper does not change what `dropLoop` computes, and a
`dropLoop` that returned nil made the three sub-deletes for each element. -/
theorem dropLoop_traced (ix : SubIndices σ) (l : List Hash) (txn : σ) (tr : List Event) :
    (dropLoop (traced ix) (txn, tr) l).1.1 = (dropLoop ix txn l).1 ∧
    (dropLoop (traced ix) (txn, tr) l).2 = (dropLoop ix txn l).2 ∧
    ((dropLoop ix txn l).2 = none →
      (dropLoop (traced ix) (txn, tr) l).1.2.map Event.call
        = tr.map Event.call ++ l.flatMap (fun h =>
            [Call.reflinkDelete h, Call.orderDelete h, Call.expirationDrop h])) := by
  induction l generalizing txn tr with
  | nil => exact ⟨rfl, rfl, fun _ => by simp [dropLoop]⟩
  | cons e rest ih =>
    have ht := DeleteOne_traced ix txn tr e
    have h1 : (DeleteOne (traced ix) (txn, tr) e).1.1 = (DeleteOne ix txn e).1 :=
      congrArg Prod.fst ht
    have h2 : (DeleteOne (traced ix) (txn, tr) e).2 = (DeleteOne ix txn e).2 :=
      congrArg Prod.snd ht
    rw [dropLoop_cons, dropLoop_cons, h2]
    by_cases hc : (DeleteOne ix txn e).2 ≠ none ∧ (DeleteOne ix txn e).2 ≠ some Err.notFound
    · rw [if_pos hc, if_pos hc]
      exact ⟨h1, h2, fun hnone => absurd hnone hc.1⟩
    · rw [if_neg hc, if_neg hc]
      have hnone : (DeleteOne ix txn e).2 = none := by
        rcases soft_of_not_hard hc with h | h
        · exact h
        · exact absurd h (DeleteOne_error_hard ix txn e)
      have hst : DeleteOne (traced ix) (txn, tr) e
          = (((DeleteOne ix txn e).1, (DeleteOne (traced ix) (txn, tr) e).1.2),
              (DeleteOne (traced ix) (txn, tr) e).2) := by
        rw [← h1]
      rw [hst]
      obtain ⟨i1, i2, i3⟩ := ih (DeleteOne ix txn e).1 (DeleteOne (traced ix) (txn, tr) e).1.2
      refine ⟨i1, i2, ?_⟩
      intro hrest
      rw [i3 hrest, DeleteOne_traced_calls ix txn tr e hnone]
      simp

/-- `DropBefore` without pattern matching. -/
theorem DropBefore_proj (ix : SubIndices σ) (txn : σ) (epoch : Nat) :
    DropBefore ix txn epoch =
      if (ix.expirationDropBefore txn epoch).2.2 ≠ none ∧
          (ix.expirationDropBefore txn epoch).2.2 ≠ some Err.notFound then
        ((ix.expirationDropBefore txn epoch).1, none, (ix.expirationDropBefore txn epoch).2.2)
      else
        ((dropLoop ix (ix.expirationDropBefore txn epoch).1
            (ix.expirationDropBefore txn epoch).2.1.elems).1,
          (if (dropLoop ix (ix.expirationDropBefore txn epoch).1
              (ix.expirationDropBefore txn epoch).2.1.elems).2 = none
            then (ix.expirationDropBefore txn epoch).2.1 else none),
          (dropLoop ix (ix.expirationDropBefore txn epoch).1
            (ix.expirationDropBefore txn epoch).2.1.elems).2) := by
  rw [DropBefore_eq]
  by_cases hc : (ix.expirationDropBefore txn epoch).2.2 ≠ none ∧
      (ix.expirationDropBefore txn epoch).2.2 ≠ some Err.notFound
  · rw [if_pos hc, if_pos hc]
  · rw [if_neg hc, if_neg hc]
    generalize dropLoop ix (ix.expirationDropBefore txn epoch).1
      (ix.expirationDropBefore txn epoch).2.1.elems = r
    rcases r with ⟨t2, _ | e2⟩ <;> simp

/-- C11: a successful `DropBefore(e)` returns exactly the slice that
`expiration.DropBefore` reported, and the calls it makes are
`expiration.DropBefore` followed, for each returned txHash in turn, by the three
sub-deletes of one `DeleteOne`; on the modelled sub-indices the returned
txHashes are precisely those of the entries of the expiration list whose epoch
is below `e`. -/
theorem DropBefore_returns (ix : SubIndices σ) (txn : σ) (e : Nat) (m : Nat) (s : Store)
    (hok : (DropBefore ix txn e).2.2 = none) :
    (DropBefore ix txn e).2.1 = (ix.expirationDropBefore txn e).2.1 ∧
    (DropBefore (traced ix) (txn, []) e).1.2.map Event.call
      = Call.expirationDropBefore e ::
          (DropBefore ix txn e).2.1.elems.flatMap (fun h =>
            [Call.reflinkDelete h, Call.orderDelete h, Call.expirationDrop h]) ∧
    (∀ h, h ∈ (DropBefore (Spec.indices m) s e).2.1.elems ↔
      ∃ x ∈ s.epochs, x.txHash = h ∧ x.epoch < e) := by
  have hsoft : ¬((ix.expirationDropBefore txn e).2.2 ≠ none ∧
      (ix.expirationDropBefore txn e).2.2 ≠ some Err.notFound) := by
    intro hc
    rw [DropBefore_proj, if_pos hc] at hok
    exact hc.1 hok
  have hloop : (dropLoop ix (ix.expirationDropBefore txn e).1
      (ix.expirationDropBefore txn e).2.1.elems).2 = none := by
    rw [DropBefore_proj, if_neg hsoft] at hok
    exact hok
  have hret : (DropBefore ix txn e).2.1 = (ix.expirationDropBefore txn e).2.1 := by
    rw [DropBefore_proj, if_neg hsoft]
    simp only [hloop, if_true]
  refine ⟨hret, ?_, ?_⟩
  · rw [hret, DropBefore_proj]
    simp only [traced_expirationDropBefore]
    rw [if_neg hsoft]
    obtain ⟨_, _, i3⟩ := dropLoop_traced ix (ix.expirationDropBefore txn e).2.1.elems
      (ix.expirationDropBefore txn e).1
      ([] ++ [⟨Call.expirationDropBefore e, (ix.expirationDropBefore txn e).2.2⟩])
    simp only []
    rw [i3 hloop]
    simp
  · intro h
    rw [DropBefore_spec]
    show h ∈ Slice.elems (some (List.map EpochEntry.txHash _)) ↔ _
    simp only [Slice.elems, Option.getD_some, List.mem_map]
    constructor
    · rintro ⟨x, hx, rfl⟩
      have := (mem_dropBefore_victims s.epochs e x).1 hx
      exact ⟨x, this.1, rfl, this.2⟩
    · rintro ⟨x, hx, rfl, he⟩
      exact ⟨x, (mem_dropBefore_victims s.epochs e x).2 ⟨hx, he⟩, rfl⟩

/-- `DropBefore(6)` on `exampleStore` returns and deletes `[1]` and `[2]`. -/
theorem DropBefore_returns_witness :
    (DropBefore (Spec.indices 2) exampleStore 6).2.2 = none ∧
    (DropBefore (Spec.indices 2) exampleStore 6).2.1 = some [[1], [2]] ∧
    (DropBefore (traced (Spec.indices 2)) (exampleStore, []) 6).1.2.map Event.call
      = [Call.expirationDropBefore 6,
          Call.reflinkDelete [1], Call.orderDelete [1], Call.expirationDrop [1],
          Call.reflinkDelete [2], Call.orderDelete [2], Call.expirationDrop [2]] :=
  ⟨rfl, (DropBefore_returns (Spec.indices 2) exampleStore 6 2 exampleStore rfl).1,
    (DropBefore_returns (Spec.indices 2) exampleStore 6 2 exampleStore rfl).2.1⟩

end PendingTxIndexer

/-! ## The expiration list: lookups and frame -/

theorem find?_filter_kept {α : Type} (p q : α → Bool) :
    ∀ (l : List α) (x : α), l.find? p = some x → q x = true → (l.filter q).find? p = some x := by
  intro l
  induction l with
  | nil => intro x h; cases h
  | cons a rest ih =>
    intro x h hq
    by_cases hpa : p a = true
    · rw [List.find?_cons_of_pos _ hpa] at h
      cases h
      rw [List.filter_cons_of_pos hq, List.find?_cons_of_pos _ hpa]
    · rw [List.find?_cons_of_neg _ hpa] at h
      by_cases hqa : q a = true
      · rw [List.filter_cons_of_pos hqa, List.find?_cons_of_neg _ hpa]
        exact ih x h hq
      · rw [List.filter_cons_of_neg hqa]
        exact ih x h hq

/-- `GetEpoch` returns an epoch exactly when the first entry of the txHash has
that epoch. -/
theorem getEpoch_eq_iff (s : Store) (h : Hash) (ep : Nat) :
    Spec.expirationGetEpoch s h = (ep, none) ↔
      ∃ x, s.epochs.find? (fun x => decide (x.txHash = h)) = some x ∧ x.epoch = ep := by
  unfold Spec.expirationGetEpoch
  cases hf : s.epochs.find? (fun x => decide (x.txHash = h)) with
  | none => simp
  | some x => simp

theorem getEpoch_of_epochs_filter {s t : Store} {h : Hash} {ep : Nat} (q : EpochEntry → Bool)
    (hq : ∀ x, x.txHash = h → q x = true) (ht : t.epochs = s.epochs.filter q)
    (hs : Spec.expirationGetEpoch s h = (ep, none)) :
    Spec.expirationGetEpoch t h = (ep, none) := by
  rw [getEpoch_eq_iff] at hs ⊢
  obtain ⟨x, hx, hep⟩ := hs
  refine ⟨x, ?_, hep⟩
  rw [ht]
  apply find?_filter_kept _ _ _ _ hx
  apply hq
  have := List.find?_some hx
  simpa using this

theorem getEpoch_foldl_purge {s : Store} {h : Hash} {ep : Nat} (l : List Hash) (hl : h ∉ l)
    (hs : Spec.expirationGetEpoch s h = (ep, none)) :
    Spec.expirationGetEpoch (l.foldl Store.purge s) h = (ep, none) := by
  apply getEpoch_of_epochs_filter _ _ (foldl_purge_epochs l s) hs
  intro x hx
  simpa [hx] using hl

/-- After a successful `Add` the expiration list gives the added txHash the
epoch of the call. -/
theorem getEpoch_after_Add {m : Nat} {s : Store} {ep : Nat} {h : Hash} {us : List Hash}
    (hok : (PendingTxIndexer.Add (Spec.indices m) s ep h us).2.2 = none) :
    Spec.expirationGetEpoch (PendingTxIndexer.Add (Spec.indices m) s ep h us).1 h
      = (ep, none) := by
  obtain ⟨_, _, _, _, _, hep⟩ := Add_post hok
  obtain ⟨_, _, hfresh2, _⟩ := Add_spec hok
  rw [getEpoch_eq_iff]
  refine ⟨⟨ep, ((addLoop m s h us).2.foldl Store.purge (addLoop m s h us).1).epochCounter + 1,
    h⟩, ?_, rfl⟩
  rw [hep, List.find?_append]
  have hnone : ((addLoop m s h us).2.foldl Store.purge (addLoop m s h us).1).epochs.find?
      (fun x => decide (x.txHash = h)) = none := by
    rw [List.find?_eq_none]
    intro x hx
    rw [List.any_eq_false] at hfresh2
    exact hfresh2 x hx
  rw [hnone]
  simp

/-- One successful call that does not take `h` out keeps the epoch of `h`. -/
theorem getEpoch_step {m : Nat} {s : Store} {h : Hash} {ep : Nat} (op : Op)
    (hs : Spec.expirationGetEpoch s h = (ep, none))
    (hok : (op.run m s).2 = none) (hkeep : h ∉ op.removed m s) :
    Spec.expirationGetEpoch (op.run m s).1 h = (ep, none) := by
  cases op with
  | add ep2 h2 us2 =>
    have hok2 : (PendingTxIndexer.Add (Spec.indices m) s ep2 h2 us2).2.2 = none := hok
    obtain ⟨hE, _, _, _, _, hep⟩ := Add_post hok2
    have hkeep2 : h ∉ (addLoop m s h2 us2).2 := by
      have : h ∉ (PendingTxIndexer.Add (Spec.indices m) s ep2 h2 us2).2.1.elems := hkeep
      rw [hE] at this
      exact this
    have h3 := @getEpoch_foldl_purge (addLoop m s h2 us2).1 h ep _ hkeep2 (by
      rw [getEpoch_eq_iff] at hs ⊢
      rw [(addLoop_epochs m s h2 us2).1]
      exact hs)
    rw [getEpoch_eq_iff] at h3 ⊢
    obtain ⟨x, hx, hxe⟩ := h3
    refine ⟨x, ?_, hxe⟩
    show (PendingTxIndexer.Add (Spec.indices m) s ep2 h2 us2).1.epochs.find? _ = some x
    rw [hep, List.find?_append, hx]
    rfl
  | deleteOne h2 =>
    show Spec.expirationGetEpoch (PendingTxIndexer.DeleteOne (Spec.indices m) s h2).1 h = _
    rw [DeleteOne_spec]
    exact getEpoch_foldl_purge [h2] hkeep hs
  | deleteMined h2 =>
    show Spec.expirationGetEpoch (PendingTxIndexer.DeleteMined (Spec.indices m) s h2).1 h = _
    have hkeep2 : h ∉ (PendingTxIndexer.DeleteMined (Spec.indices m) s h2).2.1.elems := hkeep
    rw [DeleteMined_spec] at hkeep2 ⊢
    exact getEpoch_foldl_purge _ hkeep2 hs
  | dropBefore e =>
    show Spec.expirationGetEpoch (PendingTxIndexer.DropBefore (Spec.indices m) s e).1 h = _
    have hkeep2 : h ∉ (PendingTxIndexer.DropBefore (Spec.indices m) s e).2.1.elems := hkeep
    rw [DropBefore_spec] at hkeep2 ⊢
    apply getEpoch_foldl_purge _ hkeep2
    apply getEpoch_of_epochs_filter _ _ rfl hs
    intro x hx
    have : x ∉ (s.epochs.insertionSort EpochEntry.before).takeWhile
        (fun x => decide (x.epoch < e)) := by
      intro hv
      apply hkeep2
      show h ∈ Slice.elems (some (List.map EpochEntry.txHash _))
      simp only [Slice.elems, Option.getD_some]
      exact hx ▸ List.mem_map_of_mem _ hv
    simpa using this

/-- Over a sequence of successful calls none of which takes `h` out, the epoch
of `h` is kept. -/
theorem getEpoch_runOps {m : Nat} {h : Hash} {ep : Nat} (ops : List Op) :
    ∀ (s t : Store), Spec.expirationGetEpoch s h = (ep, none) → runOps m s ops = some t →
      survives m s ops h → Spec.expirationGetEpoch t h = (ep, none) := by
  induction ops with
  | nil =>
    intro s t hs hrun _
    have : s = t := by simpa [runOps] using hrun
    exact this ▸ hs
  | cons op rest ih =>
    intro s t hs hrun hsurv
    unfold runOps at hrun
    cases hok : (op.run m s).2 with
    | some e => rw [hok] at hrun; cases hrun
    | none =>
      rw [hok] at hrun
      exact ih _ t (getEpoch_step op hs hok hsurv.1) hrun hsurv.2

theorem getEpoch_absent {s : Store} {h : Hash} (hs : ¬ inExpiration s h) :
    Spec.expirationGetEpoch s h = (0, some Err.notFound) := by
  unfold Spec.expirationGetEpoch
  have : s.epochs.find? (fun x => decide (x.txHash = h)) = none := by
    rw [List.find?_eq_none]
    intro x hx hxh
    exact hs ⟨x, hx, by simpa using hxh⟩
  rw [this]

/-! ## Which txHashes the indices hold after each call -/

theorem inOrder_foldl_purge (l : List Hash) (s : Store) (t : Hash) :
    inOrder (l.foldl Store.purge s) t ↔ inOrder s t ∧ t ∉ l := by
  unfold inOrder
  rw [foldl_purge_order]
  constructor
  · rintro ⟨x, hx, rfl⟩
    have := List.mem_filter.1 hx
    exact ⟨⟨x, this.1, rfl⟩, by simpa using this.2⟩
  · rintro ⟨⟨x, hx, rfl⟩, hl⟩
    exact ⟨x, List.mem_filter.2 ⟨hx, by simpa using hl⟩, rfl⟩

theorem inReflink_foldl_purge (l : List Hash) (s : Store) (t : Hash) :
    inReflink (l.foldl Store.purge s) t ↔ inReflink s t ∧ t ∉ l := by
  unfold inReflink
  rw [foldl_purge_refs]
  constructor
  · rintro ⟨x, hx, rfl⟩
    have := List.mem_filter.1 hx
    exact ⟨⟨x, this.1, rfl⟩, by simpa using this.2⟩
  · rintro ⟨⟨x, hx, rfl⟩, hl⟩
    exact ⟨x, List.mem_filter.2 ⟨hx, by simpa using hl⟩, rfl⟩

theorem inExpiration_foldl_purge (l : List Hash) (s : Store) (t : Hash) :
    inExpiration (l.foldl Store.purge s) t ↔ inExpiration s t ∧ t ∉ l := by
  unfold inExpiration
  rw [foldl_purge_epochs]
  constructor
  · rintro ⟨x, hx, rfl⟩
    have := List.mem_filter.1 hx
    exact ⟨⟨x, this.1, rfl⟩, by simpa using this.2⟩
  · rintro ⟨⟨x, hx, rfl⟩, hl⟩
    exact ⟨x, List.mem_filter.2 ⟨hx, by simpa using hl⟩, rfl⟩

theorem inOrder_Add {m : Nat} {s : Store} {ep : Nat} {h : Hash} {us : List Hash}
    (hok : (PendingTxIndexer.Add (Spec.indices m) s ep h us).2.2 = none) (t : Hash) :
    inOrder (PendingTxIndexer.Add (Spec.indices m) s ep h us).1 t ↔
      (inOrder s t ∨ t = h) ∧ t ∉ (addLoop m s h us).2 := by
  obtain ⟨_, ho, _, _, _, _⟩ := Add_post hok
  have hok1 := (Add_success (Spec.indices m) s ep h us hok).1
  rw [indices_orderAdd] at hok1
  have key : inOrder (PendingTxIndexer.Add (Spec.indices m) s ep h us).1 t ↔
      inOrder ((addLoop m s h us).2.foldl Store.purge (addLoop m s h us).1) t := by
    unfold inOrder; rw [ho]
  rw [key, inOrder_foldl_purge]
  have : inOrder (addLoop m s h us).1 t ↔ (inOrder s t ∨ t = h) := by
    unfold inOrder
    rw [(addLoop_order us hok1).1]
    constructor
    · rintro ⟨x, hx, rfl⟩
      rcases List.mem_append.1 hx with hx | hx
      · exact Or.inl ⟨x, hx, rfl⟩
      · rw [List.mem_singleton] at hx
        exact Or.inr (by rw [hx])
    · rintro (⟨x, hx, rfl⟩ | rfl)
      · exact ⟨x, List.mem_append_left _ hx, rfl⟩
      · exact ⟨⟨s.orderCounter + 1, t⟩, List.mem_append_right _ (List.mem_singleton_self _), rfl⟩
  rw [this]

theorem inReflink_Add {m : Nat} {s : Store} {ep : Nat} {h : Hash} {us : List Hash}
    (hok : (PendingTxIndexer.Add (Spec.indices m) s ep h us).2.2 = none) (t : Hash) :
    inReflink (PendingTxIndexer.Add (Spec.indices m) s ep h us).1 t ↔
      (inReflink s t ∨ (t = h ∧ us ≠ [])) ∧ t ∉ (addLoop m s h us).2 := by
  obtain ⟨_, _, _, hr, _, _⟩ := Add_post hok
  have key : inReflink (PendingTxIndexer.Add (Spec.indices m) s ep h us).1 t ↔
      inReflink ((addLoop m s h us).2.foldl Store.purge (addLoop m s h us).1) t := by
    unfold inReflink; rw [hr]
  rw [key, inReflink_foldl_purge]
  have : inReflink (addLoop m s h us).1 t ↔ (inReflink s t ∨ (t = h ∧ us ≠ [])) := by
    unfold inReflink
    rw [addLoop_refs]
    constructor
    · rintro ⟨x, hx, rfl⟩
      rcases List.mem_append.1 hx with hx | hx
      · exact Or.inl ⟨x, hx, rfl⟩
      · obtain ⟨u, hu, rfl⟩ := List.mem_map.1 hx
        exact Or.inr ⟨rfl, List.ne_nil_of_mem hu⟩
    · rintro (⟨x, hx, rfl⟩ | ⟨rfl, hne⟩)
      · exact ⟨x, List.mem_append_left _ hx, rfl⟩
      · obtain ⟨u, hu⟩ := List.exists_mem_of_ne_nil _ hne
        exact ⟨⟨u, t, s.orderCounter + 1⟩,
          List.mem_append_right _ (List.mem_map.2 ⟨u, hu, rfl⟩), rfl⟩
  rw [this]

theorem inExpiration_Add {m : Nat} {s : Store} {ep : Nat} {h : Hash} {us : List Hash}
    (hok : (PendingTxIndexer.Add (Spec.indices m) s ep h us).2.2 = none) (t : Hash) :
    inExpiration (PendingTxIndexer.Add (Spec.indices m) s ep h us).1 t ↔
      (inExpiration s t ∧ t ∉ (addLoop m s h us).2) ∨ t = h := by
  obtain ⟨_, _, _, _, _, hep⟩ := Add_post hok
  have h3 := inExpiration_foldl_purge (addLoop m s h us).2 (addLoop m s h us).1 t
  have h4 : inExpiration (addLoop m s h us).1 t ↔ inExpiration s t := by
    unfold inExpiration; rw [(addLoop_epochs m s h us).1]
  rw [h4] at h3
  rw [← h3]
  unfold inExpiration
  rw [hep]
  constructor
  · rintro ⟨x, hx, rfl⟩
    rcases List.mem_append.1 hx with hx | hx
    · exact Or.inl ⟨x, hx, rfl⟩
    · rw [List.mem_singleton] at hx
      exact Or.inr (by rw [hx])
  · rintro (⟨x, hx, rfl⟩ | rfl)
    · exact ⟨x, List.mem_append_left _ hx, rfl⟩
    · exact ⟨_, List.mem_append_right _ (List.mem_singleton_self _), rfl⟩

theorem inExpiration_DropBefore (m : Nat) (s : Store) (e : Nat) (t : Hash) :
    inExpiration (PendingTxIndexer.DropBefore (Spec.indices m) s e).1 t ↔
      inExpiration s t ∧ t ∉ (PendingTxIndexer.DropBefore (Spec.indices m) s e).2.1.elems := by
  rw [DropBefore_spec]
  simp only []
  rw [inExpiration_foldl_purge]
  constructor
  · rintro ⟨⟨x, hx, rfl⟩, hl⟩
    exact ⟨⟨x, (List.mem_filter.1 hx).1, rfl⟩, hl⟩
  · rintro ⟨⟨x, hx, rfl⟩, hl⟩
    refine ⟨⟨x, List.mem_filter.2 ⟨hx, ?_⟩, rfl⟩, hl⟩
    have : x ∉ (s.epochs.insertionSort EpochEntry.before).takeWhile
        (fun x => decide (x.epoch < e)) := by
      intro hv
      apply hl
      show x.txHash ∈ Slice.elems (some (List.map EpochEntry.txHash _))
      simp only [Slice.elems, Option.getD_some]
      exact List.mem_map_of_mem _ hv
    simpa using this

theorem inOrder_DropBefore (m : Nat) (s : Store) (e : Nat) (t : Hash) :
    inOrder (PendingTxIndexer.DropBefore (Spec.indices m) s e).1 t ↔
      inOrder s t ∧ t ∉ (PendingTxIndexer.DropBefore (Spec.indices m) s e).2.1.elems := by
  rw [DropBefore_spec]
  simp only []
  rw [inOrder_foldl_purge]
  rfl

theorem inReflink_DropBefore (m : Nat) (s : Store) (e : Nat) (t : Hash) :
    inReflink (PendingTxIndexer.DropBefore (Spec.indices m) s e).1 t ↔
      inReflink s t ∧ t ∉ (PendingTxIndexer.DropBefore (Spec.indices m) s e).2.1.elems := by
  rw [DropBefore_spec]
  simp only []
  rw [inReflink_foldl_purge]
  rfl

/-! ## Invariants over sequences of calls -/

theorem inv_step {m : Nat} {s : Store} (hm : 1 ≤ m) (hs : Inv m s) (op : Op)
    (hok : (op.run m s).2 = none) : Inv m (op.run m s).1 := by
  cases op with
  | add ep h us => exact inv_Add hm hs hok
  | deleteOne h => exact inv_DeleteOne hs h
  | deleteMined h => exact inv_DeleteMined hs h
  | dropBefore e => exact inv_DropBefore hs e

theorem orderExp_step {m : Nat} {s : Store} (hm : 1 ≤ m) (hs : Inv m s) (hc : OrderExp s)
    (op : Op) (hok : (op.run m s).2 = none) : OrderExp (op.run m s).1 := by
  intro t
  cases op with
  | add ep h us =>
    have hok2 : (PendingTxIndexer.Add (Spec.indices m) s ep h us).2.2 = none := hok
    obtain ⟨hfresh, hnd, _, _⟩ := Add_spec hok2
    have hnot := evicted_ne_new (h := h) hm hs hnd hfresh
    show inOrder (PendingTxIndexer.Add (Spec.indices m) s ep h us).1 t ↔
      inExpiration (PendingTxIndexer.Add (Spec.indices m) s ep h us).1 t
    rw [inOrder_Add hok2, inExpiration_Add hok2, hc t]
    constructor
    · rintro ⟨h1 | h1, h2⟩
      · exact Or.inl ⟨h1, h2⟩
      · exact Or.inr h1
    · rintro (⟨h1, h2⟩ | h1)
      · exact ⟨Or.inl h1, h2⟩
      · exact ⟨Or.inr h1, h1 ▸ hnot⟩
  | deleteOne h =>
    show inOrder (PendingTxIndexer.DeleteOne (Spec.indices m) s h).1 t ↔
      inExpiration (PendingTxIndexer.DeleteOne (Spec.indices m) s h).1 t
    rw [DeleteOne_spec]
    have h1 := inOrder_foldl_purge [h] s t
    have h2 := inExpiration_foldl_purge [h] s t
    simp only [List.foldl_cons, List.foldl_nil] at h1 h2
    rw [h1, h2, hc t]
  | deleteMined h =>
    show inOrder (PendingTxIndexer.DeleteMined (Spec.indices m) s h).1 t ↔
      inExpiration (PendingTxIndexer.DeleteMined (Spec.indices m) s h).1 t
    rw [DeleteMined_spec]
    simp only []
    rw [inOrder_foldl_purge, inExpiration_foldl_purge, hc t]
  | dropBefore e =>
    show inOrder (PendingTxIndexer.DropBefore (Spec.indices m) s e).1 t ↔
      inExpiration (PendingTxIndexer.DropBefore (Spec.indices m) s e).1 t
    rw [inOrder_DropBefore, inExpiration_DropBefore, hc t]

theorem orderRef_step {m : Nat} {s : Store} (hc : OrderRef s)
    (op : Op) (hcons : op.consumes) (hok : (op.run m s).2 = none) :
    OrderRef (op.run m s).1 := by
  intro t
  cases op with
  | add ep h us =>
    have hok2 : (PendingTxIndexer.Add (Spec.indices m) s ep h us).2.2 = none := hok
    show inOrder (PendingTxIndexer.Add (Spec.indices m) s ep h us).1 t →
      inReflink (PendingTxIndexer.Add (Spec.indices m) s ep h us).1 t
    rw [inOrder_Add hok2, inReflink_Add hok2]
    rintro ⟨h1 | h1, h2⟩
    · exact ⟨Or.inl (hc t h1), h2⟩
    · exact ⟨Or.inr ⟨h1, hcons⟩, h2⟩
  | deleteOne h =>
    show inOrder (PendingTxIndexer.DeleteOne (Spec.indices m) s h).1 t →
      inReflink (PendingTxIndexer.DeleteOne (Spec.indices m) s h).1 t
    rw [DeleteOne_spec]
    have h1 := inOrder_foldl_purge [h] s t
    have h2 := inReflink_foldl_purge [h] s t
    simp only [List.foldl_cons, List.foldl_nil] at h1 h2
    rw [h1, h2]
    exact fun ⟨a, b⟩ => ⟨hc t a, b⟩
  | deleteMined h =>
    show inOrder (PendingTxIndexer.DeleteMined (Spec.indices m) s h).1 t →
      inReflink (PendingTxIndexer.DeleteMined (Spec.indices m) s h).1 t
    rw [DeleteMined_spec]
    simp only []
    rw [inOrder_foldl_purge, inReflink_foldl_purge]
    exact fun ⟨a, b⟩ => ⟨hc t a, b⟩
  | dropBefore e =>
    show inOrder (PendingTxIndexer.DropBefore (Spec.indices m) s e).1 t →
      inReflink (PendingTxIndexer.DropBefore (Spec.indices m) s e).1 t
    rw [inOrder_DropBefore, inReflink_DropBefore]
    exact fun ⟨a, b⟩ => ⟨hc t a, b⟩

/-- Over a sequence of successful calls the invariant and the agreement of the
insertion-order index with the expiration list are kept. -/
theorem inv_runOps {m : Nat} (hm : 1 ≤ m) (ops : List Op) :
    ∀ (s t : Store), Inv m s → OrderExp s → runOps m s ops = some t → Inv m t ∧ OrderExp t := by
  induction ops with
  | nil =>
    intro s t hs hc hrun
    have : s = t := by simpa [runOps] using hrun
    exact this ▸ ⟨hs, hc⟩
  | cons op rest ih =>
    intro s t hs hc hrun
    unfold runOps at hrun
    cases hok : (op.run m s).2 with
    | some e => rw [hok] at hrun; cases hrun
    | none =>
      rw [hok] at hrun
      exact ih _ t (inv_step hm hs op hok) (orderExp_step hm hs hc op hok) hrun

theorem orderRef_runOps {m : Nat} (ops : List Op) (hcons : ∀ op ∈ ops, op.consumes) :
    ∀ (s t : Store), OrderRef s → runOps m s ops = some t → OrderRef t := by
  induction ops with
  | nil =>
    intro s t hc hrun
    have : s = t := by simpa [runOps] using hrun
    exact this ▸ hc
  | cons op rest ih =>
    intro s t hc hrun
    unfold runOps at hrun
    cases hok : (op.run m s).2 with
    | some e => rw [hok] at hrun; cases hrun
    | none =>
      rw [hok] at hrun
      exact ih (fun o ho => hcons o (List.mem_cons_of_mem _ ho)) _ t
        (orderRef_step hc op (hcons op (List.mem_cons_self _ _)) hok) hrun

theorem inReflink_inOrder {m : Nat} {s : Store} (hs : Inv m s) (t : Hash)
    (h : inReflink s t) : inOrder s t := by
  obtain ⟨r, hr, rfl⟩ := h
  exact ⟨_, hs.ref_order r hr, rfl⟩

namespace PendingTxIndexer

/-- C14 as stated fails: after the successful `Add(1, [1], [])` on the empty
indexer, `[1]` is in the insertion-order index and in the expiration list but
has no edge in the ref-linker. -/
theorem coverage_counterexample :
    runOps 3 Store.empty [Op.add 1 [1] []] = some (Add (Spec.indices 3) Store.empty 1 [1] []).1 ∧
    inOrder (Add (Spec.indices 3) Store.empty 1 [1] []).1 [1] ∧
    inExpiration (Add (Spec.indices 3) Store.empty 1 [1] []).1 [1] ∧
    ¬ inReflink (Add (Spec.indices 3) Store.empty 1 [1] []).1 [1] := by
  refine ⟨rfl, ⟨⟨1, [1]⟩, by decide, rfl⟩, ⟨⟨1, 1, [1]⟩, by decide, rfl⟩, ?_⟩
  rintro ⟨r, hr, _⟩
  have : (Add (Spec.indices 3) Store.empty 1 [1] []).1.refs = [] := rfl
  rw [this] at hr
  cases hr

/-- C14, amended: on the modelled sub-indices with a cap of at least 1,
after any sequence of successful `Add`, `DeleteOne`, `DeleteMined` and
`DropBefore` calls from the empty indexer, the insertion-order index and the
expiration list hold the same txHashes and every txHash with an edge in the
ref-linker is among them; when every `Add` of the sequence carries at least one
utxoID, the three sets are equal. -/
theorem coverage_invariant (m : Nat) (ops : List Op) (s : Store) (hm : 1 ≤ m)
    (hrun : runOps m Store.empty ops = some s) :
    (∀ t, inOrder s t ↔ inExpiration s t) ∧
    (∀ t, inReflink s t → inOrder s t) ∧
    ((∀ op ∈ ops, op.consumes) →
      ∀ t, (inOrder s t ↔ inReflink s t) ∧ (inReflink s t ↔ inExpiration s t)) := by
  have hempty : OrderExp Store.empty := by
    intro t
    constructor
    · rintro ⟨x, hx, _⟩; cases hx
    · rintro ⟨x, hx, _⟩; cases hx
  obtain ⟨hinv, hc⟩ := inv_runOps hm ops Store.empty s (inv_empty m) hempty hrun
  refine ⟨hc, inReflink_inOrder hinv, ?_⟩
  intro hcons t
  have hr : OrderRef s := orderRef_runOps ops hcons Store.empty s
    (by rintro t ⟨x, hx, _⟩; cases hx) hrun
  exact ⟨⟨hr t, inReflink_inOrder hinv t⟩,
    ⟨fun h => (hc t).1 (inReflink_inOrder hinv t h), fun h => hr t ((hc t).2 h)⟩⟩

/-- The sequence of scenario S1 followed by `DeleteMined(0x01)`: every `Add`
carries a utxoID and the three indices hold the same txHashes afterwards. -/
theorem coverage_invariant_witness :
    1 ≤ 3 ∧
    runOps 3 Store.empty scenarioS3Ops
      = some (DeleteMined (Spec.indices 3) scenarioS1 [1]).1 ∧
    (∀ t, inOrder (DeleteMined (Spec.indices 3) scenarioS1 [1]).1 t ↔
      inExpiration (DeleteMined (Spec.indices 3) scenarioS1 [1]).1 t) ∧
    (∀ t, inReflink (DeleteMined (Spec.indices 3) scenarioS1 [1]).1 t →
      inOrder (DeleteMined (Spec.indices 3) scenarioS1 [1]).1 t) :=
  ⟨by decide, rfl,
    (coverage_invariant 3 scenarioS3Ops (DeleteMined (Spec.indices 3) scenarioS1 [1]).1
      (by decide) rfl).1,
    (coverage_invariant 3 scenarioS3Ops (DeleteMined (Spec.indices 3) scenarioS1 [1]).1
      (by decide) rfl).2.1⟩

end PendingTxIndexer

/-! ## One entry per txHash in the expiration list -/

theorem uniqueEpochs_empty : UniqueEpochs Store.empty := List.nodup_nil

theorem uniqueEpochs_of_filter {s t : Store} (q : EpochEntry → Bool)
    (ht : t.epochs = s.epochs.filter q) (hs : UniqueEpochs s) : UniqueEpochs t := by
  unfold UniqueEpochs at hs ⊢
  rw [ht]
  exact hs.sublist ((List.filter_sublist _).map _)

theorem uniqueEpochs_foldl_purge {s : Store} (l : List Hash) (hs : UniqueEpochs s) :
    UniqueEpochs (l.foldl Store.purge s) :=
  uniqueEpochs_of_filter _ (foldl_purge_epochs l s) hs

theorem uniqueEpochs_step {m : Nat} {s : Store} (hs : UniqueEpochs s) (op : Op)
    (hok : (op.run m s).2 = none) : UniqueEpochs (op.run m s).1 := by
  cases op with
  | add ep h us =>
    have hok2 : (PendingTxIndexer.Add (Spec.indices m) s ep h us).2.2 = none := hok
    obtain ⟨_, _, _, _, _, hep⟩ := Add_post hok2
    obtain ⟨_, _, hfresh2, _⟩ := Add_spec hok2
    have h3 : UniqueEpochs ((addLoop m s h us).2.foldl Store.purge (addLoop m s h us).1) := by
      apply uniqueEpochs_foldl_purge
      unfold UniqueEpochs
      rw [(addLoop_epochs m s h us).1]
      exact hs
    show UniqueEpochs (PendingTxIndexer.Add (Spec.indices m) s ep h us).1
    unfold UniqueEpochs at h3 ⊢
    rw [hep, List.map_append, List.nodup_append]
    refine ⟨h3, List.nodup_singleton _, ?_⟩
    intro a ha hb
    obtain ⟨x, hx, rfl⟩ := List.mem_map.1 ha
    have hxh : x.txHash = h := by simpa using hb
    rw [List.any_eq_false] at hfresh2
    have := hfresh2 x hx
    simp [hxh] at this
  | deleteOne h =>
    show UniqueEpochs (PendingTxIndexer.DeleteOne (Spec.indices m) s h).1
    rw [DeleteOne_spec]
    exact uniqueEpochs_foldl_purge [h] hs
  | deleteMined h =>
    show UniqueEpochs (PendingTxIndexer.DeleteMined (Spec.indices m) s h).1
    rw [DeleteMined_spec]
    exact uniqueEpochs_foldl_purge _ hs
  | dropBefore e =>
    show UniqueEpochs (PendingTxIndexer.DropBefore (Spec.indices m) s e).1
    rw [DropBefore_spec]
    apply uniqueEpochs_foldl_purge
    exact uniqueEpochs_of_filter _ rfl hs

/-- After any sequence of successful calls from the empty indexer no txHash
has two entries in the expiration list. -/
theorem uniqueEpochs_runOps {m : Nat} (ops : List Op) :
    ∀ (s t : Store), UniqueEpochs s → runOps m s ops = some t → UniqueEpochs t := by
  induction ops with
  | nil =>
    intro s t hs hrun
    have : s = t := by simpa [runOps] using hrun
    exact this ▸ hs
  | cons op rest ih =>
    intro s t hs hrun
    unfold runOps at hrun
    cases hok : (op.run m s).2 with
    | some e => rw [hok] at hrun; cases hrun
    | none =>
      rw [hok] at hrun
      exact ih _ t (uniqueEpochs_step hs op hok) hrun

/-- With one entry per txHash, `GetEpoch` returns the epoch of the entry. -/
theorem getEpoch_of_mem {s : Store} (hs : UniqueEpochs s) {x : EpochEntry} (hx : x ∈ s.epochs) :
    Spec.expirationGetEpoch s x.txHash = (x.epoch, none) := by
  rw [getEpoch_eq_iff]
  cases hf : s.epochs.find? (fun y => decide (y.txHash = x.txHash)) with
  | none =>
    rw [List.find?_eq_none] at hf
    exact absurd (by simp) (hf x hx)
  | some y =>
    have hy := List.mem_of_find?_eq_some hf
    have hyx : y.txHash = x.txHash := by simpa using List.find?_some hf
    have : y = x := List.inj_on_of_nodup_map hs hy hx hyx
    exact ⟨y, rfl, by rw [this]⟩

/-- With one entry per txHash, a transaction whose epoch is not below the
threshold is not among those `DropBefore` returns. -/
theorem not_dropped {m : Nat} {s : Store} {e : Nat} (hs : UniqueEpochs s) {x : EpochEntry}
    (hx : x ∈ s.epochs) (he : e ≤ x.epoch) :
    x.txHash ∉ (PendingTxIndexer.DropBefore (Spec.indices m) s e).2.1.elems := by
  rw [DropBefore_spec]
  show x.txHash ∉ Slice.elems (some (List.map EpochEntry.txHash _))
  simp only [Slice.elems, Option.getD_some]
  intro hmem
  obtain ⟨y, hy, hyx⟩ := List.mem_map.1 hmem
  have hy2 := (mem_dropBefore_victims s.epochs e y).1 hy
  have : y = x := List.inj_on_of_nodup_map hs hy2.1 hx hyx
  rw [this] at hy2
  omega

namespace PendingTxIndexer

/-- C12: on the modelled sub-indices, from a store with one expiration entry per
txHash, `DropBefore(e)` leaves every transaction whose epoch is at least `e`
as it was: its expiration entry is still there and `GetEpoch` returns the same
epoch, its entry of the insertion-order index is still there, and its
references in the ref-linker are the same as before. -/
theorem DropBefore_frame (m : Nat) (s : Store) (e : Nat) (x : EpochEntry)
    (hs : UniqueEpochs s) (hx : x ∈ s.epochs) (he : e ≤ x.epoch) :
    x ∈ (DropBefore (Spec.indices m) s e).1.epochs ∧
    GetEpoch (Spec.indices m) (DropBefore (Spec.indices m) s e).1 x.txHash = (x.epoch, none) ∧
    (∀ o, o.txHash = x.txHash →
      (o ∈ (DropBefore (Spec.indices m) s e).1.order ↔ o ∈ s.order)) ∧
    (∀ r, r.txHash = x.txHash →
      (r ∈ (DropBefore (Spec.indices m) s e).1.refs ↔ r ∈ s.refs)) := by
  have hkeep := not_dropped (m := m) hs hx he
  refine ⟨?_, ?_, ?_, ?_⟩
  · rw [DropBefore_spec] at hkeep ⊢
    simp only []
    rw [foldl_purge_epochs]
    refine List.mem_filter.2 ⟨List.mem_filter.2 ⟨hx, ?_⟩, by simpa using hkeep⟩
    have : x ∉ (s.epochs.insertionSort EpochEntry.before).takeWhile
        (fun x => decide (x.epoch < e)) := by
      intro hv
      have := (mem_dropBefore_victims s.epochs e x).1 hv
      omega
    simpa using this
  · have hok : ((Op.dropBefore e).run m s).2 = none := by
      show (DropBefore (Spec.indices m) s e).2.2 = none
      rw [DropBefore_spec]
    exact getEpoch_step (Op.dropBefore e) (getEpoch_of_mem hs hx) hok hkeep
  · intro o ho
    rw [DropBefore_spec] at hkeep ⊢
    simp only []
    rw [foldl_purge_order]
    constructor
    · intro h; exact (List.mem_filter.1 h).1
    · intro h; exact List.mem_filter.2 ⟨h, by simpa [ho] using hkeep⟩
  · intro r hr
    rw [DropBefore_spec] at hkeep ⊢
    simp only []
    rw [foldl_purge_refs]
    constructor
    · intro h; exact (List.mem_filter.1 h).1
    · intro h; exact List.mem_filter.2 ⟨h, by simpa [hr] using hkeep⟩

/-- `DropBefore(5)` on `exampleStore`, whose two entries have epoch 5: the
threshold is strict and `[1]` stays as it was. -/
theorem DropBefore_frame_witness :
    UniqueEpochs exampleStore ∧ (⟨5, 1, [1]⟩ : EpochEntry) ∈ exampleStore.epochs ∧ 5 ≤ 5 ∧
    (⟨5, 1, [1]⟩ : EpochEntry) ∈ (DropBefore (Spec.indices 2) exampleStore 5).1.epochs ∧
    GetEpoch (Spec.indices 2) (DropBefore (Spec.indices 2) exampleStore 5).1 [1] = (5, none) :=
  ⟨by decide, by decide, by decide,
    (DropBefore_frame 2 exampleStore 5 ⟨5, 1, [1]⟩ (by decide) (by decide) (by decide)).1,
    (DropBefore_frame 2 exampleStore 5 ⟨5, 1, [1]⟩ (by decide) (by decide) (by decide)).2.1⟩

end PendingTxIndexer

/-! ## Errors of the composite -/

namespace PendingTxIndexer

variable {σ : Type}

/-- `Add` without pattern matching. -/
theorem Add_proj (ix : SubIndices σ) (txn : σ) (epoch : Nat) (txHash : Hash)
    (utxoIDs : List Hash) :
    Add ix txn epoch txHash utxoIDs =
      if (ix.orderAdd txn txHash).2 ≠ none then
        ((ix.orderAdd txn txHash).1, none, (ix.orderAdd txn txHash).2)
      else if (ix.reflinkAdd (ix.orderAdd txn txHash).1 txHash utxoIDs).2.2.2 ≠ none then
        ((ix.reflinkAdd (ix.orderAdd txn txHash).1 txHash utxoIDs).1, none,
          (ix.reflinkAdd (ix.orderAdd txn txHash).1 txHash utxoIDs).2.2.2)
      else if (if (ix.reflinkAdd (ix.orderAdd txn txHash).1 txHash utxoIDs).2.1 = true then
            evictLoop ix (ix.reflinkAdd (ix.orderAdd txn txHash).1 txHash utxoIDs).1
              (ix.reflinkAdd (ix.orderAdd txn txHash).1 txHash utxoIDs).2.2.1.elems
          else ((ix.reflinkAdd (ix.orderAdd txn txHash).1 txHash utxoIDs).1, none)).2 ≠ none then
        ((if (ix.reflinkAdd (ix.orderAdd txn txHash).1 txHash utxoIDs).2.1 = true then
            evictLoop ix (ix.reflinkAdd (ix.orderAdd txn txHash).1 txHash utxoIDs).1
              (ix.reflinkAdd (ix.orderAdd txn txHash).1 txHash utxoIDs).2.2.1.elems
          else ((ix.reflinkAdd (ix.orderAdd txn txHash).1 txHash utxoIDs).1, none)).1, none,
         (if (ix.reflinkAdd (ix.orderAdd txn txHash).1 txHash utxoIDs).2.1 = true then
            evictLoop ix (ix.reflinkAdd (ix.orderAdd txn txHash).1 txHash utxoIDs).1
              (ix.reflinkAdd (ix.orderAdd txn txHash).1 txHash utxoIDs).2.2.1.elems
          else ((ix.reflinkAdd (ix.orderAdd txn txHash).1 txHash utxoIDs).1, none)).2)
      else if (ix.expirationAppend
          (if (ix.reflinkAdd (ix.orderAdd txn txHash).1 txHash utxoIDs).2.1 = true then
            evictLoop ix (ix.reflinkAdd (ix.orderAdd txn txHash).1 txHash utxoIDs).1
              (ix.reflinkAdd (ix.orderAdd txn txHash).1 txHash utxoIDs).2.2.1.elems
          else ((ix.reflinkAdd (ix.orderAdd txn txHash).1 txHash utxoIDs).1, none)).1
          epoch txHash).2 ≠ none then
        ((ix.expirationAppend
          (if (ix.reflinkAdd (ix.orderAdd txn txHash).1 txHash utxoIDs).2.1 = true then
            evictLoop ix (ix.reflinkAdd (ix.orderAdd txn txHash).1 txHash utxoIDs).1
              (ix.reflinkAdd (ix.orderAdd txn txHash).1 txHash utxoIDs).2.2.1.elems
          else ((ix.reflinkAdd (ix.orderAdd txn txHash).1 txHash utxoIDs).1, none)).1
          epoch txHash).1, none,
         (ix.expirationAppend
          (if (ix.reflinkAdd (ix.orderAdd txn txHash).1 txHash utxoIDs).2.1 = true then
            evictLoop ix (ix.reflinkAdd (ix.orderAdd txn txHash).1 txHash utxoIDs).1
              (ix.reflinkAdd (ix.orderAdd txn txHash).1 txHash utxoIDs).2.2.1.elems
          else ((ix.reflinkAdd (ix.orderAdd txn txHash).1 txHash utxoIDs).1, none)).1
          epoch txHash).2)
      else
        ((ix.expirationAppend
          (if (ix.reflinkAdd (ix.orderAdd txn txHash).1 txHash utxoIDs).2.1 = true then
            evictLoop ix (ix.reflinkAdd (ix.orderAdd txn txHash).1 txHash utxoIDs).1
              (ix.reflinkAdd (ix.orderAdd txn txHash).1 txHash utxoIDs).2.2.1.elems
          else ((ix.reflinkAdd (ix.orderAdd txn txHash).1 txHash utxoIDs).1, none)).1
          epoch txHash).1,
         (ix.reflinkAdd (ix.orderAdd txn txHash).1 txHash utxoIDs).2.2.1, none) := by
  unfold Add
  rcases ix.orderAdd txn txHash with ⟨t1, e1⟩
  cases e1 with
  | some e => simp
  | none =>
    simp only []
    rcases ix.reflinkAdd t1 txHash utxoIDs with ⟨t2, ev, evd, e2⟩
    cases e2 with
    | some e => simp
    | none =>
      simp only []
      rcases (if ev = true then evictLoop ix t2 evd.elems else (t2, none)) with ⟨t3, e3⟩
      cases e3 with
      | some e => simp
      | none =>
        simp only []
        rcases ix.expirationAppend t3 epoch txHash with ⟨t4, e4⟩
        cases e4 <;> simp

/-- `DeleteMined` without pattern matching. -/
theorem DeleteMined_proj (ix : SubIndices σ) (txn : σ) (txHash : Hash) :
    DeleteMined ix txn txHash =
      if (ix.reflinkDeleteMined txn txHash).2.2.2 ≠ none ∧
          (ix.reflinkDeleteMined txn txHash).2.2.2 ≠ some Err.notFound then
        ((ix.reflinkDeleteMined txn txHash).1, none, none,
          (ix.reflinkDeleteMined txn txHash).2.2.2)
      else
        ((minedLoop ix (ix.reflinkDeleteMined txn txHash).1
            ((ix.reflinkDeleteMined txn txHash).2.1.append txHash).elems).1,
          (if (minedLoop ix (ix.reflinkDeleteMined txn txHash).1
              ((ix.reflinkDeleteMined txn txHash).2.1.append txHash).elems).2 = none
            then (ix.reflinkDeleteMined txn txHash).2.1.append txHash else none),
          (if (minedLoop ix (ix.reflinkDeleteMined txn txHash).1
              ((ix.reflinkDeleteMined txn txHash).2.1.append txHash).elems).2 = none
            then (ix.reflinkDeleteMined txn txHash).2.2.1 else none),
          (minedLoop ix (ix.reflinkDeleteMined txn txHash).1
            ((ix.reflinkDeleteMined txn txHash).2.1.append txHash).elems).2) := by
  rw [DeleteMined_eq]
  by_cases hc : (ix.reflinkDeleteMined txn txHash).2.2.2 ≠ none ∧
      (ix.reflinkDeleteMined txn txHash).2.2.2 ≠ some Err.notFound
  · rw [if_pos hc, if_pos hc]
  · rw [if_neg hc, if_neg hc]
    generalize minedLoop ix (ix.reflinkDeleteMined txn txHash).1
      ((ix.reflinkDeleteMined txn txHash).2.1.append txHash).elems = r
    rcases r with ⟨t2, _ | e2⟩ <;> simp

/-- C16 as stated fails: on sub-indices whose `reflink.DeleteMined` and
`expiration.DropBefore` return `NotFound`, `DeleteMined` and `DropBefore` do not
fail. -/
theorem NotFound_counterexample :
    (notFoundIndices.reflinkDeleteMined exampleStore [1]).2.2.2 = some Err.notFound ∧
    (DeleteMined notFoundIndices exampleStore [1]).2 = (some [[1]], none, none) ∧
    (notFoundIndices.expirationDropBefore exampleStore 6).2.2 = some Err.notFound ∧
    (DropBefore notFoundIndices exampleStore 6).2 = (none, none) :=
  ⟨rfl, rfl, rfl, rfl⟩

/-- C16, amended: `NotFound` is swallowed in the per-txHash sub-deletes (the loop
body of `DeleteMined` is `DeleteOne`, which never returns `NotFound`) and also
when `reflink.DeleteMined` or `expiration.DropBefore` returns it: the operation
goes on with the lists returned alongside and its error is that of its delete
loop; any other error of these two calls is returned with nil lists; every
error, `NotFound` included, returned by `order.Add`, `reflink.Add` or
`expiration.Append` makes `Add` fail with that error and a nil list. -/
theorem NotFound_policy (ix : SubIndices σ) (txn : σ) (epoch : Nat) (txHash : Hash)
    (utxoIDs : List Hash) :
    (minedStep ix txn txHash = DeleteOne ix txn txHash ∧
      (DeleteOne ix txn txHash).2 ≠ some Err.notFound) ∧
    ((ix.reflinkDeleteMined txn txHash).2.2.2 = some Err.notFound →
      (DeleteMined ix txn txHash).2.2.2
        = (minedLoop ix (ix.reflinkDeleteMined txn txHash).1
            ((ix.reflinkDeleteMined txn txHash).2.1.append txHash).elems).2) ∧
    (∀ e, e ≠ Err.notFound → (ix.reflinkDeleteMined txn txHash).2.2.2 = some e →
      (DeleteMined ix txn txHash).2 = (none, none, some e)) ∧
    ((ix.expirationDropBefore txn epoch).2.2 = some Err.notFound →
      (DropBefore ix txn epoch).2.2
        = (dropLoop ix (ix.expirationDropBefore txn epoch).1
            (ix.expirationDropBefore txn epoch).2.1.elems).2) ∧
    (∀ e, e ≠ Err.notFound → (ix.expirationDropBefore txn epoch).2.2 = some e →
      (DropBefore ix txn epoch).2 = (none, some e)) ∧
    (∀ e, (ix.orderAdd txn txHash).2 = some e →
      (Add ix txn epoch txHash utxoIDs).2 = (none, some e)) ∧
    (∀ e, (ix.orderAdd txn txHash).2 = none →
      (ix.reflinkAdd (ix.orderAdd txn txHash).1 txHash utxoIDs).2.2.2 = some e →
      (Add ix txn epoch txHash utxoIDs).2 = (none, some e)) ∧
    (∀ e, (ix.orderAdd txn txHash).2 = none →
      (ix.reflinkAdd (ix.orderAdd txn txHash).1 txHash utxoIDs).2.2.2 = none →
      (if (ix.reflinkAdd (ix.orderAdd txn txHash).1 txHash utxoIDs).2.1 = true then
          evictLoop ix (ix.reflinkAdd (ix.orderAdd txn txHash).1 txHash utxoIDs).1
            (ix.reflinkAdd (ix.orderAdd txn txHash).1 txHash utxoIDs).2.2.1.elems
        else ((ix.reflinkAdd (ix.orderAdd txn txHash).1 txHash utxoIDs).1, none)).2 = none →
      (ix.expirationAppend
        (if (ix.reflinkAdd (ix.orderAdd txn txHash).1 txHash utxoIDs).2.1 = true then
          evictLoop ix (ix.reflinkAdd (ix.orderAdd txn txHash).1 txHash utxoIDs).1
            (ix.reflinkAdd (ix.orderAdd txn txHash).1 txHash utxoIDs).2.2.1.elems
        else ((ix.reflinkAdd (ix.orderAdd txn txHash).1 txHash utxoIDs).1, none)).1
        epoch txHash).2 = some e →
      (Add ix txn epoch txHash utxoIDs).2 = (none, some e)) := by
  refine ⟨⟨rfl, DeleteOne_error_hard ix txn txHash⟩, ?_, ?_, ?_, ?_, ?_, ?_, ?_⟩
  · intro h
    rw [DeleteMined_proj, if_neg (by rw [h]; simp)]
  · intro e hne h
    rw [DeleteMined_proj, if_pos (by rw [h]; simp [hne]), h]
  · intro h
    rw [DropBefore_proj, if_neg (by rw [h]; simp)]
  · intro e hne h
    rw [DropBefore_proj, if_pos (by rw [h]; simp [hne]), h]
  · intro e h
    rw [Add_proj, if_pos (by rw [h]; simp), h]
  · intro e h1 h2
    rw [Add_proj, if_neg (by rw [h1]; simp), if_pos (by rw [h2]; simp), h2]
  · intro e h1 h2 h3 h4
    rw [Add_proj, if_neg (by rw [h1]; simp), if_neg (by rw [h2]; simp),
      if_neg (by rw [h3]; simp), if_pos (by rw [h4]; simp), h4]

end PendingTxIndexer

/-! ## Add with a repeated utxoID -/

namespace PendingTxIndexer

/-- C15 as stated fails: `Add(1, 0xC1, [Uy, Uy])` on the empty indexer is
rejected with `InvalidInput`, but the insertion-order index already holds
`0xC1` and its seq counter has advanced. -/
theorem duplicate_utxo_counterexample :
    (Add (Spec.indices 3) Store.empty 1 [0xC1] [[7], [7]]).2 = (none, some Err.invalidInput) ∧
    (Add (Spec.indices 3) Store.empty 1 [0xC1] [[7], [7]]).1.order = [⟨1, [0xC1]⟩] ∧
    (Add (Spec.indices 3) Store.empty 1 [0xC1] [[7], [7]]).1.orderCounter = 1 ∧
    (Add (Spec.indices 3) Store.empty 1 [0xC1] [[7], [7]]).1 ≠ Store.empty :=
  ⟨rfl, rfl, rfl, by decide⟩

/-- C15, amended: on the modelled sub-indices an `Add` whose utxoIDs repeat a
utxoID is rejected: with `DuplicateKey` and the store untouched when the
txHash is already in the insertion-order index, otherwise with `InvalidInput`,
the ref-linker and the expiration list untouched, and the insertion-order
index holding the txHash under the next seq, with its counter advanced. -/
theorem Add_duplicate_utxo (m : Nat) (s : Store) (epoch : Nat) (txHash : Hash)
    (utxoIDs : List Hash) (hdup : ¬ utxoIDs.Nodup) :
    (s.order.any (fun x => decide (x.txHash = txHash)) = true →
      Add (Spec.indices m) s epoch txHash utxoIDs = (s, none, some Err.duplicateKey)) ∧
    (s.order.any (fun x => decide (x.txHash = txHash)) = false →
      Add (Spec.indices m) s epoch txHash utxoIDs =
        ({ s with orderCounter := s.orderCounter + 1,
                  order := s.order ++ [⟨s.orderCounter + 1, txHash⟩] },
          none, some Err.invalidInput)) := by
  constructor
  · intro h
    have h1 : Spec.orderAdd s txHash = (s, some Err.duplicateKey) := by
      simp [Spec.orderAdd, h]
    rw [Add_proj]
    simp only [indices_orderAdd, h1]
    simp
  · intro h
    have h1 : Spec.orderAdd s txHash =
        ({ s with orderCounter := s.orderCounter + 1,
                  order := s.order ++ [⟨s.orderCounter + 1, txHash⟩] }, none) := by
      simp [Spec.orderAdd, h]
    rw [Add_proj]
    simp only [indices_orderAdd, indices_reflinkAdd, h1]
    simp [Spec.reflinkAdd, hdup]

/-- Scenario S6 of the specification on the empty indexer. -/
theorem Add_duplicate_utxo_witness :
    ¬ ([[7], [7]] : List Hash).Nodup ∧
    Add (Spec.indices 3) Store.empty 1 [0xC1] [[7], [7]] =
      ({ Store.empty with orderCounter := 1, order := [⟨1, [0xC1]⟩] },
        none, some Err.invalidInput) :=
  ⟨by decide, (Add_duplicate_utxo 3 Store.empty 1 [0xC1] [[7], [7]] (by decide)).2 rfl⟩

end PendingTxIndexer

end PendingIndex

/-! ## Dynamic values: the linked list -/

namespace Dynamics

variable {DV LL Txn : Type}

/-- `addNode` up to the comparison of the epochs, when the new node is created
and the stored tail is read and is the tail. -/
theorem addNode_eq (d : Deps DV LL Txn) (txn : Txn) (ll : LL) (epoch : Nat) (dv : DV)
    (n tail : Node DV) (hn : d.CreateNode epoch dv = Except.ok n)
    (ht : d.GetNode txn (d.GetMostFutureUpdate ll) = Except.ok tail)
    (htail : d.IsTail tail = true) :
    addNode d txn ll epoch dv =
      if n.thisEpoch ≤ tail.thisEpoch then (txn, some (errInvalidNode n)) else
      match d.SetEpochs n tail with
      | (_, _, some err) => (txn, some err)
      | (newTailNode1, prevTailNode1, none) =>
        match d.Validate prevTailNode1 with
        | some err => (txn, some err)
        | none =>
          match d.Validate newTailNode1 with
          | some err => (txn, some err)
          | none =>
            match d.SetNode txn prevTailNode1 with
            | (t1, some err) => (t1, some err)
            | (t1, none) =>
              match d.SetNode t1 newTailNode1 with
              | (t2, some err) => (t2, some err)
              | (t2, none) =>
                match d.SetMostFutureUpdate ll newTailNode1.thisEpoch with
                | (_, some err) => (t2, some err)
                | (linkedList1, none) =>
                  match d.SetLinkedList t2 linkedList1 with
                  | (t3, some err) => (t3, some err)
                  | (t3, none) => (t3, none) := by
  unfold addNode
  rw [hn]
  simp only []
  rw [ht]
  simp only [htail, Bool.true_eq_false, if_false]

/-- What a successful `addNode` did. -/
theorem addNode_success (d : Deps DV LL Txn) (txn : Txn) (ll : LL) (epoch : Nat) (dv : DV)
    (n tail : Node DV) (hn : d.CreateNode epoch dv = Except.ok n)
    (ht : d.GetNode txn (d.GetMostFutureUpdate ll) = Except.ok tail)
    (htail : d.IsTail tail = true) (hok : (addNode d txn ll epoch dv).2 = none) :
    tail.thisEpoch < n.thisEpoch ∧
    (d.SetEpochs n tail).2.2 = none ∧
    (d.SetMostFutureUpdate ll (d.SetEpochs n tail).1.thisEpoch).2 = none ∧
    (addNode d txn ll epoch dv).1 =
      (d.SetLinkedList
        (d.SetNode (d.SetNode txn (d.SetEpochs n tail).2.1).1 (d.SetEpochs n tail).1).1
        (d.SetMostFutureUpdate ll (d.SetEpochs n tail).1.thisEpoch).1).1 := by
  rw [addNode_eq d txn ll epoch dv n tail hn ht htail] at hok ⊢
  by_cases hle : n.thisEpoch ≤ tail.thisEpoch
  · rw [if_pos hle] at hok
    cases hok
  · rw [if_neg hle] at hok ⊢
    refine ⟨by omega, ?_⟩
    revert hok
    rcases d.SetEpochs n tail with ⟨n1, t1, _ | e1⟩
    · simp only []
      rcases d.Validate t1 with _ | e2
      · simp only []
        rcases d.Validate n1 with _ | e3
        · simp only []
          rcases d.SetNode txn t1 with ⟨x1, _ | e4⟩
          · simp only []
            rcases d.SetNode x1 n1 with ⟨x2, _ | e5⟩
            · simp only []
              rcases d.SetMostFutureUpdate ll n1.thisEpoch with ⟨l1, _ | e6⟩
              · simp only []
                rcases d.SetLinkedList x2 l1 with ⟨x3, _ | e7⟩
                · intro _; exact ⟨trivial, trivial, rfl⟩
                · intro h; cases h
              · intro h; cases h
            · intro h; cases h
          · intro h; cases h
        · intro h; cases h
      · intro h; cases h
    · intro h; cases h

/-- The log of a successful `addNode`: the previous tail, the new node and the
linked-list record are written, in that order. -/
theorem addNode_logged (d : Deps DV LL Txn) (txn : Txn) (log : List (Write DV LL)) (ll : LL)
    (epoch : Nat) (dv : DV) (n tail : Node DV) (hn : d.CreateNode epoch dv = Except.ok n)
    (ht : d.GetNode txn (d.GetMostFutureUpdate ll) = Except.ok tail)
    (htail : d.IsTail tail = true) (hok : (addNode d txn ll epoch dv).2 = none) :
    (addNode (logged d) (txn, log) ll epoch dv).1.2 =
      log ++ [Write.node (d.SetEpochs n tail).2.1, Write.node (d.SetEpochs n tail).1,
        Write.linkedList (d.SetMostFutureUpdate ll (d.SetEpochs n tail).1.thisEpoch).1] := by
  have hn2 : (logged d).CreateNode epoch dv = Except.ok n := hn
  have ht2 : (logged d).GetNode (txn, log) ((logged d).GetMostFutureUpdate ll) = Except.ok tail := ht
  have htail2 : (logged d).IsTail tail = true := htail
  rw [addNode_eq d txn ll epoch dv n tail hn ht htail] at hok
  rw [addNode_eq (logged d) (txn, log) ll epoch dv n tail hn2 ht2 htail2]
  by_cases hle : n.thisEpoch ≤ tail.thisEpoch
  · rw [if_pos hle] at hok
    cases hok
  · rw [if_neg hle] at hok ⊢
    have e1 : (logged d).SetEpochs n tail = d.SetEpochs n tail := rfl
    have e2 : ∀ x, (logged d).Validate x = d.Validate x := fun _ => rfl
    have e3 : ∀ l e, (logged d).SetMostFutureUpdate l e = d.SetMostFutureUpdate l e :=
      fun _ _ => rfl
    have e4 : ∀ (t : Txn × List (Write DV LL)) x, (logged d).SetNode t x
        = (((d.SetNode t.1 x).1, t.2 ++ [Write.node x]), (d.SetNode t.1 x).2) := fun _ _ => rfl
    have e5 : ∀ (t : Txn × List (Write DV LL)) l, (logged d).SetLinkedList t l
        = (((d.SetLinkedList t.1 l).1, t.2 ++ [Write.linkedList l]), (d.SetLinkedList t.1 l).2) :=
      fun _ _ => rfl
    simp only [e1, e2, e3, e4, e5]
    revert hok
    rcases d.SetEpochs n tail with ⟨n1, t1, _ | x1⟩
    · simp only []
      rcases d.Validate t1 with _ | x2
      · simp only []
        rcases d.Validate n1 with _ | x3
        · simp only []
          rcases d.SetNode txn t1 with ⟨y1, _ | x4⟩
          · simp only []
            rcases d.SetNode y1 n1 with ⟨y2, _ | x5⟩
            · simp only []
              rcases d.SetMostFutureUpdate ll n1.thisEpoch with ⟨l1, _ | x6⟩
              · simp only []
                rcases d.SetLinkedList y2 l1 with ⟨y3, _ | x7⟩
                · intro _; simp
                · intro h; cases h
              · intro h; cases h
            · intro h; cases h
          · intro h; cases h
        · intro h; cases h
      · intro h; cases h
    · intro h; cases h

/-- On `memDB` epoch 12 is appended after the tail at epoch 9. -/
theorem addNode_success_example :
    addNode memDeps memDB ⟨5, 9⟩ 12 40 =
      ({ nodes := [⟨12, 9, 12, 40⟩, ⟨9, 5, 12, 30⟩, ⟨5, 1, 9, 20⟩, ⟨1, 1, 5, 10⟩],
         list := some ⟨5, 12⟩ }, none) := rfl

/-- C18: `GetDynamicValueInThePast` fails with `ErrZeroEpoch` for epoch 0, and
for epoch 1, when the node stored at epoch 1 is read and its dynamic values are
copied, it returns epoch 1 with that copy, whatever the linked-list record and
its last-updated epoch are. -/
theorem GetDynamicValueInThePast_head (d : Deps DV LL Txn) (txn : Txn) (fuel : Nat)
    (head : Node DV) (dv : DV) (hh : d.GetNode txn 1 = Except.ok head)
    (hc : d.Copy head.dynamicValues = Except.ok dv) :
    GetDynamicValueInThePast d txn fuel 0 = some (Except.error Err.zeroEpoch) ∧
    GetDynamicValueInThePast d txn fuel 1 = some (Except.ok (1, dv)) ∧
    (∀ (g : Txn → Except Err LL) (f : LL → Nat),
      GetDynamicValueInThePast { d with GetLinkedList := g, GetEpochLastUpdated := f } txn fuel 1
        = some (Except.ok (1, dv))) := by
  refine ⟨rfl, ?_, ?_⟩
  · unfold GetDynamicValueInThePast getDynamicValueInThePast
    simp only [Nat.succ_ne_zero, if_false, if_true]
    rw [hh]
    simp only []
    rw [hc]
  · intro g f
    unfold GetDynamicValueInThePast getDynamicValueInThePast
    simp only [Nat.succ_ne_zero, if_false, if_true]
    rw [hh]
    simp only []
    rw [hc]

/-- On `memDB`, whose last update is at epoch 5, epoch 1 gives the values of the
head node. -/
theorem GetDynamicValueInThePast_head_witness :
    memDeps.GetNode memDB 1 = Except.ok ⟨1, 1, 5, 10⟩ ∧
    memDeps.Copy 10 = Except.ok 10 ∧
    GetDynamicValueInThePast memDeps memDB 3 1 = some (Except.ok (1, 10)) ∧
    GetDynamicValueInThePast memDeps memDB 3 0 = some (Except.error Err.zeroEpoch) :=
  ⟨rfl, rfl,
    (GetDynamicValueInThePast_head memDeps memDB 3 ⟨1, 1, 5, 10⟩ 10 rfl rfl).2.1,
    (GetDynamicValueInThePast_head memDeps memDB 3 ⟨1, 1, 5, 10⟩ 10 rfl rfl).1⟩

/-! ## The backward loop -/

/-- On a well-formed list no visited node has an epoch above the start's. -/
theorem walk_le (d : Deps DV LL Txn) (txn : Txn) {start : Node DV} (hwf : Chain d txn start) :
    ∀ fuel, ∀ n ∈ walk d txn fuel start, n.thisEpoch ≤ start.thisEpoch := by
  induction hwf with
  | head n hh =>
    intro fuel x hx
    cases fuel with
    | zero =>
      have : x = n := by simpa [walk] using hx
      rw [this]
    | succ f =>
      have : x = n := by simpa [walk, hh] using hx
      rw [this]
  | link n p hh hg hlt _ ih =>
    intro fuel x hx
    cases fuel with
    | zero =>
      have : x = n := by simpa [walk] using hx
      rw [this]
    | succ f =>
      have hw : walk d txn (f + 1) n = n :: walk d txn f p := by
        simp [walk, hh, hg]
      rw [hw] at hx
      rcases List.mem_cons.1 hx with rfl | hx
      · exact Nat.le_refl _
      · exact Nat.le_of_lt (Nat.lt_of_le_of_lt (ih f x hx) hlt)

/-- On a well-formed list, with fuel above the start's epoch, the loop returns,
and what it returns is decided by the first visited node below `epoch`. -/
theorem iterate_chain (d : Deps DV LL Txn) (txn : Txn) (epoch : Nat) {start : Node DV}
    (hwf : Chain d txn start) :
    ∀ fuel, start.thisEpoch < fuel →
      iterateBackwardFromNode d txn epoch fuel start =
        some (match (walk d txn fuel start).find? (fun n => decide (n.thisEpoch < epoch)) with
          | some n => (d.Copy n.dynamicValues).map (fun dv => (n.thisEpoch, dv))
          | none => Except.error Err.invalid) := by
  induction hwf with
  | head n hh =>
    intro fuel hf
    cases fuel with
    | zero => omega
    | succ f =>
      have hw : walk d txn (f + 1) n = [n] := by simp [walk, hh]
      rw [hw]
      unfold iterateBackwardFromNode
      by_cases hlt : n.thisEpoch < epoch
      · have : epoch > n.thisEpoch := hlt
        simp only [this, if_true, List.find?_cons_of_pos, hlt, decide_True]
        cases d.Copy n.dynamicValues <;> rfl
      · have : ¬ epoch > n.thisEpoch := hlt
        simp [this, hh, hlt]
  | link n p hh hg hlt _ ih =>
    intro fuel hf
    cases fuel with
    | zero => omega
    | succ f =>
      have hw : walk d txn (f + 1) n = n :: walk d txn f p := by
        simp [walk, hh, hg]
      rw [hw]
      unfold iterateBackwardFromNode
      by_cases hlt2 : n.thisEpoch < epoch
      · have : epoch > n.thisEpoch := hlt2
        simp only [this, if_true, List.find?_cons_of_pos, hlt2, decide_True]
        cases d.Copy n.dynamicValues <;> rfl
      · have : ¬ epoch > n.thisEpoch := hlt2
        rw [if_neg this, hh]
        simp only [Bool.false_eq_true, if_false, hg]
        rw [ih f (by omega), List.find?_cons_of_neg _ (by simpa using hlt2)]

/-- On a well-formed list the first visited node below `epoch` has the greatest
epoch among the visited nodes below `epoch`. -/
theorem walk_first_greatest (d : Deps DV LL Txn) (txn : Txn) (epoch : Nat) {start : Node DV}
    (hwf : Chain d txn start) :
    ∀ fuel n, (walk d txn fuel start).find? (fun n => decide (n.thisEpoch < epoch)) = some n →
      n ∈ walk d txn fuel start ∧ n.thisEpoch < epoch ∧
      ∀ x ∈ walk d txn fuel start, x.thisEpoch < epoch → x.thisEpoch ≤ n.thisEpoch := by
  induction hwf with
  | head n hh =>
    intro fuel x hx
    have hw : walk d txn fuel n = [n] := by
      cases fuel with
      | zero => rfl
      | succ f => simp [walk, hh]
    rw [hw] at hx ⊢
    have hmem := List.mem_of_find?_eq_some hx
    have hp := List.find?_some hx
    have hxn : x = n := by simpa using hmem
    subst hxn
    refine ⟨List.mem_singleton_self _, by simpa using hp, ?_⟩
    intro y hy _
    have : y = x := by simpa using hy
    rw [this]
  | link n p hh hg hlt hp ih =>
    intro fuel x hx
    cases fuel with
    | zero =>
      have hw : walk d txn 0 n = [n] := rfl
      rw [hw] at hx ⊢
      have hmem := List.mem_of_find?_eq_some hx
      have hpx := List.find?_some hx
      have hxn : x = n := by simpa using hmem
      subst hxn
      refine ⟨List.mem_singleton_self _, by simpa using hpx, ?_⟩
      intro y hy _
      have : y = x := by simpa using hy
      rw [this]
    | succ f =>
      have hw : walk d txn (f + 1) n = n :: walk d txn f p := by
        simp [walk, hh, hg]
      rw [hw] at hx ⊢
      by_cases hlt2 : n.thisEpoch < epoch
      · rw [List.find?_cons_of_pos _ (by simpa using hlt2)] at hx
        cases hx
        refine ⟨List.mem_cons_self _ _, hlt2, ?_⟩
        intro y hy _
        rcases List.mem_cons.1 hy with rfl | hy
        · exact Nat.le_refl _
        · exact Nat.le_of_lt (Nat.lt_of_le_of_lt (walk_le d txn hp f y hy) hlt)
      · rw [List.find?_cons_of_neg _ (by simpa using hlt2)] at hx
        obtain ⟨i1, i2, i3⟩ := ih f x hx
        refine ⟨List.mem_cons_of_mem _ i1, i2, ?_⟩
        intro y hy hylt
        rcases List.mem_cons.1 hy with rfl | hy
        · exact absurd hylt hlt2
        · exact i3 y hy hylt

/-- On a well-formed list, with fuel above the start's epoch, the walk ends at
a head node, which has the least epoch of the walk and is its only head. -/
theorem walk_head (d : Deps DV LL Txn) (txn : Txn) {start : Node DV}
    (hwf : Chain d txn start) :
    ∀ fuel, start.thisEpoch < fuel →
      (∃ hd ∈ walk d txn fuel start, d.IsHead hd = true) ∧
      ∀ hd ∈ walk d txn fuel start, d.IsHead hd = true →
        ∀ x ∈ walk d txn fuel start, hd.thisEpoch ≤ x.thisEpoch := by
  induction hwf with
  | head n hh =>
    intro fuel hf
    cases fuel with
    | zero => omega
    | succ f =>
      have hw : walk d txn (f + 1) n = [n] := by simp [walk, hh]
      rw [hw]
      refine ⟨⟨n, List.mem_singleton_self _, hh⟩, ?_⟩
      intro hd hhd _ x hx
      have h1 : hd = n := by simpa using hhd
      have h2 : x = n := by simpa using hx
      rw [h1, h2]
  | link n p hh hg hlt hp ih =>
    intro fuel hf
    cases fuel with
    | zero => omega
    | succ f =>
      have hw : walk d txn (f + 1) n = n :: walk d txn f p := by
        simp [walk, hh, hg]
      rw [hw]
      obtain ⟨⟨hd, hhd, hhead⟩, imin⟩ := ih f (by omega)
      refine ⟨⟨hd, List.mem_cons_of_mem _ hhd, hhead⟩, ?_⟩
      intro h2 hh2 hhead2 x hx
      rcases List.mem_cons.1 hh2 with e2 | m2
      · rw [e2, hh] at hhead2
        cases hhead2
      · rcases List.mem_cons.1 hx with ex | mx
        · rw [ex]
          exact Nat.le_of_lt (Nat.lt_of_le_of_lt (walk_le d txn hp f h2 m2) hlt)
        · exact imin h2 m2 hhead2 x mx

/-- C19: on a well-formed list (every non-head node's `prevEpoch` is a stored
node with a smaller epoch), with fuel above the start's epoch the backward loop
terminates; it returns the epoch and the copied values of the first node on
the walk from `start` along the `prevEpoch` links whose epoch is below `epoch`,
which has the greatest epoch below `epoch` on the walk; and there is no such
node, in which case the loop returns `ErrInvalid`, exactly when the walk
reaches the head node with the head's epoch still at or above `epoch`. -/
theorem iterateBackwardFromNode_spec (d : Deps DV LL Txn) (txn : Txn) (epoch : Nat)
    (start : Node DV) (fuel : Nat) (hwf : Chain d txn start) (hfuel : start.thisEpoch < fuel) :
    iterateBackwardFromNode d txn epoch fuel start =
      some (match (walk d txn fuel start).find? (fun n => decide (n.thisEpoch < epoch)) with
        | some n => (d.Copy n.dynamicValues).map (fun dv => (n.thisEpoch, dv))
        | none => Except.error Err.invalid) ∧
    (∀ n, (walk d txn fuel start).find? (fun n => decide (n.thisEpoch < epoch)) = some n →
      n ∈ walk d txn fuel start ∧ n.thisEpoch < epoch ∧
      ∀ x ∈ walk d txn fuel start, x.thisEpoch < epoch → x.thisEpoch ≤ n.thisEpoch) ∧
    ((walk d txn fuel start).find? (fun n => decide (n.thisEpoch < epoch)) = none ↔
      ∃ hd ∈ walk d txn fuel start, d.IsHead hd = true ∧ epoch ≤ hd.thisEpoch) := by
  refine ⟨iterate_chain d txn epoch hwf fuel hfuel,
    walk_first_greatest d txn epoch hwf fuel, ?_⟩
  obtain ⟨⟨hd, hhd, hhead⟩, hmin⟩ := walk_head d txn hwf fuel hfuel
  constructor
  · intro hnone
    rw [List.find?_eq_none] at hnone
    refine ⟨hd, hhd, hhead, ?_⟩
    have := hnone hd hhd
    simpa using this
  · rintro ⟨h2, hh2, hhead2, hle⟩
    rw [List.find?_eq_none]
    intro x hx
    have := hmin h2 hh2 hhead2 x hx
    simp only [decide_eq_true_eq, not_lt]
    omega

/-- The list below the node at epoch 9 of `memDB` is well formed. -/
theorem memDB_chain : Chain memDeps memDB ⟨9, 5, 9, 30⟩ :=
  Chain.link _ ⟨5, 1, 9, 20⟩ rfl rfl (by decide)
    (Chain.link _ ⟨1, 1, 5, 10⟩ rfl rfl (by decide) (Chain.head _ rfl))

/-- On `memDB`, from the node at epoch 9: epoch 7 gives the node at epoch 5 and
epoch 1 gives `ErrInvalid` at the head. -/
theorem iterateBackwardFromNode_spec_witness :
    Chain memDeps memDB ⟨9, 5, 9, 30⟩ ∧ 9 < 10 ∧
    iterateBackwardFromNode memDeps memDB 7 10 ⟨9, 5, 9, 30⟩ = some (Except.ok (5, 20)) ∧
    iterateBackwardFromNode memDeps memDB 1 10 ⟨9, 5, 9, 30⟩ = some (Except.error Err.invalid) :=
  ⟨memDB_chain, by decide,
    (iterateBackwardFromNode_spec memDeps memDB 7 ⟨9, 5, 9, 30⟩ 10 memDB_chain (by decide)).1,
    (iterateBackwardFromNode_spec memDeps memDB 1 ⟨9, 5, 9, 30⟩ 10 memDB_chain (by decide)).1⟩

end Dynamics

namespace DkgTasks

/-- The quotient by 100 computed by `ShouldRetry` is the floor of the
rational quotient. -/
theorem tenPercent_floor (c : Int) : c * 10 / 100 = ⌊((c : ℚ) * 10 / 100)⌋ := by
  have h : ((c : ℚ) * 10 / 100) = (((c * 10 : Int) : ℚ) / ((100 : Nat) : ℚ)) := by
    push_cast
    ring
  rw [h, Rat.floor_intCast_div_natCast]
  rfl

/-- The raised cap is above eleven tenths of the old cap. -/
theorem raised_gt (c : Int) : (11 / 10 : ℚ) * (c : ℚ) < ((c + c * 10 / 100 + 1 : Int) : ℚ) := by
  have h1 : 10 * (c + c * 10 / 100 + 1) > 11 * c := by omega
  have h2 : ((10 * (c + c * 10 / 100 + 1) : Int) : ℚ) > ((11 * c : Int) : ℚ) := by
    exact_mod_cast h1
  push_cast at h2 ⊢
  linarith

/-- With the options set and both caps present, `ShouldRetry` returns, and
what it returns follows its decision `b`. -/
theorem ShouldRetry_set {ε : Type} (t : RegisterTask) (eth : Ethereum ε) (o : TransactOpts)
    (fee tip : Int) (hopts : t.TxOpts = some o) (hfee : o.GasFeeCap = some fee)
    (htip : o.GasTipCap = some tip) :
    ∃ b : Bool, t.ShouldRetry eth =
      some (if b = true then
          { t with TxOpts := some { o with
              GasFeeCap := some (fee + fee * 10 / 100 + 1),
              GasTipCap := some (tip + tip * 10 / 100 + 1) } }
        else t, b) := by
  unfold RegisterTask.ShouldRetry
  simp only [hopts, hfee, htip]
  generalize (match eth.GetCurrentHeight with
    | Except.error _ => true
    | Except.ok currentBlock =>
      decide (t.State.Phase = EthDKGPhase.RegistrationOpen) &&
        decide (t.Start ≤ currentBlock) && decide (currentBlock < t.End) &&
        (match eth.CheckRegistration with
        | Except.error _ => true
        | Except.ok status =>
          decide (status ≠ RegistrationStatus.Registered ∧
            status ≠ RegistrationStatus.BadRegistration))) = b
  cases b
  · exact ⟨false, by simp⟩
  · exact ⟨true, by simp⟩

/-- When `ShouldRetry` returns false the task is the one it was called on. -/
theorem ShouldRetry_false {ε : Type} (t t1 : RegisterTask) (eth : Ethereum ε)
    (h : t.ShouldRetry eth = some (t1, false)) : t1 = t := by
  unfold RegisterTask.ShouldRetry at h
  simp only at h
  split_ifs at h with hb
  · exfalso
    revert h
    split
    · intro h
      cases h
    · split
      · intro h
        rw [hb] at h
        cases h
      · intro h
        cases h
  · exact ((Prod.mk.injEq _ _ _ _).mp (Option.some.inj h)).1.symm

/-- C20: when `TxOpts` is set with caps `fee` and `tip`, `ShouldRetry`
returns; when it returns true the new `GasFeeCap` is
`fee + floor(fee*10/100) + 1` and the new `GasTipCap` is
`tip + floor(tip*10/100) + 1`, each above 1.1 times the old cap, the rest of the
task being as before; and when it returns false, whatever `TxOpts` was, the
task and so its caps are unchanged. -/
theorem ShouldRetry_raises_caps {ε : Type} (t : RegisterTask) (eth : Ethereum ε)
    (o : TransactOpts) (fee tip : Int) (hopts : t.TxOpts = some o)
    (hfee : o.GasFeeCap = some fee) (htip : o.GasTipCap = some tip)
    (hfee0 : 0 ≤ fee) (htip0 : 0 ≤ tip) :
    (∃ r, t.ShouldRetry eth = some r) ∧
    (∀ t1, t.ShouldRetry eth = some (t1, true) →
      t1 = { t with TxOpts := some { o with
              GasFeeCap := some (fee + ⌊((fee : ℚ) * 10 / 100)⌋ + 1),
              GasTipCap := some (tip + ⌊((tip : ℚ) * 10 / 100)⌋ + 1) } } ∧
      (11 / 10 : ℚ) * (fee : ℚ) < ((fee + ⌊((fee : ℚ) * 10 / 100)⌋ + 1 : Int) : ℚ) ∧
      (11 / 10 : ℚ) * (tip : ℚ) < ((tip + ⌊((tip : ℚ) * 10 / 100)⌋ + 1 : Int) : ℚ) ∧
      fee < fee + ⌊((fee : ℚ) * 10 / 100)⌋ + 1 ∧ tip < tip + ⌊((tip : ℚ) * 10 / 100)⌋ + 1) ∧
    (∀ (t0 t1 : RegisterTask), t0.ShouldRetry eth = some (t1, false) → t1 = t0) := by
  obtain ⟨b, hb⟩ := ShouldRetry_set t eth o fee tip hopts hfee htip
  refine ⟨⟨_, hb⟩, ?_, fun t0 t1 h => ShouldRetry_false t0 t1 eth h⟩
  intro t1 h
  rw [hb] at h
  have hbt : b = true := by
    have := congrArg (fun r => r.map Prod.snd) h
    simpa using this
  subst hbt
  simp only [if_true, Option.some.injEq, Prod.mk.injEq, and_true] at h
  rw [← tenPercent_floor fee, ← tenPercent_floor tip]
  refine ⟨h.symm, raised_gt fee, raised_gt tip, ?_, ?_⟩
  · have : 0 ≤ fee * 10 / 100 := Int.ediv_nonneg (by omega) (by decide)
    omega
  · have : 0 ≤ tip * 10 / 100 := Int.ediv_nonneg (by omega) (by decide)
    omega

/-- On `exampleTask` with caps 1005 and 19: at height 20 the caps become 1106
and 21, and at height 50, past the window, the task is returned as it was. -/
theorem ShouldRetry_raises_caps_witness :
    exampleTask.TxOpts = some ⟨some 3, some 1005, some 19⟩ ∧
    exampleTask.ShouldRetry exampleEth =
      some ({ exampleTask with TxOpts := some ⟨some 3, some 1106, some 21⟩ }, true) ∧
    (∀ t1, exampleTask.ShouldRetry exampleEth = some (t1, true) →
      t1 = { exampleTask with TxOpts := some { (⟨some 3, some 1005, some 19⟩ : TransactOpts) with
              GasFeeCap := some (1005 + ⌊((1005 : Int) : ℚ) * 10 / 100⌋ + 1),
              GasTipCap := some (19 + ⌊((19 : Int) : ℚ) * 10 / 100⌋ + 1) } }) ∧
    exampleTask.ShouldRetry lateEth = some (exampleTask, false) :=
  ⟨rfl, by decide,
    fun t1 h => ((ShouldRetry_raises_caps exampleTask exampleEth ⟨some 3, some 1005, some 19⟩
      1005 19 rfl rfl rfl (by decide) (by decide)).2.1 t1 h).1,
    by decide⟩

end DkgTasks

/-! ## DeleteMined of an absent transaction -/

namespace PendingIndex

namespace PendingTxIndexer

variable {σ : Type}

/-- `DeleteMined` when `reflink.DeleteMined` reports no victim, with nil or
`NotFound`, and each of the three sub-deletes of `txHash` reports `NotFound`
and changes nothing: the result, and the calls recorded. -/
theorem DeleteMined_quiet (ix : SubIndices σ) (txn : σ) (tr : List Event) (txHash : Hash)
    (vs us : Slice) (e : Option Err)
    (hdm : ix.reflinkDeleteMined txn txHash = (txn, vs, us, e)) (hvs : vs.elems = [])
    (he : e = none ∨ e = some Err.notFound)
    (hrd : ix.reflinkDelete txn txHash = (txn, some Err.notFound))
    (hod : ix.orderDelete txn txHash = (txn, some Err.notFound))
    (hed : ix.expirationDrop txn txHash = (txn, some Err.notFound)) :
    DeleteMined ix txn txHash = (txn, some [txHash], us, none) ∧
    DeleteMined (traced ix) (txn, tr) txHash =
      ((txn, tr ++ [⟨Call.reflinkDeleteMined txHash, e⟩,
          ⟨Call.reflinkDelete txHash, some Err.notFound⟩,
          ⟨Call.orderDelete txHash, some Err.notFound⟩,
          ⟨Call.expirationDrop txHash, some Err.notFound⟩]), some [txHash], us, none) := by
  have hsoft : ¬(e ≠ none ∧ e ≠ some Err.notFound) := by
    rcases he with rfl | rfl <;> simp
  have happ : (vs.append txHash).elems = [txHash] := by
    simp [Slice.append, Slice.elems] at hvs ⊢
    exact hvs
  have happ2 : vs.append txHash = some [txHash] := by
    simp [Slice.append, Slice.elems] at hvs ⊢
    exact hvs
  constructor
  · rw [DeleteMined_eq, hdm]
    simp only []
    rw [if_neg hsoft, happ]
    simp [minedLoop, minedStep, CopySlice, hrd, hod, hed, happ2]
  · rw [DeleteMined_eq]
    simp only [traced_reflinkDeleteMined, hdm]
    rw [if_neg hsoft, happ]
    simp [minedLoop, minedStep, CopySlice, traced_reflinkDelete, traced_orderDelete,
      traced_expirationDrop, hrd, hod, hed, happ2]

end PendingTxIndexer

/-- On the modelled ref-linker `delete` of a txHash without reference reports
`NotFound` and changes nothing. -/
theorem reflinkDelete_absent (s : Store) (h : Hash) (hn : ¬ inReflink s h) :
    Spec.reflinkDelete s h = (s, some Err.notFound) := by
  have hnil : s.refs.filter (fun r => decide (r.txHash = h)) = [] := by
    rw [List.filter_eq_nil_iff]
    intro a ha
    have : a.txHash ≠ h := fun hx => hn ⟨a, ha, hx⟩
    simpa using this
  unfold Spec.reflinkDelete
  simp only [hnil]
  rfl

/-- On the modelled insertion-order index `delete` of a txHash without entry
reports `NotFound` and changes nothing. -/
theorem orderDelete_absent (s : Store) (h : Hash) (hn : ¬ inOrder s h) :
    Spec.orderDelete s h = (s, some Err.notFound) := by
  have hany : s.order.any (fun x => decide (x.txHash = h)) = false := by
    rw [List.any_eq_false]
    intro a ha
    have : a.txHash ≠ h := fun hx => hn ⟨a, ha, hx⟩
    simpa using this
  unfold Spec.orderDelete
  rw [hany]
  rfl

/-- On the modelled epoch list `drop` of a txHash without entry reports
`NotFound` and changes nothing. -/
theorem expirationDrop_absent (s : Store) (h : Hash) (hn : ¬ inExpiration s h) :
    Spec.expirationDrop s h = (s, some Err.notFound) := by
  have hany : s.epochs.any (fun x => decide (x.txHash = h)) = false := by
    rw [List.any_eq_false]
    intro a ha
    have : a.txHash ≠ h := fun hx => hn ⟨a, ha, hx⟩
    simpa using this
  unfold Spec.expirationDrop
  rw [hany]
  rfl

/-- On the modelled ref-linker `deleteMined` of a txHash without reference
returns two empty lists and nil. -/
theorem reflinkDeleteMined_absent (s : Store) (h : Hash) (hn : ¬ inReflink s h) :
    Spec.reflinkDeleteMined s h = (s, some [], some [], none) := by
  have hnil : s.refs.filter (fun r => decide (r.txHash = h)) = [] := by
    rw [List.filter_eq_nil_iff]
    intro a ha
    have : a.txHash ≠ h := fun hx => hn ⟨a, ha, hx⟩
    simpa using this
  unfold Spec.reflinkDeleteMined
  simp only [hnil]
  rfl

namespace PendingTxIndexer

variable {σ : Type}

/-- C22: `DeleteMined` on a `txHash` with no entry in any index does not fail.
On the modelled sub-indices it returns the victim list `[txHash]`, no utxoID
and nil, the store is the one it was given, and the calls made are
`reflink.DeleteMined` and the three sub-deletes, each of which reports
`NotFound`. For every implementation of the sub-indices, when
`reflink.DeleteMined` itself reports `NotFound` with a nil victim list and the
three sub-deletes of `txHash` report `NotFound` and change nothing, the result
is again `[txHash]` with nil and the state unchanged. -/
theorem DeleteMined_absent (m : Nat) (s : Store) (txHash : Hash) (ix : SubIndices σ) (txn : σ)
    (utxoIDs : Slice) (habs : absent s txHash) :
    DeleteMined (Spec.indices m) s txHash = (s, some [txHash], some [], none) ∧
    (DeleteMined (traced (Spec.indices m)) (s, []) txHash).1.2 =
      [⟨Call.reflinkDeleteMined txHash, none⟩,
        ⟨Call.reflinkDelete txHash, some Err.notFound⟩,
        ⟨Call.orderDelete txHash, some Err.notFound⟩,
        ⟨Call.expirationDrop txHash, some Err.notFound⟩] ∧
    (ix.reflinkDeleteMined txn txHash = (txn, none, utxoIDs, some Err.notFound) →
      ix.reflinkDelete txn txHash = (txn, some Err.notFound) →
      ix.orderDelete txn txHash = (txn, some Err.notFound) →
      ix.expirationDrop txn txHash = (txn, some Err.notFound) →
      DeleteMined ix txn txHash = (txn, some [txHash], utxoIDs, none) ∧
      (DeleteMined (traced ix) (txn, []) txHash).1.2 =
        [⟨Call.reflinkDeleteMined txHash, some Err.notFound⟩,
          ⟨Call.reflinkDelete txHash, some Err.notFound⟩,
          ⟨Call.orderDelete txHash, some Err.notFound⟩,
          ⟨Call.expirationDrop txHash, some Err.notFound⟩]) := by
  obtain ⟨ho, hr, he⟩ := habs
  have hq := DeleteMined_quiet (Spec.indices m) s [] txHash (some []) (some []) none
    (reflinkDeleteMined_absent s txHash hr) rfl (Or.inl rfl)
    (reflinkDelete_absent s txHash hr) (orderDelete_absent s txHash ho)
    (expirationDrop_absent s txHash he)
  refine ⟨hq.1, ?_, ?_⟩
  · rw [hq.2]
    rfl
  · intro h1 h2 h3 h4
    have hg := DeleteMined_quiet ix txn [] txHash none utxoIDs (some Err.notFound)
      h1 rfl (Or.inr rfl) h2 h3 h4
    refine ⟨hg.1, ?_⟩
    rw [hg.2]
    rfl

/-- The txHash `[7]` has no entry in `exampleStore`. -/
theorem exampleStore_absent : absent exampleStore [7] := by
  unfold absent inOrder inReflink inExpiration
  decide

/-- On `exampleStore`, which holds `[1]` and `[2]`, the txHash `[7]` is absent:
`DeleteMined` returns `[[7]]` and the store as it was, also when
`reflink.DeleteMined` reports `NotFound`. -/
theorem DeleteMined_absent_witness :
    absent exampleStore [7] ∧
    DeleteMined (Spec.indices 2) exampleStore [7] = (exampleStore, some [[7]], some [], none) ∧
    DeleteMined notFoundIndices exampleStore [7] = (exampleStore, some [[7]], none, none) :=
  ⟨exampleStore_absent,
    (DeleteMined_absent 2 exampleStore [7] notFoundIndices exampleStore none
      exampleStore_absent).1,
    ((DeleteMined_absent 2 exampleStore [7] notFoundIndices exampleStore none
      exampleStore_absent).2.2 rfl rfl rfl rfl).1⟩

end PendingTxIndexer

end PendingIndex

/-! ## Running a task -/

namespace Tasks

variable {ω ε : Type}

theorem wrapInt_wrapInt (x : Int) : wrapInt (wrapInt x) = wrapInt x := by
  unfold wrapInt
  omega

theorem wrapInt_add (x y : Int) : wrapInt (wrapInt x + y) = wrapInt (x + y) := by
  unfold wrapInt
  omega

theorem wrapInt_small (x : Int) (h0 : 0 ≤ x) (h1 : x < 2 ^ 63) : wrapInt x = x := by
  unfold wrapInt
  omega

namespace TaskHandlerDetails

theorem retryLoop_zero (env : Env ω ε) (td : TaskHandlerDetails ω) (w : ω) :
    retryLoop env 0 td w =
      match untilRetry env td w with
      | Sum.inl s => Outcome.ended s
      | Sum.inr s => Outcome.running s := rfl

theorem retryLoop_succ (env : Env ω ε) (fuel : Nat) (td : TaskHandlerDetails ω) (w : ω) :
    retryLoop env (fuel + 1) td w =
      match untilRetry env td w with
      | Sum.inl s => Outcome.ended s
      | Sum.inr s =>
        retryLoop env fuel { (s.1.wrappedDoRetry s.2).1 with
          successful := (s.1.wrappedDoRetry s.2).2.2 } (s.1.wrappedDoRetry s.2).2.1 := rfl

/-- One round of the recorded loop up to the retry, by cases. -/
theorem untilRetry_logged (env : Env ω ε) (td : TaskHandlerDetails ω) (w : ω)
    (l : List Event) :
    untilRetry env.logged td.logged (w, l) =
      if td.successful = true then Sum.inl (td.logged, (w, l))
      else if (td.task.ShouldRetry w).2 = false then
        Sum.inl (td.logged, ((td.task.ShouldRetry w).1, l ++ [Event.ShouldRetry false]))
      else if (env.SleepWithContext (td.task.ShouldRetry w).1).2.isSome = true then
        Sum.inl (td.logged, ((env.SleepWithContext (td.task.ShouldRetry w).1).1,
          l ++ [Event.ShouldRetry true, Event.SleepWithContext true]))
      else
        Sum.inr (td.logged, ((env.SleepWithContext (td.task.ShouldRetry w).1).1,
          l ++ [Event.ShouldRetry true, Event.SleepWithContext false])) := by
  unfold untilRetry
  by_cases h1 : td.successful = true
  · have h1l : td.logged.successful = true := h1
    rw [if_pos h1, if_pos h1l]
  · have h1l : ¬ td.logged.successful = true := h1
    rw [if_neg h1, if_neg h1l]
    by_cases h2 : (td.task.ShouldRetry w).2 = false
    · have h2l : (td.logged.wrappedShouldRetry (w, l)).2.2 = false := h2
      rw [if_pos h2, if_pos h2l]
      show Sum.inl (td.logged, ((td.task.ShouldRetry w).1,
        l ++ [Event.ShouldRetry (td.task.ShouldRetry w).2])) = _
      rw [h2]
    · have h2l : ¬ (td.logged.wrappedShouldRetry (w, l)).2.2 = false := h2
      have h2t : (td.task.ShouldRetry w).2 = true := by simpa using h2
      rw [if_neg h2, if_neg h2l]
      by_cases h3 : (env.SleepWithContext (td.task.ShouldRetry w).1).2.isSome = true
      · have h3l : (env.logged.SleepWithContext
            (td.logged.wrappedShouldRetry (w, l)).2.1).2.isSome = true := h3
        rw [if_pos h3, if_pos h3l]
        show Sum.inl (td.logged, ((env.SleepWithContext (td.task.ShouldRetry w).1).1,
          (l ++ [Event.ShouldRetry (td.task.ShouldRetry w).2]) ++
            [Event.SleepWithContext (env.SleepWithContext (td.task.ShouldRetry w).1).2.isSome]))
          = _
        rw [h2t, h3, List.append_assoc]
        rfl
      · have h3l : ¬ (env.logged.SleepWithContext
            (td.logged.wrappedShouldRetry (w, l)).2.1).2.isSome = true := h3
        have h3f : (env.SleepWithContext (td.task.ShouldRetry w).1).2.isSome = false := by
          simpa using h3
        rw [if_neg h3, if_neg h3l]
        show Sum.inr (td.logged, ((env.SleepWithContext (td.task.ShouldRetry w).1).1,
          (l ++ [Event.ShouldRetry (td.task.ShouldRetry w).2]) ++
            [Event.SleepWithContext (env.SleepWithContext (td.task.ShouldRetry w).1).2.isSome]))
          = _
        rw [h2t, h3f, List.append_assoc]
        rfl

/-- The retry of the recorded loop. -/
theorem wrappedDoRetry_logged (td : TaskHandlerDetails ω) (w : ω) (l : List Event) :
    ({ (td.logged.wrappedDoRetry (w, l)).1 with
        successful := (td.logged.wrappedDoRetry (w, l)).2.2 } :
      TaskHandlerDetails (ω × List Event)) =
      ({ td with count := wrapInt (td.count + 1),
                 successful := (td.task.DoRetry w).2 } : TaskHandlerDetails ω).logged ∧
    (td.logged.wrappedDoRetry (w, l)).2.1 =
      ((td.task.DoRetry w).1, l ++ [Event.DoRetry (td.task.DoRetry w).2]) :=
  ⟨rfl, rfl⟩

/-- The recorded loop: what it appends to the log and what it leaves in the
handler, when it ends and when the fuel is used up; it does not panic. -/
theorem retryLoop_logged (env : Env ω ε) (fuel : Nat) :
    ∀ (td : TaskHandlerDetails ω) (w : ω) (l : List Event), wrapInt td.count = td.count →
      (∀ s, retryLoop env.logged fuel td.logged (w, l) = Outcome.ended s →
        ∃ tail, s.2.2 = l ++ tail ∧ Retries [] td.successful tail s.1.successful ∧
          s.1.count = wrapInt (td.count + (attempts tail).length) ∧
          s.1.complete = td.complete ∧ s.1.wg = td.wg ∧ s.1.task = td.task.logged) ∧
      (∀ s, retryLoop env.logged fuel td.logged (w, l) = Outcome.running s →
        ∃ tail, s.2.2 = l ++ tail ∧ td.successful = false ∧ s.1.successful = false ∧
          attempts tail = List.replicate fuel false ∧ Event.DoDone ∉ tail ∧
          s.1.count = wrapInt (td.count + (attempts tail).length) ∧
          s.1.complete = td.complete) ∧
      retryLoop env.logged fuel td.logged (w, l) ≠ Outcome.panicked := by
  induction fuel with
  | zero =>
    intro td w l hc
    rw [retryLoop_zero, untilRetry_logged]
    by_cases h1 : td.successful = true
    · rw [if_pos h1]
      refine ⟨?_, ?_, ?_⟩
      · intro s hs
        cases hs
        refine ⟨[], by simp, ?_, ?_, rfl, rfl, rfl⟩
        · show Retries [] td.successful [] td.successful
          rw [h1]
          exact Retries.success
        · show td.count = _
          simp [attempts, hc]
      · intro s hs
        cases hs
      · intro hs
        cases hs
    · rw [if_neg h1]
      have h1f : td.successful = false := by simpa using h1
      by_cases h2 : (td.task.ShouldRetry w).2 = false
      · rw [if_pos h2]
        refine ⟨?_, ?_, ?_⟩
        · intro s hs
          cases hs
          refine ⟨[Event.ShouldRetry false], rfl, ?_, ?_, rfl, rfl, rfl⟩
          · show Retries [] td.successful _ td.successful
            rw [h1f]
            exact Retries.giveUp
          · show td.count = _
            simp [attempts, Event.attempt, hc]
        · intro s hs
          cases hs
        · intro hs
          cases hs
      · rw [if_neg h2]
        by_cases h3 : (env.SleepWithContext (td.task.ShouldRetry w).1).2.isSome = true
        · rw [if_pos h3]
          refine ⟨?_, ?_, ?_⟩
          · intro s hs
            cases hs
            refine ⟨[Event.ShouldRetry true, Event.SleepWithContext true], rfl, ?_, ?_,
              rfl, rfl, rfl⟩
            · show Retries [] td.successful _ td.successful
              rw [h1f]
              exact Retries.interrupted
            · show td.count = _
              simp [attempts, Event.attempt, hc]
          · intro s hs
            cases hs
          · intro hs
            cases hs
        · rw [if_neg h3]
          refine ⟨?_, ?_, ?_⟩
          · intro s hs
            cases hs
          · intro s hs
            cases hs
            refine ⟨[Event.ShouldRetry true, Event.SleepWithContext false], rfl, h1f, h1f,
              ?_, ?_, ?_, rfl⟩
            · simp [attempts, Event.attempt]
            · simp
            · show td.count = _
              simp [attempts, Event.attempt, hc]
          · intro hs
            cases hs
  | succ fuel ih =>
    intro td w l hc
    rw [retryLoop_succ, untilRetry_logged]
    by_cases h1 : td.successful = true
    · rw [if_pos h1]
      refine ⟨?_, ?_, ?_⟩
      · intro s hs
        cases hs
        refine ⟨[], by simp, ?_, ?_, rfl, rfl, rfl⟩
        · show Retries [] td.successful [] td.successful
          rw [h1]
          exact Retries.success
        · show td.count = _
          simp [attempts, hc]
      · intro s hs
        cases hs
      · intro hs
        cases hs
    · rw [if_neg h1]
      have h1f : td.successful = false := by simpa using h1
      by_cases h2 : (td.task.ShouldRetry w).2 = false
      · rw [if_pos h2]
        refine ⟨?_, ?_, ?_⟩
        · intro s hs
          cases hs
          refine ⟨[Event.ShouldRetry false], rfl, ?_, ?_, rfl, rfl, rfl⟩
          · show Retries [] td.successful _ td.successful
            rw [h1f]
            exact Retries.giveUp
          · show td.count = _
            simp [attempts, Event.attempt, hc]
        · intro s hs
          cases hs
        · intro hs
          cases hs
      · rw [if_neg h2]
        by_cases h3 : (env.SleepWithContext (td.task.ShouldRetry w).1).2.isSome = true
        · rw [if_pos h3]
          refine ⟨?_, ?_, ?_⟩
          · intro s hs
            cases hs
            refine ⟨[Event.ShouldRetry true, Event.SleepWithContext true], rfl, ?_, ?_,
              rfl, rfl, rfl⟩
            · show Retries [] td.successful _ td.successful
              rw [h1f]
              exact Retries.interrupted
            · show td.count = _
              simp [attempts, Event.attempt, hc]
          · intro s hs
            cases hs
          · intro hs
            cases hs
        · rw [if_neg h3]
          simp only []
          rw [(wrappedDoRetry_logged td _ _).1, (wrappedDoRetry_logged td _ _).2]
          obtain ⟨i1, i2, i3⟩ := ih
            ({ td with count := wrapInt (td.count + 1),
                       successful := (td.task.DoRetry
                         (env.SleepWithContext (td.task.ShouldRetry w).1).1).2 })
            (td.task.DoRetry (env.SleepWithContext (td.task.ShouldRetry w).1).1).1
            (l ++ [Event.ShouldRetry true, Event.SleepWithContext false] ++
              [Event.DoRetry (td.task.DoRetry
                (env.SleepWithContext (td.task.ShouldRetry w).1).1).2])
            (wrapInt_wrapInt _)
          refine ⟨?_, ?_, i3⟩
          · intro s hs
            obtain ⟨tail, e1, e2, e3, e4, e5, e6⟩ := i1 s hs
            refine ⟨Event.ShouldRetry true :: Event.SleepWithContext false ::
              Event.DoRetry (td.task.DoRetry
                (env.SleepWithContext (td.task.ShouldRetry w).1).1).2 :: tail,
              ?_, ?_, ?_, e4, e5, e6⟩
            · rw [e1]
              simp
            · rw [h1f]
              exact Retries.retry _ _ _ e2
            · rw [e3]
              show wrapInt (wrapInt (td.count + 1) + _) = _
              rw [wrapInt_add]
              simp only [attempts, List.filterMap_cons, Event.attempt, List.length_cons]
              congr 1
              push_cast
              ring
          · intro s hs
            obtain ⟨tail, e1, e2, e3, e4, e5, e6, e7⟩ := i2 s hs
            have e2f : (td.task.DoRetry
                (env.SleepWithContext (td.task.ShouldRetry w).1).1).2 = false := e2
            refine ⟨Event.ShouldRetry true :: Event.SleepWithContext false ::
              Event.DoRetry (td.task.DoRetry
                (env.SleepWithContext (td.task.ShouldRetry w).1).1).2 :: tail,
              ?_, h1f, e3, ?_, ?_, ?_, e7⟩
            · rw [e1]
              simp
            · simp only [attempts, List.filterMap_cons, Event.attempt]
              rw [e2f, List.replicate_succ]
              congr 1
            · simp [e5]
            · rw [e6]
              show wrapInt (wrapInt (td.count + 1) + _) = _
              rw [wrapInt_add]
              simp only [attempts, List.filterMap_cons, Event.attempt, List.length_cons]
              congr 1
              push_cast
              ring

/-- One round of the loop up to the retry, by cases. -/
theorem untilRetry_eq (env : Env ω ε) (td : TaskHandlerDetails ω) (w : ω) :
    untilRetry env td w =
      if td.successful = true then Sum.inl (td, w)
      else if (td.task.ShouldRetry w).2 = false then Sum.inl (td, (td.task.ShouldRetry w).1)
      else if (env.SleepWithContext (td.task.ShouldRetry w).1).2.isSome = true then
        Sum.inl (td, (env.SleepWithContext (td.task.ShouldRetry w).1).1)
      else Sum.inr (td, (env.SleepWithContext (td.task.ShouldRetry w).1).1) := rfl

/-- Recording does not change the loop: without its log, the recorded loop is
the loop. -/
theorem retryLoop_erase (env : Env ω ε) (fuel : Nat) :
    ∀ (td : TaskHandlerDetails ω) (w : ω) (l : List Event),
      retryLoop env fuel td w =
        (retryLoop env.logged fuel td.logged (w, l)).map (erase td.task) := by
  induction fuel with
  | zero =>
    intro td w l
    rw [retryLoop_zero, retryLoop_zero, untilRetry_logged, untilRetry_eq]
    split_ifs <;> rfl
  | succ fuel ih =>
    intro td w l
    rw [retryLoop_succ, retryLoop_succ, untilRetry_logged, untilRetry_eq]
    split_ifs
    · rfl
    · rfl
    · rfl
    · simp only []
      rw [(wrappedDoRetry_logged td _ _).1, (wrappedDoRetry_logged td _ _).2]
      exact ih _ _ _

end TaskHandlerDetails

/-! ### The shape of a log -/

/-- The events of a loop that has ended, followed by further events. -/
theorem retries_append (suffix : List Event) {prev last : Bool} {tail : List Event}
    (h : Retries [] prev tail last) : Retries suffix prev (tail ++ suffix) last := by
  induction h with
  | success => exact Retries.success
  | giveUp => exact Retries.giveUp
  | interrupted => exact Retries.interrupted
  | retry resp last rest _ ih => exact Retries.retry _ _ _ ih

/-- No `DoWork` among the events of the loop. -/
theorem retries_no_DoWork {suffix : List Event} {prev last : Bool} {tail : List Event}
    (h : Retries suffix prev tail last) (hs : ∀ r, Event.DoWork r ∉ suffix) :
    ∀ r, Event.DoWork r ∉ tail := by
  induction h with
  | success => exact hs
  | giveUp => intro r; simpa using hs r
  | interrupted => intro r; simpa using hs r
  | retry resp last rest _ ih => intro r; simpa using ih r

/-- The results of the attempts of the loop end with the result the loop was
left with. -/
theorem retries_last {suffix : List Event} {prev last : Bool} {tail : List Event}
    (h : Retries suffix prev tail last) (hs : attempts suffix = []) :
    (attempts tail).getLast?.getD prev = last := by
  induction h with
  | success => simp [hs]
  | giveUp =>
    have : attempts (Event.ShouldRetry false :: suffix) = [] := by
      simpa [attempts, Event.attempt] using hs
    simp [this]
  | interrupted =>
    have : attempts (Event.ShouldRetry true :: Event.SleepWithContext true :: suffix) = [] := by
      simpa [attempts, Event.attempt] using hs
    simp [this]
  | retry resp last rest _ ih =>
    have : attempts (Event.ShouldRetry true :: Event.SleepWithContext false ::
        Event.DoRetry resp :: rest) = resp :: attempts rest := by
      simp [attempts, Event.attempt]
    rw [this, List.getLast?_cons]
    simpa using ih

/-- The loop does not call `DoDone`. -/
theorem retries_count_DoDone {suffix : List Event} {prev last : Bool} {tail : List Event}
    (h : Retries suffix prev tail last) :
    tail.count Event.DoDone = suffix.count Event.DoDone := by
  induction h with
  | success => rfl
  | giveUp => simp
  | interrupted => simp
  | retry resp last rest _ ih => simpa using ih

/-- Every `DoRetry` of the loop comes right after a `ShouldRetry` that returned
true and a sleep that was not interrupted, which follow an attempt that
returned false. -/
theorem retries_DoRetry {suffix : List Event} {prev last : Bool} {tail : List Event}
    (h : Retries suffix prev tail last) (hs : ∀ e ∈ suffix, e.attempt = none) :
    ∀ a : Event, a.attempt = some prev → ∀ (i : Nat) (r : Bool),
      (a :: tail)[i + 1]? = some (Event.DoRetry r) →
      ∃ k, i + 1 = k + 3 ∧ ((a :: tail)[k]?).bind Event.attempt = some false ∧
        (a :: tail)[k + 1]? = some (Event.ShouldRetry true) ∧
        (a :: tail)[k + 2]? = some (Event.SleepWithContext false) := by
  induction h with
  | success =>
    intro a _ i r hi
    rw [List.getElem?_cons_succ] at hi
    have := hs _ (List.getElem?_mem hi)
    simp [Event.attempt] at this
  | giveUp =>
    intro a _ i r hi
    rw [List.getElem?_cons_succ] at hi
    cases i with
    | zero => simp at hi
    | succ i =>
      rw [List.getElem?_cons_succ] at hi
      have := hs _ (List.getElem?_mem hi)
      simp [Event.attempt] at this
  | interrupted =>
    intro a _ i r hi
    rw [List.getElem?_cons_succ] at hi
    cases i with
    | zero => simp at hi
    | succ i =>
      cases i with
      | zero => simp at hi
      | succ i =>
        rw [List.getElem?_cons_succ, List.getElem?_cons_succ] at hi
        have := hs _ (List.getElem?_mem hi)
        simp [Event.attempt] at this
  | retry resp last rest _ ih =>
    intro a ha i r hi
    cases i with
    | zero => simp at hi
    | succ i =>
      cases i with
      | zero => simp at hi
      | succ i =>
        cases i with
        | zero =>
          refine ⟨0, rfl, ?_, rfl, rfl⟩
          simp [ha]
        | succ i =>
          have hi2 : (Event.DoRetry resp :: rest)[i + 1]? = some (Event.DoRetry r) := by
            simpa using hi
          obtain ⟨k, hk, h1, h2, h3⟩ := ih (Event.DoRetry resp) rfl i r hi2
          refine ⟨k + 3, by omega, ?_, ?_, ?_⟩
          · simpa using h1
          · simpa using h2
          · simpa using h3

/-- After an attempt that returned true the loop makes no other attempt. -/
theorem retries_stop {suffix : List Event} {prev last : Bool} {tail : List Event}
    (h : Retries suffix prev tail last) (hs : ∀ e ∈ suffix, e.attempt = none) :
    ∀ a : Event, a.attempt = some prev → ∀ i j : Nat, i < j →
      ((a :: tail)[i]?).bind Event.attempt = some true →
      ((a :: tail)[j]?).bind Event.attempt = none := by
  have hsuf : ∀ (l : List Event), (∀ e ∈ l, e.attempt = none) →
      ∀ i : Nat, (l[i]?).bind Event.attempt = none := by
    intro l hl i
    cases hli : (l[i]? : Option Event) with
    | none => rfl
    | some e => exact hl e (List.getElem?_mem hli)
  induction h with
  | success =>
    intro a _ i j hij _
    cases j with
    | zero => omega
    | succ j =>
      rw [List.getElem?_cons_succ]
      exact hsuf _ hs j
  | giveUp =>
    intro a ha i j hij hi
    cases i with
    | zero => simp [ha] at hi
    | succ i =>
      rw [List.getElem?_cons_succ] at hi
      have hall : ∀ e ∈ Event.ShouldRetry false :: suffix, e.attempt = none := by
        intro e he
        rcases List.mem_cons.1 he with e1 | e1
        · rw [e1]; rfl
        · exact hs e e1
      rw [hsuf _ hall i] at hi
      cases hi
  | interrupted =>
    intro a ha i j hij hi
    cases i with
    | zero => simp [ha] at hi
    | succ i =>
      rw [List.getElem?_cons_succ] at hi
      have hall : ∀ e ∈ Event.ShouldRetry true :: Event.SleepWithContext true :: suffix,
          e.attempt = none := by
        intro e he
        rcases List.mem_cons.1 he with e1 | e1
        · rw [e1]; rfl
        · rcases List.mem_cons.1 e1 with e2 | e2
          · rw [e2]; rfl
          · exact hs e e2
      rw [hsuf _ hall i] at hi
      cases hi
  | retry resp last rest _ ih =>
    intro a ha i j hij hi
    cases i with
    | zero => simp [ha] at hi
    | succ i =>
      cases i with
      | zero => simp [Event.attempt] at hi
      | succ i =>
        cases i with
        | zero => simp [Event.attempt] at hi
        | succ i =>
          obtain ⟨j2, rfl⟩ : ∃ j2, j = j2 + 3 := ⟨j - 3, by omega⟩
          have hi2 : ((Event.DoRetry resp :: rest)[i]?).bind Event.attempt = some true := by
            simpa using hi
          have := ih (Event.DoRetry resp) rfl i j2 (by omega) hi2
          simpa using this

namespace TaskHandlerDetails

/-- `Start` on a handler with a wait group: the work, the loop, the deferred
calls. -/
theorem Start_eq (env : Env ω ε) (fuel : Nat) (td : TaskHandlerDetails ω) (w : ω) (n : Nat)
    (hwg : td.wg = some n) :
    Start env fuel td w =
      (retryLoop env fuel
          { td with wg := some (n + 1), count := wrapInt (td.count + 1),
                    successful := (td.task.DoWork w).2 }
          (td.task.DoWork w).1).andThen (fun s => deferred env s.1 s.2) := by
  unfold Start
  rw [hwg]
  rfl

/-- The deferred calls on a handler whose wait group counts at least one. -/
theorem deferred_eq (env : Env ω ε) (td : TaskHandlerDetails ω) (w : ω) (n : Nat)
    (hwg : td.wg = some (n + 1)) :
    deferred env td w =
      Outcome.ended ({ td with complete := true, wg := some n },
        td.task.DoDone (env.taskCancel w)) := by
  unfold deferred
  have : (td.wrappedDoDone (env.taskCancel w)).1.wg = some (n + 1) := hwg
  rw [this]
  rfl

/-- The recorded run of `Start` on a handler with a wait group: it does not
panic; when it ends, the log is `DoWork`, the events of the loop,
`taskCancel` and `DoDone`; when the fuel is used up, the work and `fuel`
retries have failed; and without its log it is the run of `Start`. -/
theorem Start_logged (env : Env ω ε) (fuel : Nat) (td : TaskHandlerDetails ω) (w : ω)
    (n : Nat) (hwg : td.wg = some n) :
    Start env.logged fuel td.logged (w, []) ≠ Outcome.panicked ∧
    (∀ s, Start env.logged fuel td.logged (w, []) = Outcome.ended s →
      ∃ tail, s.2.2 = Event.DoWork (td.task.DoWork w).2 ::
            (tail ++ [Event.taskCancel, Event.DoDone]) ∧
        Retries [] (td.task.DoWork w).2 tail s.1.successful ∧
        s.1.count = wrapInt (td.count + (1 + (attempts tail).length)) ∧
        s.1.complete = true ∧ s.1.wg = some n) ∧
    (∀ s, Start env.logged fuel td.logged (w, []) = Outcome.running s →
      ∃ tail, s.2.2 = Event.DoWork false :: tail ∧
        attempts tail = List.replicate fuel false ∧ Event.DoDone ∉ tail ∧
        s.1.complete = td.complete) ∧
    Start env fuel td w = (Start env.logged fuel td.logged (w, [])).map (erase td.task) := by
  have hwgl : td.logged.wg = some n := hwg
  obtain ⟨i1, i2, i3⟩ := retryLoop_logged env fuel
    { td with wg := some (n + 1), count := wrapInt (td.count + 1),
              successful := (td.task.DoWork w).2 }
    (td.task.DoWork w).1 ([] ++ [Event.DoWork (td.task.DoWork w).2]) (wrapInt_wrapInt _)
  have he := retryLoop_erase env fuel
    { td with wg := some (n + 1), count := wrapInt (td.count + 1),
              successful := (td.task.DoWork w).2 }
    (td.task.DoWork w).1 ([] ++ [Event.DoWork (td.task.DoWork w).2])
  have hstart : Start env.logged fuel td.logged (w, []) =
      (retryLoop env.logged fuel
          ({ td with wg := some (n + 1), count := wrapInt (td.count + 1),
                     successful := (td.task.DoWork w).2 } : TaskHandlerDetails ω).logged
          ((td.task.DoWork w).1, [] ++ [Event.DoWork (td.task.DoWork w).2])).andThen
        (fun s => deferred env.logged s.1 s.2) :=
    Start_eq env.logged fuel td.logged (w, []) n hwgl
  rw [Start_eq env fuel td w n hwg, he, hstart]
  revert i1 i2 i3
  generalize retryLoop env.logged fuel
      ({ td with wg := some (n + 1), count := wrapInt (td.count + 1),
                 successful := (td.task.DoWork w).2 } : TaskHandlerDetails ω).logged
      ((td.task.DoWork w).1, [] ++ [Event.DoWork (td.task.DoWork w).2]) = r
  intro i1 i2 i3
  cases r with
  | panicked => exact absurd rfl i3
  | running s =>
    obtain ⟨tail, e1, e2, e3, e4, e5, e6, e7⟩ := i2 s rfl
    simp only [Outcome.andThen, Outcome.map]
    refine ⟨by simp, ?_, ?_, trivial⟩
    · intro s2 hs2
      cases hs2
    · intro s2 hs2
      cases hs2
      have e2f : (td.task.DoWork w).2 = false := e2
      refine ⟨tail, ?_, e4, e5, e7⟩
      rw [e1, e2f]
      rfl
  | ended s =>
    obtain ⟨tail, e1, e2, e3, e4, e5, e6⟩ := i1 s rfl
    obtain ⟨td1, w1, l1⟩ := s
    have e1s : l1 = [] ++ [Event.DoWork (td.task.DoWork w).2] ++ tail := e1
    have e5s : td1.wg = some (n + 1) := e5
    have e6s : td1.task = td.task.logged := e6
    have hd := deferred_eq env.logged td1 (w1, l1) n e5s
    simp only [Outcome.andThen, Outcome.map]
    rw [hd]
    refine ⟨by simp, ?_, ?_, ?_⟩
    · intro s2 hs2
      cases hs2
      refine ⟨tail, ?_, e2, ?_, rfl, rfl⟩
      · show (td1.task.DoDone (env.logged.taskCancel (w1, l1))).2 = _
        rw [e6s, e1s]
        show ([] ++ [Event.DoWork (td.task.DoWork w).2] ++ tail ++ [Event.taskCancel])
          ++ [Event.DoDone] = _
        simp
      · show td1.count = _
        have e3s : td1.count = wrapInt (wrapInt (td.count + 1) + (attempts tail).length) := e3
        rw [e3s, wrapInt_add]
        congr 1
        ring
    · intro s2 hs2
      cases hs2
    · have e5e : (erase td.task (td1, (w1, l1))).1.wg = some (n + 1) := e5s
      show deferred env (erase td.task (td1, (w1, l1))).1 w1 = _
      rw [deferred_eq env _ _ n e5e]
      show _ = Outcome.ended (erase td.task _)
      congr 1
      show _ = (_, (td1.task.DoDone (env.logged.taskCancel (w1, l1))).1)
      rw [e6s]
      rfl

/-- C21: the goroutine of `Start` on a handler with a wait group, run with its
calls recorded (which, the log left out, is the run itself), does not panic.
When it ends: the log starts with the one `DoWork`; every `DoRetry` comes
right after a `ShouldRetry` that returned true and an uninterrupted sleep,
which follow an attempt that returned false; no attempt follows an attempt
that returned true; `Successful()` is the result of the last attempt; `count`
is the count at the start plus the number of attempts, in 64-bit arithmetic,
so the number of attempts for a count starting at 0 and fewer than 2^63
attempts; `DoDone` is in the log exactly once, as its last event; and
`Complete()` is true. When instead the fuel is used up, the work and `fuel`
retries have all failed and `DoDone` has not been called. -/
theorem Start_attempts (env : Env ω ε) (fuel : Nat) (td : TaskHandlerDetails ω) (w : ω)
    (n : Nat) (hwg : td.wg = some n) :
    Start env fuel td w = (Start env.logged fuel td.logged (w, [])).map (erase td.task) ∧
    Start env.logged fuel td.logged (w, []) ≠ Outcome.panicked ∧
    (∀ td1 w1 log,
      Start env.logged fuel td.logged (w, []) = Outcome.ended (td1, (w1, log)) →
      (∃ r rest, log = Event.DoWork r :: rest ∧ ∀ r1, Event.DoWork r1 ∉ rest) ∧
      (∀ (i : Nat) (r : Bool), log[i]? = some (Event.DoRetry r) →
        ∃ k, i = k + 3 ∧ (log[k]?).bind Event.attempt = some false ∧
          log[k + 1]? = some (Event.ShouldRetry true) ∧
          log[k + 2]? = some (Event.SleepWithContext false)) ∧
      (∀ i j : Nat, i < j → (log[i]?).bind Event.attempt = some true →
        (log[j]?).bind Event.attempt = none) ∧
      (attempts log).getLast? = some td1.Successful ∧
      td1.count = wrapInt (td.count + (attempts log).length) ∧
      (td.count = 0 → (attempts log).length < 2 ^ 63 →
        td1.count = (attempts log).length) ∧
      log.count Event.DoDone = 1 ∧ log.getLast? = some Event.DoDone ∧
      td1.Complete = true) ∧
    (∀ td1 w1 log,
      Start env.logged fuel td.logged (w, []) = Outcome.running (td1, (w1, log)) →
      attempts log = List.replicate (fuel + 1) false ∧ Event.DoDone ∉ log ∧
      td1.Complete = td.Complete) := by
  obtain ⟨h1, h2, h3, h4⟩ := Start_logged env fuel td w n hwg
  refine ⟨h4, h1, ?_, ?_⟩
  · intro td1 w1 log hrun
    obtain ⟨tail, e1, e2, e3, e4, _⟩ := h2 _ hrun
    have hlog : log = Event.DoWork (td.task.DoWork w).2 ::
        (tail ++ [Event.taskCancel, Event.DoDone]) := e1
    have hR := retries_append [Event.taskCancel, Event.DoDone] e2
    have hs : ∀ e ∈ [Event.taskCancel, Event.DoDone], e.attempt = none := by
      intro e he
      simp only [List.mem_cons, List.mem_singleton, List.not_mem_nil, or_false] at he
      rcases he with rfl | rfl <;> rfl
    have hatt : attempts log = (td.task.DoWork w).2 :: attempts tail := by
      rw [hlog]
      simp [attempts, Event.attempt, List.filterMap_append]
    have hcount : td1.count = wrapInt (td.count + (attempts log).length) := by
      have e3s : td1.count = wrapInt (td.count + (1 + (attempts tail).length)) := e3
      rw [e3s, hatt, List.length_cons]
      congr 1
      push_cast
      ring
    refine ⟨⟨_, _, hlog, retries_no_DoWork hR (by simp)⟩, ?_, ?_, ?_, hcount, ?_, ?_, ?_, e4⟩
    · intro i r hi
      rw [hlog] at hi ⊢
      cases i with
      | zero => simp at hi
      | succ i => exact retries_DoRetry hR hs (Event.DoWork _) rfl i r hi
    · rw [hlog]
      exact retries_stop hR hs (Event.DoWork _) rfl
    · have hl := retries_last hR (by simp [attempts, Event.attempt])
      rw [hlog]
      show (attempts (Event.DoWork (td.task.DoWork w).2 ::
        (tail ++ [Event.taskCancel, Event.DoDone]))).getLast? = some td1.successful
      have : attempts (Event.DoWork (td.task.DoWork w).2 ::
          (tail ++ [Event.taskCancel, Event.DoDone])) =
          (td.task.DoWork w).2 :: attempts (tail ++ [Event.taskCancel, Event.DoDone]) := by
        simp [attempts, Event.attempt]
      rw [this, List.getLast?_cons, hl]
    · intro h0 hlt
      rw [hcount, h0, zero_add]
      exact wrapInt_small _ (by positivity) (by exact_mod_cast hlt)
    · rw [hlog, List.count_cons, retries_count_DoDone hR]
      simp
    · have hl : Event.DoWork (td.task.DoWork w).2 ::
          (tail ++ [Event.taskCancel, Event.DoDone]) =
          (Event.DoWork (td.task.DoWork w).2 :: tail ++ [Event.taskCancel])
            ++ [Event.DoDone] := by simp
      rw [hlog, hl, List.getLast?_concat]
  · intro td1 w1 log hrun
    obtain ⟨tail, e1, e2, e3, e4⟩ := h3 _ hrun
    have hlog : log = Event.DoWork false :: tail := e1
    refine ⟨?_, ?_, e4⟩
    · rw [hlog]
      show attempts (Event.DoWork false :: tail) = _
      have : attempts (Event.DoWork false :: tail) = false :: attempts tail := by
        simp [attempts, Event.attempt]
      rw [this, e2, List.replicate_succ]
    · rw [hlog]
      simp [e3]

/-- On `exampleTask`, whose second retry succeeds, from a new handler: three
attempts, `count` 3, successful and complete; and on `failingTask` with fuel 2
the run has not ended after three failed attempts. -/
theorem Start_attempts_witness :
    (NewTaskHandler 0 exampleTask).wg = some 0 ∧
    Start exampleEnv.logged 5 (NewTaskHandler 0 exampleTask).logged (0, []) =
      Outcome.ended (
        { complete := true, count := 3, successful := true, task := exampleTask.logged,
          wg := some 0 },
        (2, [Event.DoWork false, Event.ShouldRetry true, Event.SleepWithContext false,
          Event.DoRetry false, Event.ShouldRetry true, Event.SleepWithContext false,
          Event.DoRetry true, Event.taskCancel, Event.DoDone])) ∧
    Start exampleEnv.logged 5 (NewTaskHandler 0 exampleTask).logged (0, [])
      ≠ Outcome.panicked ∧
    attempts [Event.DoWork false, Event.ShouldRetry true, Event.SleepWithContext false,
      Event.DoRetry false, Event.ShouldRetry true, Event.SleepWithContext false,
      Event.DoRetry true, Event.taskCancel, Event.DoDone] = [false, false, true] :=
  ⟨rfl, rfl, (Start_attempts exampleEnv 5 (NewTaskHandler 0 exampleTask) 0 0 rfl).2.1, rfl⟩

/-- The runs of three example tasks: one that succeeds at its second retry,
one that gives up after its work, and one that is still retrying when the fuel
is used up. -/
theorem Start_examples :
    (Start exampleEnv 5 (NewTaskHandler 0 exampleTask) 0).map
        (fun s => (s.1.count, s.1.Successful, s.1.Complete, s.1.wg, s.2))
      = Outcome.ended (3, true, true, some 0, 2) ∧
    (Start exampleEnv.logged 5 (NewTaskHandler 0 givingUpTask).logged (0, [])).map
        (fun s => (s.1.count, s.1.Successful, s.1.Complete, s.2.2))
      = Outcome.ended (1, false, true,
          [Event.DoWork false, Event.ShouldRetry false, Event.taskCancel, Event.DoDone]) ∧
    (Start exampleEnv.logged 2 (NewTaskHandler 0 failingTask).logged (0, [])).map
        (fun s => (s.1.count, s.1.Successful, s.1.Complete, attempts s.2.2))
      = Outcome.running (3, false, false, [false, false, false]) :=
  ⟨rfl, rfl, rfl⟩

end TaskHandlerDetails

end Tasks

/-! ## The cap, the evicted list and the round trip of the epoch -/

namespace PendingIndex

/-- A list built from at most one element per entry is as long as the number
of entries that give one. -/
theorem length_flatMap_of_le_one {α β : Type} (f : α → List β) (p : α → Bool) (l : List α)
    (hf : ∀ a ∈ l, (f a).length = if p a = true then 1 else 0) :
    (l.flatMap f).length = (l.filter p).length := by
  induction l with
  | nil => rfl
  | cons a rest ih =>
    have ha := hf a (List.mem_cons_self _ _)
    have hrest := ih (fun x hx => hf x (List.mem_cons_of_mem _ hx))
    rw [List.flatMap_cons, List.length_append, ha, hrest]
    by_cases hp : p a = true
    · rw [if_pos hp, List.filter_cons_of_pos hp, List.length_cons]
      omega
    · rw [if_neg hp, List.filter_cons_of_neg hp]
      omega

/-- Under the invariant the add algorithm collects exactly one txHash for a
utxoID that already has `maxRefs` references and none for any other. -/
theorem collected_length {m : Nat} {s : Store} {h : Hash} (u : Hash) (hs : Inv m s) :
    (collected m h (s.orderCounter + 1) (Spec.orderAdd s h).1 u).length
      = if decide (refsOn s u = m) = true then 1 else 0 := by
  have hcap := hs.cap u
  unfold collected
  rw [(orderAdd_frame s h).1, (orderAdd_frame s h).2.1, hs.counts.count_eq u]
  by_cases hc : refsOn s u + 1 > m
  · rw [if_pos hc, if_pos (by simp; omega)]
    have hne : (s.refs ++ [(⟨u, h, s.orderCounter + 1⟩ : Reference)]).filter
        (fun r : Reference => decide (r.utxoId = u)) ≠ [] := by
      rw [List.filter_append]
      simp
    obtain ⟨r, hr⟩ := oldestRef_isSome hne
    rw [hr]
    rfl
  · rw [if_neg hc, if_neg (by simp; omega)]
    rfl

/-- The evicted list has one entry for each utxoID of the call that already
had `maxRefs` references. -/
theorem evicted_length {m : Nat} {s : Store} {h : Hash} {us : List Hash}
    (hs : Inv m s) (hnd : us.Nodup) :
    (addLoop m s h us).2.length = (us.filter (fun u => decide (refsOn s u = m))).length := by
  rw [addLoop_evicted m s h us hnd]
  exact length_flatMap_of_le_one _ _ us (fun u _ => collected_length u hs)

namespace PendingTxIndexer

/-- C3: on the modelled sub-indices with a cap `m` of at least 1, after a
successful `Add` from a store satisfying the invariant: every UTXO has at most
`m` references; for every utxoID of the call that already had `m` references,
a reference of the old store on it with the least seq (the seq of its
transaction in the insertion-order index) belongs to a transaction that is
returned in the evicted list and is absent from the three indices afterwards;
conversely every transaction of the evicted list is the owner of a reference
with the least seq on a utxoID of the call that already had `m` references;
and the evicted list has exactly one entry for each such utxoID. -/
theorem Add_enforces_cap (m : Nat) (s : Store) (epoch : Nat) (txHash : Hash)
    (utxoIDs : List Hash) (hm : 1 ≤ m) (hs : Inv m s)
    (hok : (Add (Spec.indices m) s epoch txHash utxoIDs).2.2 = none) :
    (∀ u, refsOn (Add (Spec.indices m) s epoch txHash utxoIDs).1 u ≤ m) ∧
    (∀ u ∈ utxoIDs, refsOn s u = m →
      ∃ r ∈ s.refs, r.utxoId = u ∧
        (∀ x ∈ s.refs, x.utxoId = u → r.seq ≤ x.seq) ∧
        (⟨r.seq, r.txHash⟩ : OrderEntry) ∈ s.order ∧
        r.txHash ∈ (Add (Spec.indices m) s epoch txHash utxoIDs).2.1.elems ∧
        absent (Add (Spec.indices m) s epoch txHash utxoIDs).1 r.txHash) ∧
    (∀ e ∈ (Add (Spec.indices m) s epoch txHash utxoIDs).2.1.elems,
      ∃ u ∈ utxoIDs, refsOn s u = m ∧
        ∃ r ∈ s.refs, r.utxoId = u ∧ r.txHash = e ∧
          (∀ x ∈ s.refs, x.utxoId = u → r.seq ≤ x.seq) ∧
          (⟨r.seq, e⟩ : OrderEntry) ∈ s.order) ∧
    (Add (Spec.indices m) s epoch txHash utxoIDs).2.1.elems.length
      = (utxoIDs.filter (fun u => decide (refsOn s u = m))).length := by
  obtain ⟨hE, _⟩ := Add_post hok
  obtain ⟨_, hnd, _, _⟩ := Add_spec hok
  have hElems : (Add (Spec.indices m) s epoch txHash utxoIDs).2.1.elems
      = (addLoop m s txHash utxoIDs).2 := by rw [hE]; rfl
  refine ⟨(inv_Add hm hs hok).cap, ?_, ?_, ?_⟩
  · intro u hu hfull
    obtain ⟨r, hr, hru, hre, hmin⟩ :=
      evicted_exists (h := txHash) hm hs hnd hu (by omega : m ≤ refsOn s u)
    have hmem : r.txHash ∈ (Add (Spec.indices m) s epoch txHash utxoIDs).2.1.elems := by
      rw [hElems]; exact hre
    exact ⟨r, hr, hru, hmin, hs.ref_order r hr, hmem, evicted_absent_post hm hs hok hre⟩
  · intro e he
    rw [hElems] at he
    obtain ⟨u, hu, hfull, r, hr, hru, hre, hmin⟩ := evicted_old hm hs hnd he
    have hcap := hs.cap u
    refine ⟨u, hu, by omega, r, hr, hru, hre, hmin, ?_⟩
    have := hs.ref_order r hr
    rw [hre] at this
    exact this
  · rw [hElems]
    exact evicted_length hs hnd

/-- Adding `[3]` on the full UTXO `[9]` of `exampleStore` leaves every UTXO
within the cap 2 and evicts `[1]`, the oldest referrer of `[9]`, and nothing
else. -/
theorem Add_enforces_cap_witness :
    1 ≤ 2 ∧ Inv 2 exampleStore ∧
    (Add (Spec.indices 2) exampleStore 7 [3] [[9]]).2.2 = none ∧
    refsOn exampleStore [9] = 2 ∧
    (Add (Spec.indices 2) exampleStore 7 [3] [[9]]).2.1 = some [[1]] ∧
    refsOn (Add (Spec.indices 2) exampleStore 7 [3] [[9]]).1 [9] ≤ 2 ∧
    (∃ r ∈ exampleStore.refs, r.utxoId = [9] ∧
      (∀ x ∈ exampleStore.refs, x.utxoId = [9] → r.seq ≤ x.seq) ∧
      (⟨r.seq, r.txHash⟩ : OrderEntry) ∈ exampleStore.order ∧
      r.txHash ∈ (Add (Spec.indices 2) exampleStore 7 [3] [[9]]).2.1.elems ∧
      absent (Add (Spec.indices 2) exampleStore 7 [3] [[9]]).1 r.txHash) ∧
    (∃ u ∈ [[9]], refsOn exampleStore u = 2 ∧
      ∃ r ∈ exampleStore.refs, r.utxoId = u ∧ r.txHash = [1] ∧
        (∀ x ∈ exampleStore.refs, x.utxoId = u → r.seq ≤ x.seq) ∧
        (⟨r.seq, [1]⟩ : OrderEntry) ∈ exampleStore.order) ∧
    (Add (Spec.indices 2) exampleStore 7 [3] [[9]]).2.1.elems.length = 1 :=
  ⟨by decide, inv_of_check rfl, rfl, rfl, rfl,
    (Add_enforces_cap 2 exampleStore 7 [3] [[9]] (by decide) (inv_of_check rfl) rfl).1 [9],
    (Add_enforces_cap 2 exampleStore 7 [3] [[9]] (by decide) (inv_of_check rfl) rfl).2.1 [9]
      (List.mem_singleton_self _) rfl,
    (Add_enforces_cap 2 exampleStore 7 [3] [[9]] (by decide) (inv_of_check rfl) rfl).2.2.1
      [1] (List.mem_singleton_self _),
    (Add_enforces_cap 2 exampleStore 7 [3] [[9]] (by decide) (inv_of_check rfl)
      rfl).2.2.2⟩

end PendingTxIndexer

end PendingIndex

namespace PendingIndex

namespace PendingTxIndexer

variable {σ : Type}

/-- When `order.Add`, `reflink.Add`, the eviction loop and `expiration.Append`
all return nil, `Add` returns nil with the slice `reflink.Add` reported and the
state `expiration.Append` left. -/
theorem Add_all_ok (ix : SubIndices σ) (txn : σ) (epoch : Nat) (txHash : Hash)
    (utxoIDs : List Hash)
    (h1 : (ix.orderAdd txn txHash).2 = none)
    (h2 : (ix.reflinkAdd (ix.orderAdd txn txHash).1 txHash utxoIDs).2.2.2 = none)
    (h3 : (if (ix.reflinkAdd (ix.orderAdd txn txHash).1 txHash utxoIDs).2.1 = true then
          evictLoop ix (ix.reflinkAdd (ix.orderAdd txn txHash).1 txHash utxoIDs).1
            (ix.reflinkAdd (ix.orderAdd txn txHash).1 txHash utxoIDs).2.2.1.elems
        else ((ix.reflinkAdd (ix.orderAdd txn txHash).1 txHash utxoIDs).1, none)).2 = none)
    (h4 : (ix.expirationAppend
        (if (ix.reflinkAdd (ix.orderAdd txn txHash).1 txHash utxoIDs).2.1 = true then
          evictLoop ix (ix.reflinkAdd (ix.orderAdd txn txHash).1 txHash utxoIDs).1
            (ix.reflinkAdd (ix.orderAdd txn txHash).1 txHash utxoIDs).2.2.1.elems
        else ((ix.reflinkAdd (ix.orderAdd txn txHash).1 txHash utxoIDs).1, none)).1
        epoch txHash).2 = none) :
    Add ix txn epoch txHash utxoIDs =
      ((ix.expirationAppend
        (if (ix.reflinkAdd (ix.orderAdd txn txHash).1 txHash utxoIDs).2.1 = true then
          evictLoop ix (ix.reflinkAdd (ix.orderAdd txn txHash).1 txHash utxoIDs).1
            (ix.reflinkAdd (ix.orderAdd txn txHash).1 txHash utxoIDs).2.2.1.elems
        else ((ix.reflinkAdd (ix.orderAdd txn txHash).1 txHash utxoIDs).1, none)).1
        epoch txHash).1,
       (ix.reflinkAdd (ix.orderAdd txn txHash).1 txHash utxoIDs).2.2.1, none) := by
  rw [Add_proj, if_neg (not_not.2 h1), if_neg (not_not.2 h2), if_neg (not_not.2 h3),
    if_neg (not_not.2 h4)]

/-- Whenever `Add` returns an error its list is nil. -/
theorem Add_error_nil (ix : SubIndices σ) (txn : σ) (epoch : Nat) (txHash : Hash)
    (utxoIDs : List Hash) :
    (Add ix txn epoch txHash utxoIDs).2.2 ≠ none →
      (Add ix txn epoch txHash utxoIDs).2.1 = none := by
  unfold Add
  rcases ix.orderAdd txn txHash with ⟨t1, e1⟩
  cases e1 with
  | some e => simp
  | none =>
    dsimp only
    rcases ix.reflinkAdd t1 txHash utxoIDs with ⟨t2, ev, evd, e2⟩
    cases e2 with
    | some e => simp
    | none =>
      dsimp only
      rcases (if ev = true then evictLoop ix t2 evd.elems else (t2, none)) with ⟨t3, e3⟩
      cases e3 with
      | some e => simp
      | none =>
        dsimp only
        rcases ix.expirationAppend t3 epoch txHash with ⟨t4, e4⟩
        cases e4 <;> simp

/-- `Add` returns nil exactly when its four steps return nil. -/
theorem Add_ok_iff (ix : SubIndices σ) (txn : σ) (epoch : Nat) (txHash : Hash)
    (utxoIDs : List Hash) :
    (Add ix txn epoch txHash utxoIDs).2.2 = none ↔
      (ix.orderAdd txn txHash).2 = none ∧
      (ix.reflinkAdd (ix.orderAdd txn txHash).1 txHash utxoIDs).2.2.2 = none ∧
      (if (ix.reflinkAdd (ix.orderAdd txn txHash).1 txHash utxoIDs).2.1 = true then
          evictLoop ix (ix.reflinkAdd (ix.orderAdd txn txHash).1 txHash utxoIDs).1
            (ix.reflinkAdd (ix.orderAdd txn txHash).1 txHash utxoIDs).2.2.1.elems
        else ((ix.reflinkAdd (ix.orderAdd txn txHash).1 txHash utxoIDs).1, none)).2 = none ∧
      (ix.expirationAppend
        (if (ix.reflinkAdd (ix.orderAdd txn txHash).1 txHash utxoIDs).2.1 = true then
          evictLoop ix (ix.reflinkAdd (ix.orderAdd txn txHash).1 txHash utxoIDs).1
            (ix.reflinkAdd (ix.orderAdd txn txHash).1 txHash utxoIDs).2.2.1.elems
        else ((ix.reflinkAdd (ix.orderAdd txn txHash).1 txHash utxoIDs).1, none)).1
        epoch txHash).2 = none := by
  constructor
  · intro hok
    obtain ⟨h1, h2, h3, h4, _⟩ := Add_success ix txn epoch txHash utxoIDs hok
    exact ⟨h1, h2, h3, h4⟩
  · rintro ⟨h1, h2, h3, h4⟩
    rw [Add_all_ok ix txn epoch txHash utxoIDs h1 h2 h3 h4]

/-- C4: `Add` returns nil exactly when `order.Add`, `reflink.Add` (called on the
state `order.Add` left), the eviction loop and `expiration.Append` all return
nil; it then returns exactly the slice `reflink.Add` reported, with the state
`expiration.Append` left; and whenever `Add` returns an error its list is
nil. -/
theorem Add_returns_evicted (ix : SubIndices σ) (txn : σ) (epoch : Nat) (txHash : Hash)
    (utxoIDs : List Hash) :
    ((Add ix txn epoch txHash utxoIDs).2.2 = none ↔
      (ix.orderAdd txn txHash).2 = none ∧
      (ix.reflinkAdd (ix.orderAdd txn txHash).1 txHash utxoIDs).2.2.2 = none ∧
      (if (ix.reflinkAdd (ix.orderAdd txn txHash).1 txHash utxoIDs).2.1 = true then
          evictLoop ix (ix.reflinkAdd (ix.orderAdd txn txHash).1 txHash utxoIDs).1
            (ix.reflinkAdd (ix.orderAdd txn txHash).1 txHash utxoIDs).2.2.1.elems
        else ((ix.reflinkAdd (ix.orderAdd txn txHash).1 txHash utxoIDs).1, none)).2 = none ∧
      (ix.expirationAppend
        (if (ix.reflinkAdd (ix.orderAdd txn txHash).1 txHash utxoIDs).2.1 = true then
          evictLoop ix (ix.reflinkAdd (ix.orderAdd txn txHash).1 txHash utxoIDs).1
            (ix.reflinkAdd (ix.orderAdd txn txHash).1 txHash utxoIDs).2.2.1.elems
        else ((ix.reflinkAdd (ix.orderAdd txn txHash).1 txHash utxoIDs).1, none)).1
        epoch txHash).2 = none) ∧
    ((Add ix txn epoch txHash utxoIDs).2.2 = none →
      Add ix txn epoch txHash utxoIDs =
        ((ix.expirationAppend
          (if (ix.reflinkAdd (ix.orderAdd txn txHash).1 txHash utxoIDs).2.1 = true then
            evictLoop ix (ix.reflinkAdd (ix.orderAdd txn txHash).1 txHash utxoIDs).1
              (ix.reflinkAdd (ix.orderAdd txn txHash).1 txHash utxoIDs).2.2.1.elems
          else ((ix.reflinkAdd (ix.orderAdd txn txHash).1 txHash utxoIDs).1, none)).1
          epoch txHash).1,
         (ix.reflinkAdd (ix.orderAdd txn txHash).1 txHash utxoIDs).2.2.1, none)) ∧
    ((Add ix txn epoch txHash utxoIDs).2.2 ≠ none →
      (Add ix txn epoch txHash utxoIDs).2.1 = none) := by
  refine ⟨Add_ok_iff ix txn epoch txHash utxoIDs, ?_, ?_⟩
  · intro hok
    obtain ⟨h1, h2, h3, h4, _⟩ := Add_success ix txn epoch txHash utxoIDs hok
    exact Add_all_ok ix txn epoch txHash utxoIDs h1 h2 h3 h4
  · exact Add_error_nil ix txn epoch txHash utxoIDs

/-- On `exampleStore` the four steps of adding `[3]` on the full UTXO `[9]`
return nil, and `Add` returns nil with the slice `[[1]]` that `reflink.Add`
reported; adding `[1]` again fails in `order.Add` and returns the nil list. -/
theorem Add_returns_evicted_witness :
    (Add (Spec.indices 2) exampleStore 7 [3] [[9]]).2.2 = none ∧
    ((Spec.indices 2).reflinkAdd ((Spec.indices 2).orderAdd exampleStore [3]).1 [3]
      [[9]]).2.2.1 = some [[1]] ∧
    (Add (Spec.indices 2) exampleStore 7 [3] [[9]]).2.1 = some [[1]] ∧
    (Add (Spec.indices 2) exampleStore 7 [1] [[9]]).2 = (none, some Err.duplicateKey) :=
  ⟨((Add_returns_evicted (Spec.indices 2) exampleStore 7 [3] [[9]]).1).2
      ⟨rfl, rfl, rfl, rfl⟩,
    rfl,
    congrArg (fun r => r.2.1)
      ((Add_returns_evicted (Spec.indices 2) exampleStore 7 [3] [[9]]).2.1 rfl),
    rfl⟩

end PendingTxIndexer

end PendingIndex

namespace PendingIndex

/-- On the modelled sub-indices `Add` succeeds for a txHash that is in neither
the insertion-order index nor the expiration list, with utxoIDs that do not
repeat. -/
theorem Add_succeeds (m : Nat) (s : Store) (ep : Nat) (h : Hash) (us : List Hash)
    (hfo : ¬ inOrder s h) (hfe : ¬ inExpiration s h) (hnd : us.Nodup) :
    (PendingTxIndexer.Add (Spec.indices m) s ep h us).2.2 = none := by
  have hany : s.order.any (fun x => decide (x.txHash = h)) = false := by
    rw [List.any_eq_false]
    intro a ha
    have : a.txHash ≠ h := fun hx => hfo ⟨a, ha, hx⟩
    simpa using this
  have ho : Spec.orderAdd s h =
      ({ s with orderCounter := s.orderCounter + 1,
                order := s.order ++ [⟨s.orderCounter + 1, h⟩] }, none) := by
    unfold Spec.orderAdd
    rw [hany]
    rfl
  have hq : orderSeq (Spec.orderAdd s h).1.order h = some (s.orderCounter + 1) := by
    rw [ho]
    exact orderSeq_append_new s.order _ h hany
  have hr : Spec.reflinkAdd m (Spec.orderAdd s h).1 h us =
      ((us.foldl (Spec.refAddStep m h (s.orderCounter + 1)) ((Spec.orderAdd s h).1, [])).1,
        !(us.foldl (Spec.refAddStep m h (s.orderCounter + 1))
          ((Spec.orderAdd s h).1, [])).2.isEmpty,
        some (us.foldl (Spec.refAddStep m h (s.orderCounter + 1))
          ((Spec.orderAdd s h).1, [])).2, none) := by
    simp only [Spec.reflinkAdd, not_not.2 hnd, if_false, hq]
  have hfr := addFold_frame m h (s.orderCounter + 1) us ((Spec.orderAdd s h).1, [])
  have hep : (us.foldl (Spec.refAddStep m h (s.orderCounter + 1))
      ((Spec.orderAdd s h).1, [])).1.epochs = s.epochs := by
    rw [hfr.2.2.1, (orderAdd_frame s h).2.2.1]
  have hfresh : ∀ (t : Store), t.epochs = s.epochs → ∀ l : List Hash,
      (Spec.expirationAppend (l.foldl Store.purge t) ep h).2 = none := by
    intro t ht l
    have : (l.foldl Store.purge t).epochs.any (fun x => decide (x.txHash = h)) = false := by
      rw [List.any_eq_false]
      intro a ha
      rw [foldl_purge_epochs, ht] at ha
      have hmem := (List.mem_filter.1 ha).1
      have : a.txHash ≠ h := fun hx => hfe ⟨a, hmem, hx⟩
      simpa using this
    unfold Spec.expirationAppend
    rw [this]
    rfl
  apply (PendingTxIndexer.Add_ok_iff (Spec.indices m) s ep h us).2
  simp only [indices_orderAdd, indices_reflinkAdd, indices_expirationAppend]
  refine ⟨by rw [ho], by rw [hr], ?_, ?_⟩
  · rw [hr]
    simp only []
    split_ifs
    · rw [evictLoop_spec]
    · rfl
  · rw [hr]
    simp only []
    split_ifs
    · rw [evictLoop_spec]
      exact hfresh _ hep _
    · exact hfresh _ hep []

namespace PendingTxIndexer

/-- C13: `GetEpoch` returns precisely what `expiration.GetEpoch` returns. On the
modelled sub-indices, for a `txHash` that is in neither the insertion-order
index nor the expiration list and utxoIDs that do not repeat: before the `Add`
`GetEpoch(txHash)` returns `NotFound`; `Add(epoch, txHash, utxoIDs)` succeeds;
after it `GetEpoch(txHash)` returns `epoch`, and it still does after every
sequence of successful calls none of which deletes, evicts or drops `txHash`.
For every store: after a successful `Add` `GetEpoch` of the added txHash
returns the epoch of the call, an epoch that `GetEpoch` returns is kept over
such sequences, and `GetEpoch` of a txHash that is not in the expiration list
returns `NotFound`. -/
theorem GetEpoch_roundtrip {σ : Type} (ix : SubIndices σ) (txn : σ) (m : Nat) (s t : Store)
    (epoch : Nat) (txHash : Hash) (utxoIDs : List Hash) (ops : List Op)
    (hfo : ¬ inOrder s txHash) (hfe : ¬ inExpiration s txHash) (hnd : utxoIDs.Nodup) :
    GetEpoch ix txn txHash = ix.expirationGetEpoch txn txHash ∧
    GetEpoch (Spec.indices m) s txHash = (0, some Err.notFound) ∧
    (Add (Spec.indices m) s epoch txHash utxoIDs).2.2 = none ∧
    GetEpoch (Spec.indices m) (Add (Spec.indices m) s epoch txHash utxoIDs).1 txHash
      = (epoch, none) ∧
    (runOps m (Add (Spec.indices m) s epoch txHash utxoIDs).1 ops = some t →
      survives m (Add (Spec.indices m) s epoch txHash utxoIDs).1 ops txHash →
      GetEpoch (Spec.indices m) t txHash = (epoch, none)) ∧
    (∀ (s2 : Store) (ep2 : Nat) (h2 : Hash) (us2 : List Hash),
      (Add (Spec.indices m) s2 ep2 h2 us2).2.2 = none →
      GetEpoch (Spec.indices m) (Add (Spec.indices m) s2 ep2 h2 us2).1 h2 = (ep2, none)) ∧
    (∀ (s2 t2 : Store) (ep2 : Nat) (h2 : Hash) (ops2 : List Op),
      GetEpoch (Spec.indices m) s2 h2 = (ep2, none) → runOps m s2 ops2 = some t2 →
      survives m s2 ops2 h2 → GetEpoch (Spec.indices m) t2 h2 = (ep2, none)) ∧
    (∀ (s2 : Store) (h2 : Hash), ¬ inExpiration s2 h2 →
      GetEpoch (Spec.indices m) s2 h2 = (0, some Err.notFound)) := by
  have hok := Add_succeeds m s epoch txHash utxoIDs hfo hfe hnd
  have hget : GetEpoch (Spec.indices m) (Add (Spec.indices m) s epoch txHash utxoIDs).1 txHash
      = (epoch, none) := getEpoch_after_Add hok
  exact ⟨rfl, getEpoch_absent hfe, hok, hget,
    fun hrun hsurv => getEpoch_runOps ops _ t hget hrun hsurv,
    fun _ _ _ _ hok2 => getEpoch_after_Add hok2,
    fun s2 t2 _ _ ops2 hs hrun hsurv => getEpoch_runOps ops2 s2 t2 hs hrun hsurv,
    fun _ _ hs => getEpoch_absent hs⟩

/-- The txHash `[3]` is in no index of `exampleStore`. -/
theorem exampleStore_fresh : ¬ inOrder exampleStore [3] ∧ ¬ inExpiration exampleStore [3] := by
  unfold inOrder inExpiration
  decide

/-- On `exampleStore`: `GetEpoch([3])` is `NotFound`; `Add(7, [3], [[9]])`
succeeds and `GetEpoch([3])` is 7, and still 7 after `[4]` is added at epoch 8
and `[2]` is deleted; once `[3]` itself is deleted it is `NotFound` again. -/
theorem GetEpoch_roundtrip_witness :
    ¬ inOrder exampleStore [3] ∧ ¬ inExpiration exampleStore [3] ∧ [[9]].Nodup ∧
    GetEpoch (Spec.indices 2) exampleStore [3] = (0, some Err.notFound) ∧
    (Add (Spec.indices 2) exampleStore 7 [3] [[9]]).2.2 = none ∧
    GetEpoch (Spec.indices 2) (Add (Spec.indices 2) exampleStore 7 [3] [[9]]).1 [3]
      = (7, none) ∧
    (∀ t, runOps 2 (Add (Spec.indices 2) exampleStore 7 [3] [[9]]).1
        [Op.add 8 [4] [[8]], Op.deleteOne [2]] = some t →
      GetEpoch (Spec.indices 2) t [3] = (7, none)) ∧
    (runOps 2 (Add (Spec.indices 2) exampleStore 7 [3] [[9]]).1
        [Op.add 8 [4] [[8]], Op.deleteOne [2]]).isSome = true ∧
    GetEpoch (Spec.indices 2)
      (DeleteOne (Spec.indices 2) (Add (Spec.indices 2) exampleStore 7 [3] [[9]]).1 [3]).1 [3]
      = (0, some Err.notFound) :=
  ⟨exampleStore_fresh.1, exampleStore_fresh.2, by decide,
    (GetEpoch_roundtrip (Spec.indices 2) exampleStore 2 exampleStore exampleStore 7 [3] [[9]]
      [] exampleStore_fresh.1 exampleStore_fresh.2 (by decide)).2.1,
    (GetEpoch_roundtrip (Spec.indices 2) exampleStore 2 exampleStore exampleStore 7 [3] [[9]]
      [] exampleStore_fresh.1 exampleStore_fresh.2 (by decide)).2.2.1,
    (GetEpoch_roundtrip (Spec.indices 2) exampleStore 2 exampleStore exampleStore 7 [3] [[9]]
      [] exampleStore_fresh.1 exampleStore_fresh.2 (by decide)).2.2.2.1,
    fun t ht =>
      (GetEpoch_roundtrip (Spec.indices 2) exampleStore 2 exampleStore t 7 [3] [[9]]
        [Op.add 8 [4] [[8]], Op.deleteOne [2]] exampleStore_fresh.1 exampleStore_fresh.2
        (by decide)).2.2.2.2.1 ht (by
          unfold survives survives survives
          decide),
    rfl, rfl⟩

end PendingTxIndexer

end PendingIndex

/-! ## Appending to the list of dynamic values -/

namespace Dynamics

variable {DV LL Txn : Type}

/-- When `CreateNode` fails `addNode` returns its error and the transaction it
was given. -/
theorem addNode_create_error (d : Deps DV LL Txn) (txn : Txn) (ll : LL) (epoch : Nat) (dv : DV)
    (e : Err) (hc : d.CreateNode epoch dv = Except.error e) :
    addNode d txn ll epoch dv = (txn, some e) := by
  unfold addNode
  rw [hc]

/-- Every step of a successful `addNode` succeeded. -/
theorem addNode_steps (d : Deps DV LL Txn) (txn : Txn) (ll : LL) (epoch : Nat) (dv : DV)
    (n tail : Node DV) (hn : d.CreateNode epoch dv = Except.ok n)
    (ht : d.GetNode txn (d.GetMostFutureUpdate ll) = Except.ok tail)
    (htail : d.IsTail tail = true) (hok : (addNode d txn ll epoch dv).2 = none) :
    (d.SetNode txn (d.SetEpochs n tail).2.1).2 = none ∧
    (d.SetNode (d.SetNode txn (d.SetEpochs n tail).2.1).1 (d.SetEpochs n tail).1).2 = none ∧
    (d.SetLinkedList
      (d.SetNode (d.SetNode txn (d.SetEpochs n tail).2.1).1 (d.SetEpochs n tail).1).1
      (d.SetMostFutureUpdate ll (d.SetEpochs n tail).1.thisEpoch).1).2 = none := by
  rw [addNode_eq d txn ll epoch dv n tail hn ht htail] at hok
  by_cases hle : n.thisEpoch ≤ tail.thisEpoch
  · rw [if_pos hle] at hok
    cases hok
  · rw [if_neg hle] at hok
    revert hok
    rcases d.SetEpochs n tail with ⟨n1, t1, _ | e1⟩
    · simp only []
      rcases d.Validate t1 with _ | e2
      · simp only []
        rcases d.Validate n1 with _ | e3
        · simp only []
          rcases d.SetNode txn t1 with ⟨x1, _ | e4⟩
          · simp only []
            rcases d.SetNode x1 n1 with ⟨x2, _ | e5⟩
            · simp only []
              rcases d.SetMostFutureUpdate ll n1.thisEpoch with ⟨l1, _ | e6⟩
              · simp only []
                rcases d.SetLinkedList x2 l1 with ⟨x3, _ | e7⟩
                · intro _; exact ⟨trivial, trivial, rfl⟩
                · intro h; cases h
              · intro h; cases h
            · intro h; cases h
          · intro h; cases h
        · intro h; cases h
      · intro h; cases h
    · intro h; cases h

/-- A well-formed list below `p` is well formed in every transaction that
reads the same nodes below a bound above the epoch of `p`. -/
theorem chain_frame (d : Deps DV LL Txn) (hl : Lawful d) (txn txn2 : Txn) (bound : Nat)
    (hsame : ∀ e, e < bound → d.GetNode txn2 e = d.GetNode txn e) {p : Node DV}
    (hp : Chain d txn p) : p.thisEpoch < bound → Chain d txn2 p := by
  induction hp with
  | head n hh => intro _; exact Chain.head n hh
  | link n q hh hg hlt _ ih =>
    intro hb
    have hkey := hl.getNode_key txn n.prevEpoch q hg
    refine Chain.link n q hh ?_ hlt (ih (by omega))
    rw [hsame n.prevEpoch (by omega)]
    exact hg

/-- On a well-formed list the epochs of the nodes visited from the tail
towards the head decrease strictly. -/
theorem chain_walk_decreasing (d : Deps DV LL Txn) (txn : Txn) {start : Node DV}
    (hwf : Chain d txn start) :
    ∀ fuel, (walk d txn fuel start).Pairwise (fun a b => b.thisEpoch < a.thisEpoch) := by
  induction hwf with
  | head n hh =>
    intro fuel
    cases fuel with
    | zero => simp [walk]
    | succ f => simp [walk, hh]
  | link n p hh hg hlt hp ih =>
    intro fuel
    cases fuel with
    | zero => simp [walk]
    | succ f =>
      have hw : walk d txn (f + 1) n = n :: walk d txn f p := by
        simp [walk, hh, hg]
      rw [hw, List.pairwise_cons]
      refine ⟨?_, ih f⟩
      intro x hx
      exact Nat.lt_of_le_of_lt (walk_le d txn hp f x hx) hlt

end Dynamics

namespace Dynamics

variable {DV LL Txn : Type}

/-- Under the laws of the helpers, what a successful `addNode` leaves in the
database: the linked-list record with the new epoch as most-future-update and
the last-updated epoch untouched, the new node stored at the new epoch behind
the previous tail, and a list that is well formed below the new node when it
was well formed below the previous tail. -/
theorem addNode_keeps_order (d : Deps DV LL Txn) (hl : Lawful d) (txn : Txn) (ll : LL)
    (epoch : Nat) (dv : DV) (n tail : Node DV) (hn : d.CreateNode epoch dv = Except.ok n)
    (ht : d.GetNode txn (d.GetMostFutureUpdate ll) = Except.ok tail)
    (htail : d.IsTail tail = true) (hok : (addNode d txn ll epoch dv).2 = none) :
    tail.thisEpoch < epoch ∧
    d.GetLinkedList (addNode d txn ll epoch dv).1 =
      Except.ok (d.SetMostFutureUpdate ll (d.SetEpochs n tail).1.thisEpoch).1 ∧
    d.GetMostFutureUpdate (d.SetMostFutureUpdate ll (d.SetEpochs n tail).1.thisEpoch).1
      = epoch ∧
    d.GetEpochLastUpdated (d.SetMostFutureUpdate ll (d.SetEpochs n tail).1.thisEpoch).1
      = d.GetEpochLastUpdated ll ∧
    d.GetNode (addNode d txn ll epoch dv).1 epoch = Except.ok (d.SetEpochs n tail).1 ∧
    (d.SetEpochs n tail).1.thisEpoch = epoch ∧
    (d.SetEpochs n tail).1.prevEpoch = tail.thisEpoch ∧
    d.GetNode (addNode d txn ll epoch dv).1 tail.thisEpoch = Except.ok (d.SetEpochs n tail).2.1 ∧
    (∀ e, e < tail.thisEpoch →
      d.GetNode (addNode d txn ll epoch dv).1 e = d.GetNode txn e) ∧
    (Chain d txn tail → Chain d (addNode d txn ll epoch dv).1 (d.SetEpochs n tail).1) := by
  obtain ⟨hlt, hse, hmf, htxn⟩ := addNode_success d txn ll epoch dv n tail hn ht htail hok
  obtain ⟨hs1, hs2, hs3⟩ := addNode_steps d txn ll epoch dv n tail hn ht htail hok
  have hne : n.thisEpoch = epoch := hl.createNode_epoch epoch dv n hn
  obtain ⟨hn1, hn1p⟩ := hl.setEpochs_new n tail hse
  obtain ⟨ht1, ht1p, ht1h⟩ := hl.setEpochs_prev n tail hse
  obtain ⟨hget, hlast⟩ := hl.mostFutureUpdate_set ll (d.SetEpochs n tail).1.thisEpoch hmf
  have hread : ∀ e, d.GetNode (addNode d txn ll epoch dv).1 e =
      if e = (d.SetEpochs n tail).1.thisEpoch then Except.ok (d.SetEpochs n tail).1
      else if e = (d.SetEpochs n tail).2.1.thisEpoch then Except.ok (d.SetEpochs n tail).2.1
      else d.GetNode txn e := by
    intro e
    rw [htxn, hl.getNode_setLinkedList _ _ e hs3, hl.getNode_setNode _ _ e hs2,
      hl.getNode_setNode _ _ e hs1]
  have hnew : d.GetNode (addNode d txn ll epoch dv).1 epoch = Except.ok (d.SetEpochs n tail).1 := by
    rw [hread, if_pos (by rw [hn1, hne])]
  have hprev : d.GetNode (addNode d txn ll epoch dv).1 tail.thisEpoch
      = Except.ok (d.SetEpochs n tail).2.1 := by
    rw [hread, if_neg (by rw [hn1]; omega), if_pos ht1.symm]
  have hframe : ∀ e, e < tail.thisEpoch →
      d.GetNode (addNode d txn ll epoch dv).1 e = d.GetNode txn e := by
    intro e he
    rw [hread, if_neg (by rw [hn1]; omega), if_neg (by rw [ht1]; omega)]
  refine ⟨by omega, ?_, by rw [hget, hn1, hne], hlast, hnew, by rw [hn1, hne], hn1p, hprev,
    hframe, ?_⟩
  · rw [htxn]
    exact hl.getLinkedList_setLinkedList _ _ hs3
  · intro hch
    have hnh : d.IsHead (d.SetEpochs n tail).1 = false := by
      cases hh : d.IsHead (d.SetEpochs n tail).1 with
      | false => rfl
      | true =>
        have := hl.isHead_self _ hh
        rw [hn1p, hn1] at this
        omega
    refine Chain.link _ (d.SetEpochs n tail).2.1 hnh (by rw [hn1p]; exact hprev)
      (by rw [ht1, hn1]; exact hlt) ?_
    cases hch with
    | head _ hh => exact Chain.head _ (by rw [ht1h]; exact hh)
    | link _ p hh hg hpl hp =>
      have hkey := hl.getNode_key txn tail.prevEpoch p hg
      refine Chain.link _ p (by rw [ht1h]; exact hh) ?_ (by rw [ht1]; exact hpl) ?_
      · rw [ht1p, hframe tail.prevEpoch (by omega)]
        exact hg
      · exact chain_frame d hl txn _ tail.thisEpoch hframe hp hpl

/-- The in-memory helpers of the examples obey the laws. -/
theorem memDeps_lawful : Lawful memDeps := by
  refine ⟨?_, ?_, ?_, ?_, ?_, ?_, ?_, ?_, ?_⟩
  · intro e dv n h
    unfold memDeps at h
    simp only [] at h
    split_ifs at h
    cases h
    rfl
  · intro n p _
    exact ⟨rfl, rfl⟩
  · intro n p _
    exact ⟨rfl, rfl, rfl⟩
  · intro n h
    have : decide (n.prevEpoch = n.thisEpoch) = true := h
    simpa using this
  · intro txn e x h
    have h2 : (match txn.nodes.find? (fun n => decide (n.thisEpoch = e)) with
      | some n => Except.ok n
      | none => Except.error Err.keyNotPresent) = Except.ok x := h
    cases hf : txn.nodes.find? (fun n => decide (n.thisEpoch = e)) with
    | none => rw [hf] at h2; cases h2
    | some y =>
      rw [hf] at h2
      cases h2
      have := List.find?_some hf
      simpa using this
  · intro txn x e _
    show (match (x :: txn.nodes.filter (fun y => decide (y.thisEpoch ≠ x.thisEpoch))).find?
        (fun n => decide (n.thisEpoch = e)) with
      | some n => Except.ok n
      | none => Except.error Err.keyNotPresent) =
      if e = x.thisEpoch then Except.ok x
      else (match txn.nodes.find? (fun n => decide (n.thisEpoch = e)) with
        | some n => Except.ok n
        | none => Except.error Err.keyNotPresent)
    by_cases hc : e = x.thisEpoch
    · rw [if_pos hc, List.find?_cons_of_pos _ (by simp [hc])]
    · rw [if_neg hc, List.find?_cons_of_neg _ (by simpa using fun h => hc h.symm)]
      have : (txn.nodes.filter (fun y => decide (y.thisEpoch ≠ x.thisEpoch))).find?
          (fun n => decide (n.thisEpoch = e)) =
          txn.nodes.find? (fun n => decide (n.thisEpoch = e)) := by
        induction txn.nodes with
        | nil => rfl
        | cons a rest ih =>
          by_cases ha : a.thisEpoch = x.thisEpoch
          · rw [List.filter_cons_of_neg (by simpa using ha), ih,
              List.find?_cons_of_neg _ (by simp [ha]; exact fun h => hc h.symm)]
          · rw [List.filter_cons_of_pos (by simpa using ha)]
            by_cases hae : a.thisEpoch = e
            · rw [List.find?_cons_of_pos _ (by simpa using hae),
                List.find?_cons_of_pos _ (by simpa using hae)]
            · rw [List.find?_cons_of_neg _ (by simpa using hae),
                List.find?_cons_of_neg _ (by simpa using hae), ih]
      rw [this]
  · intro txn l e _
    rfl
  · intro txn l _
    rfl
  · intro l e _
    exact ⟨rfl, rfl⟩

end Dynamics

namespace Dynamics

variable {DV LL Txn : Type}

/-- C17 as stated fails for helpers whose `CreateNode` rejects epoch 0: on the
example database, whose tail is at epoch 9, `addNode` and `ChangeDynamicValues`
for epoch 0 return `ErrZeroEpoch`, the error of `CreateNode`, which is not an
`ErrInvalidNode`. -/
theorem addNode_counterexample :
    memDeps.GetNode memDB (memDeps.GetMostFutureUpdate ⟨5, 9⟩) = Except.ok ⟨9, 5, 9, 30⟩ ∧
    memDeps.IsTail ⟨9, 5, 9, 30⟩ = true ∧ 0 ≤ 9 ∧
    memDeps.CreateNode 0 40 = Except.error Err.zeroEpoch ∧
    addNode memDeps memDB ⟨5, 9⟩ 0 40 = (memDB, some Err.zeroEpoch) ∧
    ChangeDynamicValues memDeps none memDB 0 [] = (memDB, none, some Err.zeroEpoch) ∧
    (∀ n : Node Nat, Err.zeroEpoch ≠ errInvalidNode n) :=
  ⟨rfl, rfl, by decide, rfl, rfl, rfl, fun n h => by cases h⟩

/-- C17, amended: with an existing linked list whose stored tail is read and is
the tail, `addNode` first returns the error of `CreateNode` if it has one; for a
created node whose epoch is not above the tail's it returns `ErrInvalidNode`;
in both cases nothing is written (the transaction is the one it was given and
the log of writes is unchanged), so a write implies a node strictly after the
tail; when it succeeds the writes are the previous tail, the new node and the
linked-list record on which `SetMostFutureUpdate` was called with the new
node's epoch. Under the laws of the helpers: for every `epoch` not above the
tail's `addNode` fails and writes nothing, with `ErrInvalidNode` whenever
`CreateNode` gave a node; on success `epoch` is strictly above the tail's
epoch, the stored record has `epoch` as most-future-update and its
last-updated epoch untouched, the node stored at `epoch` carries it, and a list
that was well formed below the previous tail is well formed below the new
node, its epochs decreasing strictly from the new node towards the head. And
`ChangeDynamicValues` with an existing list is `addNode`. -/
theorem addNode_appends (d : Deps DV LL Txn) (txn : Txn) (log : List (Write DV LL)) (ll : LL)
    (epoch : Nat) (dv : DV) (tail : Node DV)
    (ht : d.GetNode txn (d.GetMostFutureUpdate ll) = Except.ok tail)
    (htail : d.IsTail tail = true) :
    (∀ e, d.CreateNode epoch dv = Except.error e →
      addNode d txn ll epoch dv = (txn, some e) ∧
      addNode (logged d) (txn, log) ll epoch dv = ((txn, log), some e)) ∧
    (∀ n, d.CreateNode epoch dv = Except.ok n → n.thisEpoch ≤ tail.thisEpoch →
      addNode d txn ll epoch dv = (txn, some (errInvalidNode n)) ∧
      addNode (logged d) (txn, log) ll epoch dv = ((txn, log), some (errInvalidNode n))) ∧
    ((addNode (logged d) (txn, log) ll epoch dv).1.2 ≠ log →
      ∃ n, d.CreateNode epoch dv = Except.ok n ∧ tail.thisEpoch < n.thisEpoch) ∧
    ((addNode d txn ll epoch dv).2 = none →
      ∃ n, d.CreateNode epoch dv = Except.ok n ∧ tail.thisEpoch < n.thisEpoch ∧
        (addNode d txn ll epoch dv).1 =
          (d.SetLinkedList
            (d.SetNode (d.SetNode txn (d.SetEpochs n tail).2.1).1 (d.SetEpochs n tail).1).1
            (d.SetMostFutureUpdate ll (d.SetEpochs n tail).1.thisEpoch).1).1 ∧
        (addNode (logged d) (txn, log) ll epoch dv).1.2 =
          log ++ [Write.node (d.SetEpochs n tail).2.1, Write.node (d.SetEpochs n tail).1,
            Write.linkedList (d.SetMostFutureUpdate ll (d.SetEpochs n tail).1.thisEpoch).1]) ∧
    (Lawful d →
      (epoch ≤ tail.thisEpoch →
        (addNode d txn ll epoch dv).2 ≠ none ∧
        (addNode (logged d) (txn, log) ll epoch dv).1 = (txn, log) ∧
        ∀ n, d.CreateNode epoch dv = Except.ok n →
          (addNode d txn ll epoch dv).2 = some (errInvalidNode n)) ∧
      ((addNode d txn ll epoch dv).2 = none →
        tail.thisEpoch < epoch ∧
        ∃ ll1 n1,
          d.GetLinkedList (addNode d txn ll epoch dv).1 = Except.ok ll1 ∧
          d.GetMostFutureUpdate ll1 = epoch ∧
          d.GetEpochLastUpdated ll1 = d.GetEpochLastUpdated ll ∧
          d.GetNode (addNode d txn ll epoch dv).1 epoch = Except.ok n1 ∧
          n1.thisEpoch = epoch ∧ n1.prevEpoch = tail.thisEpoch ∧
          (Chain d txn tail →
            Chain d (addNode d txn ll epoch dv).1 n1 ∧
            ∀ fuel, (walk d (addNode d txn ll epoch dv).1 fuel n1).Pairwise
              (fun a b => b.thisEpoch < a.thisEpoch)))) ∧
    (∀ mem raw, d.DecodeDynamicValues raw = Except.ok dv → d.GetLinkedList txn = Except.ok ll →
      ChangeDynamicValues d mem txn epoch raw
        = ((addNode d txn ll epoch dv).1, mem, (addNode d txn ll epoch dv).2)) := by
  have ht2 : (logged d).GetNode (txn, log) ((logged d).GetMostFutureUpdate ll)
      = Except.ok tail := ht
  have htail2 : (logged d).IsTail tail = true := htail
  have hA : ∀ e, d.CreateNode epoch dv = Except.error e →
      addNode d txn ll epoch dv = (txn, some e) ∧
      addNode (logged d) (txn, log) ll epoch dv = ((txn, log), some e) := by
    intro e hc
    have hc2 : (logged d).CreateNode epoch dv = Except.error e := hc
    exact ⟨addNode_create_error d txn ll epoch dv e hc,
      addNode_create_error (logged d) (txn, log) ll epoch dv e hc2⟩
  have hB : ∀ n, d.CreateNode epoch dv = Except.ok n → n.thisEpoch ≤ tail.thisEpoch →
      addNode d txn ll epoch dv = (txn, some (errInvalidNode n)) ∧
      addNode (logged d) (txn, log) ll epoch dv = ((txn, log), some (errInvalidNode n)) := by
    intro n hn hle
    have hn2 : (logged d).CreateNode epoch dv = Except.ok n := hn
    rw [addNode_eq d txn ll epoch dv n tail hn ht htail,
      addNode_eq (logged d) (txn, log) ll epoch dv n tail hn2 ht2 htail2,
      if_pos hle, if_pos hle]
    exact ⟨rfl, rfl⟩
  have hC : (addNode d txn ll epoch dv).2 = none →
      ∃ n, d.CreateNode epoch dv = Except.ok n := by
    intro hok
    cases hc : d.CreateNode epoch dv with
    | error e =>
      rw [(hA e hc).1] at hok
      cases hok
    | ok n => exact ⟨n, rfl⟩
  refine ⟨hA, hB, ?_, ?_, ?_, ?_⟩
  · intro hw
    cases hc : d.CreateNode epoch dv with
    | error e =>
      rw [(hA e hc).2] at hw
      exact absurd rfl hw
    | ok n =>
      refine ⟨n, rfl, ?_⟩
      by_contra hle
      rw [(hB n hc (by omega)).2] at hw
      exact absurd rfl hw
  · intro hok
    obtain ⟨n, hn⟩ := hC hok
    obtain ⟨h1, _, _, h4⟩ := addNode_success d txn ll epoch dv n tail hn ht htail hok
    exact ⟨n, hn, h1, h4, addNode_logged d txn log ll epoch dv n tail hn ht htail hok⟩
  · intro hl
    constructor
    · intro hle
      cases hc : d.CreateNode epoch dv with
      | error e =>
        rw [(hA e hc).1, (hA e hc).2]
        exact ⟨by simp, rfl, fun n hn => by cases hn⟩
      | ok n =>
        have hne := hl.createNode_epoch epoch dv n hc
        have hb := hB n hc (by omega)
        rw [hb.1, hb.2]
        refine ⟨by simp, rfl, ?_⟩
        intro n2 hn2
        cases hn2
        rfl
    · intro hok
      obtain ⟨n, hn⟩ := hC hok
      obtain ⟨k1, k2, k3, k4, k5, k6, k7, _, _, k10⟩ :=
        addNode_keeps_order d hl txn ll epoch dv n tail hn ht htail hok
      refine ⟨k1, _, _, k2, k3, k4, k5, k6, k7, ?_⟩
      intro hch
      exact ⟨k10 hch, chain_walk_decreasing d _ (k10 hch)⟩
  · intro mem raw hdec hll
    unfold ChangeDynamicValues
    rw [hdec]
    simp only []
    rw [hll]

/-- On the example database, whose tail is at epoch 9 and whose record is
(last updated 5, most future 9): epoch 7 is rejected with `ErrInvalidNode` and
nothing written; epoch 12 is appended, the record written is (5, 12), the node
stored at 12 is linked behind 9, and the epochs visited from it are 12, 9, 5,
1. -/
theorem addNode_appends_witness :
    memDeps.GetNode memDB (memDeps.GetMostFutureUpdate ⟨5, 9⟩) = Except.ok ⟨9, 5, 9, 30⟩ ∧
    memDeps.IsTail ⟨9, 5, 9, 30⟩ = true ∧
    addNode memDeps memDB ⟨5, 9⟩ 7 40 = (memDB, some (Err.invalidNode 7 0 0)) ∧
    addNode (logged memDeps) (memDB, []) ⟨5, 9⟩ 7 40
      = ((memDB, []), some (Err.invalidNode 7 0 0)) ∧
    (addNode memDeps memDB ⟨5, 9⟩ 12 40).2 = none ∧
    (addNode (logged memDeps) (memDB, []) ⟨5, 9⟩ 12 40).1.2
      = [Write.node ⟨9, 5, 12, 30⟩, Write.node ⟨12, 9, 12, 40⟩, Write.linkedList ⟨5, 12⟩] ∧
    (9 < 12 ∧ ∃ ll1 n1,
      memDeps.GetLinkedList (addNode memDeps memDB ⟨5, 9⟩ 12 40).1 = Except.ok ll1 ∧
      memDeps.GetMostFutureUpdate ll1 = 12 ∧
      memDeps.GetEpochLastUpdated ll1 = memDeps.GetEpochLastUpdated ⟨5, 9⟩ ∧
      memDeps.GetNode (addNode memDeps memDB ⟨5, 9⟩ 12 40).1 12 = Except.ok n1 ∧
      n1.thisEpoch = 12 ∧ n1.prevEpoch = (⟨9, 5, 9, 30⟩ : Node Nat).thisEpoch ∧
      (Chain memDeps memDB ⟨9, 5, 9, 30⟩ →
        Chain memDeps (addNode memDeps memDB ⟨5, 9⟩ 12 40).1 n1 ∧
        ∀ fuel, (walk memDeps (addNode memDeps memDB ⟨5, 9⟩ 12 40).1 fuel n1).Pairwise
          (fun a b => b.thisEpoch < a.thisEpoch))) ∧
    (walk memDeps (addNode memDeps memDB ⟨5, 9⟩ 12 40).1 10 ⟨12, 9, 12, 40⟩).map
      Node.thisEpoch = [12, 9, 5, 1] :=
  ⟨rfl, rfl,
    ((addNode_appends memDeps memDB [] ⟨5, 9⟩ 7 40 ⟨9, 5, 9, 30⟩ rfl rfl).2.1
      ⟨7, 0, 0, 40⟩ rfl (by decide)).1,
    ((addNode_appends memDeps memDB [] ⟨5, 9⟩ 7 40 ⟨9, 5, 9, 30⟩ rfl rfl).2.1
      ⟨7, 0, 0, 40⟩ rfl (by decide)).2,
    rfl, rfl,
    ((addNode_appends memDeps memDB [] ⟨5, 9⟩ 12 40 ⟨9, 5, 9, 30⟩ rfl rfl).2.2.2.2.1
      memDeps_lawful).2 rfl,
    rfl⟩

end Dynamics
